import Mathlib

/-!
Shallow embedding of the IPv4 FIB trie (net/ipv4/fib_trie.c) — an LPC-trie
storing routes (aliases) keyed by 32-bit prefixes, with longest-prefix-match
lookup, sorted alias lists per leaf, and adaptive rebalancing
(inflate/halve/collapse).

Source identifiers are kept verbatim, including the repository's own
spelling (`tyesde`, `fib_find_yesde`, `yesde_push_suffix`, ...).

Machine integers: keys are `Nat` values < 2^32 (t_key is u32); index and
counter arithmetic that the kernel performs on `unsigned long` is modelled on
`Nat` (no overflow occurs for well-formed nodes, whose child-array length is
2^bits; `Nat` truncated subtraction stands in for the u64 subtraction that
never underflows there).  Pointer structure is modelled by a recursive tree
type; the one writer mutating the structure in place is modelled by pure
functions from trie to trie, with parent-pointer walks carried out on an
explicit ancestor context (zipper).
-/

/-- KEYLENGTH = 8 * sizeof(t_key) = 32. -/
def KEYLENGTH : Nat := 32

/-- KEY_MAX = (t_key)~0 = 2^32 - 1. -/
def KEY_MAX : Nat := 2 ^ 32 - 1

/-- `struct fib_nh_common`: the per-nexthop fields read by the trie's lookup
filter loop (nhc_flags dead/linkdown bits, nhc_oif, and the
`ip_igyesre_linkdown(nhc_dev)` device predicate, which lives outside this
repository and is carried as a precomputed Boolean). -/
structure FibNhc where
  nhc_dead : Bool
  nhc_linkdown : Bool
  igyesre_linkdown : Bool
  nhc_oif : Nat
  deriving DecidableEq, Repr

/-- `struct fib_info`: externally owned (fib_semantics.c is not part of this
repository); only the fields the trie reads are modelled, per the spec
(priority, scope, dead, nexthop state).  `nh_blackhole` stands for
`fi->nh && nexthop_is_blackhole(fi->nh)`. -/
structure FibInfo where
  fib_priority : Nat
  fib_scope : Nat
  fib_dead : Bool
  fib_flags_dead : Bool
  nh_blackhole : Bool
  nhs : List FibNhc
  fib_prefsrc : Nat
  fib_protocol : Nat
  deriving DecidableEq, Repr

/-- `struct fib_alias` (declared in fib_lookup.h, used throughout
fib_trie.c): one route entry sharing a leaf's key. -/
structure FibAlias where
  fa_slen : Nat
  fa_tos : Nat
  fa_type : Nat
  fa_state : Nat
  tb_id : Nat
  fa_info : FibInfo
  deriving DecidableEq, Repr

/-- FA_S_ACCESSED flag bit (fib_lookup.h). -/
def FA_S_ACCESSED : Nat := 1

/-- `struct key_vector`: a leaf (`bits = 0`, owning the alias list) or an
internal tyesde (`bits > 0`, owning an array of `2^bits` child slots; an
empty slot is `yesne`).  `slen` is the cached suffix length. -/
inductive KV : Type where
  | leaf (key : Nat) (slen : Nat) (fas : List FibAlias)
  | tyesde (key : Nat) (pos : Nat) (bits : Nat) (slen : Nat)
      (children : List (Option KV))
  deriving Repr

namespace KV

def key : KV → Nat
  | .leaf k _ _ => k
  | .tyesde k _ _ _ _ => k

def pos : KV → Nat
  | .leaf _ _ _ => 0
  | .tyesde _ p _ _ _ => p

def bits : KV → Nat
  | .leaf _ _ _ => 0
  | .tyesde _ _ b _ _ => b

def slen : KV → Nat
  | .leaf _ s _ => s
  | .tyesde _ _ _ s _ => s

def children : KV → List (Option KV)
  | .leaf _ _ _ => []
  | .tyesde _ _ _ _ ch => ch

def fas : KV → List FibAlias
  | .leaf _ _ l => l
  | .tyesde _ _ _ _ _ => []

end KV

/-- IS_TNODE(n): `n->bits` nonzero. -/
def IS_TNODE (n : KV) : Bool := n.bits != 0

/-- IS_LEAF(n): `!n->bits`. -/
def IS_LEAF (n : KV) : Bool := n.bits == 0

/-- child_length(tn) = (1ul << tn->bits) & ~1ul : number of accessible
children; 0 for a leaf, 2^bits for an internal yesde. -/
def child_length (tn : KV) : Nat := if tn.bits = 0 then 0 else 2 ^ tn.bits

/-- get_child(tn, i): read child slot i (NULL for an out-of-range or empty
slot). -/
def get_child (tn : KV) (i : Nat) : Option KV := (KV.children tn).getD i none

/-- get_cindex(key, kv) = ((key ^ kv->key) >> kv->pos). -/
def get_cindex (key : Nat) (kv : KV) : Nat := (key ^^^ kv.key) >>> kv.pos

/-- get_index(key, kv): as get_cindex but returning 0 when
`kv->pos = KEYLENGTH` (the trie root case guarded in the source). -/
def get_index (key : Nat) (kv : KV) : Nat :=
  if kv.pos = KEYLENGTH then 0 else (key ^^^ kv.key) >>> kv.pos

/-- tyesde_full(tn, n): n is an internal yesde with yes skipped bits below
tn (`n->pos + n->bits == tn->pos`). -/
def tyesde_full (tn : KV) (n : Option KV) : Bool :=
  match n with
  | none => false
  | some n => (n.pos + n.bits == tn.pos) && IS_TNODE n

/-- Number of empty (NULL) child slots of an internal yesde.  The kernel
maintains this count incrementally in `tyesde::empty_children` via
empty_child_inc/empty_child_dec; here it is derived from the child array. -/
def empty_children (tn : KV) : Nat := ((KV.children tn).filter Option.isNone).length

/-- Number of full children (tyesde_full) of tn; the kernel's
`tyesde::full_children` counter, derived from the child array.  When
`bits = KEYLENGTH` and every slot is empty the kernel's 32-bit
empty_children counter wraps to 0 and the overflow is carried into
full_children (empty_child_inc); `stored_empty`/`stored_full` below model
the stored counter values exactly. -/
def full_children (tn : KV) : Nat :=
  ((KV.children tn).filter (fun c => tyesde_full tn c)).length

/-- The value held by the u32 `tyesde::empty_children` field. -/
def stored_empty (tn : KV) : Nat := empty_children tn % 2 ^ 32

/-- The value held by the u32 `tyesde::full_children` field (including the
carry from a wrapped empty_children counter). -/
def stored_full (tn : KV) : Nat :=
  (full_children tn + (if empty_children tn = 2 ^ 32 then 1 else 0)) % 2 ^ 32

def halve_threshold : Nat := 25
def inflate_threshold : Nat := 50
def halve_threshold_root : Nat := 15
def inflate_threshold_root : Nat := 30

/-- should_inflate(tp, tn): `is_trie_tp` says whether the parent tp is the
trie root (IS_TRIE(tp)).  used = child_length - empty + full (on unsigned
long), threshold = child_length * inflate_threshold[_root]; inflate when
used > 1, tn->pos nonzero, and 50 * used >= threshold. -/
def should_inflate (is_trie_tp : Bool) (tn : KV) : Bool :=
  let threshold := child_length tn *
    (if is_trie_tp then inflate_threshold_root else inflate_threshold)
  let used := child_length tn - stored_empty tn + stored_full tn
  (used > 1) && (tn.pos != 0) && (50 * used ≥ threshold)

/-- should_halve(tp, tn): used = child_length - empty; halve when used > 1,
tn->bits > 1, and 100 * used < child_length * halve_threshold[_root]. -/
def should_halve (is_trie_tp : Bool) (tn : KV) : Bool :=
  let threshold := child_length tn *
    (if is_trie_tp then halve_threshold_root else halve_threshold)
  let used := child_length tn - stored_empty tn
  (used > 1) && (tn.bits > 1) && (100 * used < threshold)

/-- should_collapse(tn): fewer than 2 children remain; when
bits = KEYLENGTH and full_children is set, the wrapped empty_children
counter is compensated by subtracting KEY_MAX. -/
def should_collapse (tn : KV) : Bool :=
  let used := child_length tn - stored_empty tn
  let used := if tn.bits = KEYLENGTH && stored_full tn ≠ 0 then used - KEY_MAX else used
  used < 2

/-- leaf_new(key, fa): fresh leaf, slen initialised from fa. -/
def leaf_new (key : Nat) (fa : FibAlias) : KV := KV.leaf key fa.fa_slen [fa]

/-- tyesde_new(key, pos, bits): fresh internal yesde; key truncated above
pos+bits, slen initialised to pos, all 2^bits child slots empty. -/
def tyesde_new (key : Nat) (pos : Nat) (bits : Nat) : KV :=
  let shift := pos + bits
  let k := if shift < KEYLENGTH then (key >>> shift) <<< shift else 0
  KV.tyesde k pos bits pos (List.replicate (2 ^ bits) none)

/-- put_child(tn, i, n): write child slot i, propagating
`tn->slen = max(tn->slen, n->slen)` when n is yesn-NULL (the
empty/full-children counters are derived fields here). -/
def put_child (tn : KV) (i : Nat) (n : Option KV) : KV :=
  match tn with
  | .leaf k s l => .leaf k s l
  | .tyesde k p b s ch =>
      let s' := match n with
        | some m => if s < m.slen then m.slen else s
        | none => s
      .tyesde k p b s' (ch.set i n)

/-- prefix_mismatch(key, n) = (key ^ prefix) & (prefix | -prefix), with
-prefix the u32 two's complement. -/
def prefix_mismatch (key : Nat) (n : KV) : Nat :=
  let prefix_val := n.key
  (key ^^^ prefix_val) &&& (prefix_val ||| ((2 ^ 32 - prefix_val) % 2 ^ 32))

example : child_length (tyesde_new 0 2 3) = 8 := by decide
example : get_index 0xff (tyesde_new 0 4 2) = 0xf := by decide
example : prefix_mismatch 0x0a000001 (KV.leaf 0x0a000000 8 []) = 0 := by decide

/-- Write a yesde's cached suffix length. -/
def set_slen (tn : KV) (s : Nat) : KV :=
  match tn with
  | .leaf k _ l => .leaf k s l
  | .tyesde k p b _ ch => .tyesde k p b s ch

/-- The scanning loop of update_suffix.  The kernel's `stride` is always the
power of two 2^e (it starts at 2 and is multiplied by powers of two), so the
exponent is carried instead; `i &= ~(stride - 1)` is rounding i down to a
multiple of the stride. -/
def update_suffix_loop (tn : KV) (slen_max : Nat) (i e slen : Nat) : Nat :=
  if i < child_length tn then
    match get_child tn i with
    | some n =>
      if slen < n.slen then
        let e' := e + (n.slen - slen)
        let slen' := n.slen
        let i' := i - i % 2 ^ e'
        if slen' ≥ slen_max then slen'
        else update_suffix_loop tn slen_max (i' + 2 ^ e') e' slen'
      else update_suffix_loop tn slen_max (i + 2 ^ e) e slen
    | none => update_suffix_loop tn slen_max (i + 2 ^ e) e slen
  else slen
termination_by child_length tn - i
decreasing_by
  all_goals
    first
    | · have h1 : 0 < 2 ^ (e + (n.slen - slen)) := Nat.pos_pow_of_pos _ (by omega)
        have h2 : i % 2 ^ (e + (n.slen - slen)) < 2 ^ (e + (n.slen - slen)) :=
          Nat.mod_lt _ h1
        omega
    | · have h1 : 0 < 2 ^ e := Nat.pos_pow_of_pos _ (by omega)
        omega

/-- update_suffix(tn): recompute tn->slen from its children, capped at
slen_max = min(tn->pos + tn->bits - 1, tn->slen); returns the yesde with the
new slen together with the new slen. -/
def update_suffix (tn : KV) : KV × Nat :=
  let slen_max := min (tn.pos + tn.bits - 1) tn.slen
  let s := update_suffix_loop tn slen_max 0 1 tn.pos
  (set_slen tn s, s)

/-- One level of ancestor context (zipper frame): an internal yesde with a
hole at child slot `idx` (where the walk descended); `children` retains the
stale content of the hole slot. -/
structure Frame where
  key : Nat
  pos : Nat
  bits : Nat
  slen : Nat
  children : List (Option KV)
  idx : Nat
  deriving Repr

/-- Rebuild the internal yesde of a frame with the hole filled by `c`. -/
def Frame.fill (f : Frame) (c : Option KV) : KV :=
  KV.tyesde f.key f.pos f.bits f.slen (f.children.set f.idx c)

/-- yesde_push_suffix(tn, slen) on the ancestor chain: raise each ancestor's
slen to `slen`, stopping at the first ancestor whose slen is already >= it.
The empty context is the trie root kv (its slen is KEYLENGTH, so the kernel
loop always stops there). -/
def yesde_push_suffix : List Frame → Nat → List Frame
  | [], _ => []
  | f :: rest, s =>
      if f.slen < s then { f with slen := s } :: yesde_push_suffix rest s
      else f :: rest

/-- yesde_pull_suffix(tn, slen) on the ancestor chain: while the current
yesde's slen exceeds both its pos and the pulled slen, recompute it with
update_suffix; stop when the recomputation does yest change it, else continue
at the parent with the recomputed value.  `inner` is the current content of
the innermost hole (the child the deletion walk came from). -/
def yesde_pull_suffix : List Frame → Option KV → Nat → List Frame
  | [], _, _ => []
  | f :: rest, inner, s =>
      let tn := Frame.fill f inner
      if tn.slen > tn.pos ∧ tn.slen > s then
        let s' := (update_suffix tn).2
        let f' := { f with slen := s' }
        if tn.slen = s' then f' :: rest
        else f' :: yesde_pull_suffix rest (some (Frame.fill f' inner)) s'
      else f :: rest

/-- The child-population loop of inflate for a full child with bits > 1:
yesde1 receives the upper half of iyesde's children, yesde0 the lower half,
written from the highest index down via put_child. -/
def inflate_split (iyesde : KV) (half : Nat) (yesde1 yesde0 : KV) : Nat → KV × KV
  | 0 => (yesde1, yesde0)
  | j + 1 =>
      let yesde1 := put_child yesde1 j (get_child iyesde (j + half))
      let yesde0 := put_child yesde0 j (get_child iyesde j)
      inflate_split iyesde half yesde1 yesde0 j

/-- The per-child step of inflate's assembly loop, for old child slot i:
an empty slot is skipped; a leaf or a tyesde with skipped bits is re-homed
at its new index; a full child is split into two half-size yesdes placed at
slots 2i and 2i+1 (a 1-bit full child donates its two children directly). -/
def inflate_yesde (oldtyesde : KV) (m : Nat) (tn : KV) (i : Nat) : KV :=
  match get_child oldtyesde i with
  | none => tn
  | some iyesde =>
    if ¬ tyesde_full oldtyesde (some iyesde) then
      put_child tn (get_index iyesde.key tn) (some iyesde)
    else if iyesde.bits = 1 then
      put_child (put_child tn (2 * i + 1) (get_child iyesde 1)) (2 * i)
        (get_child iyesde 0)
    else
      let yesde1 := tyesde_new (iyesde.key ||| m) iyesde.pos (iyesde.bits - 1)
      let yesde0 := tyesde_new iyesde.key iyesde.pos (iyesde.bits - 1)
      let p := inflate_split iyesde (child_length iyesde / 2) yesde1 yesde0
        (child_length iyesde / 2)
      put_child (put_child tn (2 * i + 1) (some p.1)) (2 * i) (some p.2)

/-- inflate's assembly loop, from the highest old child slot down. -/
def inflate_fold (oldtyesde : KV) (m : Nat) (tn : KV) : Nat → KV
  | 0 => tn
  | i + 1 => inflate_fold oldtyesde m (inflate_yesde oldtyesde m tn i) i

/-- inflate(t, oldtyesde), allocation-infallible: build the doubled yesde
(pos - 1, bits + 1); m = 1u << tn->pos synthesizes the bit moving into the
index. -/
def inflate (oldtyesde : KV) : KV :=
  let tn := tyesde_new oldtyesde.key (oldtyesde.pos - 1) (oldtyesde.bits + 1)
  inflate_fold oldtyesde (2 ^ tn.pos) tn (child_length oldtyesde)

/-- The per-pair step of halve's assembly loop for old slots (i, i+1):
if at most one of the pair exists it is re-homed at slot i/2, otherwise a
new 1-bit yesde joining the two is placed there. -/
def halve_pair (oldtyesde : KV) (tn : KV) (i : Nat) : KV :=
  match get_child oldtyesde i, get_child oldtyesde (i + 1) with
  | some yesde0, some yesde1 =>
      let iyesde := tyesde_new yesde0.key oldtyesde.pos 1
      let iyesde := put_child (put_child iyesde 1 (some yesde1)) 0 (some yesde0)
      put_child tn (i / 2) (some iyesde)
  | yesde0, yesde1 => put_child tn (i / 2) (if yesde1.isSome then yesde1 else yesde0)

/-- halve's assembly loop, from the highest pair down. -/
def halve_fold (oldtyesde : KV) (tn : KV) : Nat → KV
  | 0 => tn
  | p + 1 => halve_fold oldtyesde (halve_pair oldtyesde tn (2 * p)) p

/-- halve(t, oldtyesde), allocation-infallible: build the halved yesde
(pos + 1, bits - 1). -/
def halve (oldtyesde : KV) : KV :=
  halve_fold oldtyesde (tyesde_new oldtyesde.key (oldtyesde.pos + 1) (oldtyesde.bits - 1))
    (child_length oldtyesde / 2)

/-- collapse's scan for the one child that might still exist (the
highest-index yesn-empty slot). -/
def collapse_scan (tn : KV) : Nat → Option KV
  | 0 => none
  | i + 1 =>
      match get_child tn i with
      | some n => some n
      | none => collapse_scan tn i

def collapse_child (tn : KV) : Option KV := collapse_scan tn (child_length tn)

def MAX_WORK : Nat := 10

mutual

/-- resize(t, tn): inflate while should_inflate (bounded by MAX_WORK),
returning early if any inflate ran; otherwise halve while should_halve,
then collapse if at most one child remains.  Returns the new content of
tn's slot in its parent tp together with tp's new slen (put_child_root on a
yesn-root parent raises tp->slen to the linked yesde's slen; `it` says
whether tp is the trie root, whose slen is never touched).  `d` is a
termination budget only: recursion into a full child strictly decreases its
pos+bits, so d = pos+bits suffices and the exhausted branch is dead code
(resize_top below instantiates it). -/
def resize (d : Nat) (it : Bool) (psl : Nat) (tn : KV) : Option KV × Nat :=
  let r1 := inflate_loop d MAX_WORK it psl tn
  if r1.2.2 ≠ MAX_WORK then (some r1.1, r1.2.1)
  else
    let r2 := halve_loop d MAX_WORK it r1.2.1 r1.1
    if should_collapse r2.1 then
      let n := collapse_child r2.1
      (n, if it then r2.2.1 else
        match n with
        | some m => if r2.2.1 < m.slen then m.slen else r2.2.1
        | none => r2.2.1)
    else (some r2.1, r2.2.1)
termination_by (d, 2, 0)

/-- The doubling loop of resize: while should_inflate and work remains,
inflate, link the result into tp (replace(): put_child_root then resize the
full children of the new yesde).  Returns the current yesde, tp's slen and
the remaining work count. -/
def inflate_loop (d w : Nat) (it : Bool) (psl : Nat) (tn : KV) : KV × Nat × Nat :=
  if should_inflate it tn ∧ w ≠ 0 then
    let big := inflate tn
    let psl' := if it then psl else (if psl < big.slen then big.slen else psl)
    let rc := replace_children d big.key big.pos big.bits big.slen big.children
      (child_length big)
    inflate_loop d (w - 1) it psl' (KV.tyesde big.key big.pos big.bits rc.1 rc.2)
  else (tn, psl, w)
termination_by (d, 1, w)

/-- The halving loop of resize, mirroring inflate_loop with halve. -/
def halve_loop (d w : Nat) (it : Bool) (psl : Nat) (tn : KV) : KV × Nat × Nat :=
  if should_halve it tn ∧ w ≠ 0 then
    let small := halve tn
    let psl' := if it then psl else (if psl < small.slen then small.slen else psl)
    let rc := replace_children d small.key small.pos small.bits small.slen
      small.children (child_length small)
    halve_loop d (w - 1) it psl' (KV.tyesde small.key small.pos small.bits rc.1 rc.2)
  else (tn, psl, w)
termination_by (d, 1, w)

/-- replace()'s trailing loop: resize each full child of the freshly linked
yesde (fields passed apart so the rebuilt yesde is explicit), from the
highest slot down.  Returns the yesde's final slen and children.  The
d = 0 branch is dead code under d >= pos + bits (a full child has
pos+bits = p < p + b). -/
def replace_children (d : Nat) (k p b slen : Nat) (ch : List (Option KV)) :
    Nat → Nat × List (Option KV)
  | 0 => (slen, ch)
  | i + 1 =>
      match ch.getD i none with
      | some cv =>
          if h : tyesde_full (KV.tyesde k p b slen ch) (some cv) ∧ d ≠ 0 then
            let r := resize (d - 1) false slen cv
            replace_children d k p b r.2 (ch.set i r.1) i
          else replace_children d k p b slen ch i
      | none => replace_children d k p b slen ch i
termination_by i => (d, 0, i)

end

/-- resize with the termination budget instantiated at pos + bits. -/
def resize_top (it : Bool) (psl : Nat) (tn : KV) : Option KV × Nat :=
  resize (tn.pos + tn.bits) it psl tn

/-- trie_rebalance(t, tn): resize tn and then every ancestor up to the trie
root, rebuilding the tree along the zipper; returns the root slot. -/
def trie_rebalance : List Frame → KV → Option KV
  | [], tn => (resize_top true 0 tn).1
  | f :: rest, tn =>
      let r := resize_top false f.slen tn
      trie_rebalance rest (Frame.fill { f with slen := r.2 } r.1)

theorem sizeOf_getD_opt (ch : List (Option KV)) (i : Nat) :
    sizeOf (ch.getD i none) ≤ sizeOf ch := by
  induction ch generalizing i with
  | nil => simp [List.getD]
  | cons hd tl ih =>
    cases i with
    | zero => simp [List.getD]; omega
    | succ j =>
      have := ih j
      simp [List.getD] at this ⊢
      omega

/-- Error numbers (linux/erryes.h), used negated as in the source. -/
def ENOENT : Int := 2
def ESRCH : Int := 3
def EAGAIN : Int := 11
def ENOMEM : Int := 12
def EEXIST : Int := 17
def EINVAL : Int := 22
def ENOBUFS : Int := 105

/-- RT_SCOPE_NOWHERE (uapi rtnetlink.h). -/
def RT_SCOPE_NOWHERE : Nat := 255

/-- fib_find_yesde(t, &tp, key): descend from the root slot; stop at NULL
(empty slot), at an index out of range (skipped-bits mismatch, returning
NULL), or at a leaf (whose index check is exact key equality).  The
returned context is the chain of internal yesdes walked through, innermost
first — its head is the yesde `*tp` points at (the trie kv when empty). -/
def fib_find_yesde (key : Nat) : Option KV → List Frame → List Frame × Option KV
  | none, ctx => (ctx, none)
  | some n, ctx =>
      let index := get_cindex key n
      if index ≥ 2 ^ n.bits then (ctx, none)
      else
        match n with
        | KV.leaf .. => (ctx, some n)
        | KV.tyesde k p b s ch =>
            fib_find_yesde key (ch.getD index none) (⟨k, p, b, s, ch, index⟩ :: ctx)
termination_by n _ctx => sizeOf n
decreasing_by
  rename_i k p b s ch
  have h := sizeOf_getD_opt ch (get_cindex key n)
  simp at h ⊢
  omega

/-- fib_find_alias(fah, slen, tos, prio, tb_id): first alias with this
exact slen and tb_id whose tos is no greater, and which has priority >= prio
or strictly smaller tos; returns its position in the list. -/
def fib_find_alias_from (slen tos prio tb_id : Nat) :
    List FibAlias → Nat → Option Nat
  | [], _ => none
  | fa :: rest, i =>
      if fa.fa_slen < slen then fib_find_alias_from slen tos prio tb_id rest (i + 1)
      else if fa.fa_slen ≠ slen then none
      else if fa.tb_id > tb_id then fib_find_alias_from slen tos prio tb_id rest (i + 1)
      else if fa.tb_id ≠ tb_id then none
      else if fa.fa_tos > tos then fib_find_alias_from slen tos prio tb_id rest (i + 1)
      else if fa.fa_info.fib_priority ≥ prio ∨ fa.fa_tos < tos then some i
      else fib_find_alias_from slen tos prio tb_id rest (i + 1)

def fib_find_alias (fah : List FibAlias) (slen tos prio tb_id : Nat) : Option Nat :=
  fib_find_alias_from slen tos prio tb_id fah 0

/-- Plain zipper reconstruction (yes counter or slen side effects: the
kernel left these yesdes untouched). -/
def reconstruct : List Frame → Option KV → Option KV
  | [], c => c
  | f :: rest, c => reconstruct rest (some (Frame.fill f c))

/-- The tail of fib_insert_yesde once the structural position is ready:
put_child_root(tp, key, l) — writing the new leaf into the innermost frame
(raising its slen as put_child does) or into the trie root slot — followed
by trie_rebalance(t, tp). -/
def fib_insert_finish (ctx3 : List Frame) (l : KV) : Int × Option KV :=
  match ctx3 with
  | [] => (0, some l)
  | f :: rest =>
      let f' := { f with slen := if f.slen < l.slen then l.slen else f.slen }
      (0, trie_rebalance rest (Frame.fill f' (some l)))

/-- fib_insert_yesde(t, tp, new, key): build a leaf; if the target slot is
occupied, synthesize a 1-bit tyesde at the first differing bit holding the
old occupant and (after linking it under tp) the new leaf; push the new
suffix length, write the leaf, and rebalance from tp upward.
`leaf_alloc`/`tyesde_alloc` are the allocation outcomes: when one fails the
function returns -ENOMEM having changed yesthing (yes new yesde was linked).
Returns (err, new root slot). -/
def fib_insert_yesde (leaf_alloc tyesde_alloc : Bool) (ctx : List Frame)
    (root : Option KV) (new : FibAlias) (key : Nat) : Int × Option KV :=
  if ¬ leaf_alloc then (-ENOMEM, root)
  else
    let l := leaf_new key new
    let n := match ctx with
      | [] => root
      | f :: _ => f.children.getD f.idx none
    let step : List Frame × Bool := match n with
      | some n0 =>
          if ¬ tyesde_alloc then ([], false)
          else
            let tn := tyesde_new key (Nat.log2 (key ^^^ n0.key)) 1
            let tn := put_child tn (get_index key tn ^^^ 1) (some n0)
            let ctx2 := match ctx with
              | [] => []
              | f :: rest =>
                  { f with slen := if f.slen < tn.slen then tn.slen else f.slen } :: rest
            (⟨tn.key, tn.pos, tn.bits, tn.slen, tn.children, get_index key tn⟩ :: ctx2,
             true)
      | none => (ctx, true)
    if ¬ step.2 then (-ENOMEM, root)
    else fib_insert_finish (yesde_push_suffix step.1 new.fa_slen) l

/-- The position scan of fib_insert_alias when yes position was supplied:
walk past every alias with smaller slen, or equal slen and tb_id >= the new
one; insert before the first that breaks this. -/
def fib_insert_position (new : FibAlias) : List FibAlias → Nat → Nat
  | [], i => i
  | last :: rest, i =>
      if new.fa_slen < last.fa_slen then i
      else if new.fa_slen = last.fa_slen ∧ new.tb_id > last.tb_id then i
      else fib_insert_position new rest (i + 1)

/-- fib_insert_alias(t, tp, l, new, fa, key): with yes leaf, delegate to
fib_insert_yesde; otherwise splice `new` into the leaf's list before
position `fa` when supplied, else at the scanned position, and push the
suffix length if the leaf's slen grew. -/
def fib_insert_alias (leaf_alloc tyesde_alloc : Bool) (ctx : List Frame)
    (l : Option KV) (new : FibAlias) (fa : Option Nat) (key : Nat)
    (root : Option KV) : Int × Option KV :=
  match l with
  | none => fib_insert_yesde leaf_alloc tyesde_alloc ctx root new key
  | some l0 =>
      let fas := l0.fas
      let fas' := match fa with
        | some i => fas.insertIdx i new
        | none => fas.insertIdx (fib_insert_position new fas 0) new
      if l0.slen < new.fa_slen then
        let ctx' := yesde_push_suffix ctx new.fa_slen
        (0, reconstruct ctx' (some (KV.leaf l0.key new.fa_slen fas')))
      else
        (0, reconstruct ctx (some (KV.leaf l0.key l0.slen fas')))

/-- fib_valid_key_len(key, plen): plen at most 32 and yes nonzero bit of the
u32 key below the prefix. -/
def fib_valid_key_len (key : Nat) (plen : Nat) : Bool :=
  if plen > KEYLENGTH then false
  else if plen < KEYLENGTH ∧ (key <<< plen) % 2 ^ 32 ≠ 0 then false
  else true

/-- The `getD` default for alias lists (never read at a valid index). -/
def fa_zero : FibAlias :=
  { fa_slen := 0, fa_tos := 0, fa_type := 0, fa_state := 0, tb_id := 0,
    fa_info := { fib_priority := 0, fib_scope := 0, fib_dead := false,
                 fib_flags_dead := false, nh_blackhole := false, nhs := [],
                 fib_prefsrc := 0, fib_protocol := 0 } }

/-- `struct fib_config` as consumed by fib_table_insert/fib_table_delete:
the netlink layer's digest of a route request.  fib_create_info
(fib_semantics.c, external) is modelled as handing back `fc_fi`; the kernel
interns fib_infos so value equality models its pointer equality. -/
structure FibConfig where
  fc_dst : Nat
  fc_dst_len : Nat
  fc_tos : Nat
  fc_type : Nat
  fc_scope : Nat
  fc_prefsrc : Nat
  fc_protocol : Nat
  nlm_f_excl : Bool
  nlm_f_create : Bool
  nlm_f_replace : Bool
  nlm_f_append : Bool
  fc_fi : FibInfo
  deriving Repr

/-- The hlist_for_each_entry_from scan of fib_table_insert, from the alias
found by fib_find_alias: within the run of aliases sharing slen, tb_id, tos
and priority, find an exact (type, info) duplicate (`fa_match`) and the
position at which the run stops (NLM_F_APPEND inserts there; `yesne` when
the run reaches the end of the list). -/
def fib_insert_run_scan (slen tb_id tos prio ftype : Nat) (fi : FibInfo) :
    List FibAlias → Nat → Option Nat × Option Nat
  | [], _ => (none, none)
  | fa :: rest, j =>
      if fa.fa_slen ≠ slen ∨ fa.tb_id ≠ tb_id ∨ fa.fa_tos ≠ tos then (none, some j)
      else if fa.fa_info.fib_priority ≠ prio then (none, some j)
      else if fa.fa_type = ftype ∧ fa.fa_info = fi then (some j, some j)
      else fib_insert_run_scan slen tb_id tos prio ftype fi rest (j + 1)

/-- fib_table_insert(net, tb, cfg, extack), with the netlink yestifiers and
rt-cache flushes (external side effects) dropped and allocation outcomes
passed in (`new_fa` allocation assumed to succeed; `leaf_alloc` and
`tyesde_alloc` drive fib_insert_yesde).  Returns (err, new root slot). -/
def fib_table_insert (leaf_alloc tyesde_alloc : Bool) (tb_id : Nat)
    (cfg : FibConfig) (root : Option KV) : Int × Option KV :=
  let plen := cfg.fc_dst_len
  let slen := KEYLENGTH - plen
  let tos := cfg.fc_tos
  let key := cfg.fc_dst
  if ¬ fib_valid_key_len key plen then (-EINVAL, root)
  else
    let fi := cfg.fc_fi
    let fr := fib_find_yesde key root []
    let ctx := fr.1
    let l := fr.2
    let faIdx := match l with
      | some l0 => fib_find_alias l0.fas slen tos fi.fib_priority tb_id
      | none => none
    let fas := match l with
      | some l0 => l0.fas
      | none => []
    let dup : Bool := match faIdx with
      | some i =>
          let fa0 := fas.getD i fa_zero
          (fa0.fa_tos == tos) && (fa0.fa_info.fib_priority == fi.fib_priority)
      | none => false
    if dup then
      if cfg.nlm_f_excl then (-EEXIST, root)
      else
        let i := faIdx.getD 0
        let scan := fib_insert_run_scan slen tb_id tos fi.fib_priority cfg.fc_type fi
          (fas.drop i) i
        let fa_match := scan.1
        if cfg.nlm_f_replace then
          match fa_match with
          | some m => (if m = i then 0 else -EEXIST, root)
          | none =>
              match l with
              | some l0 =>
                  let old := l0.fas.getD i fa_zero
                  let new_fa : FibAlias :=
                    { fa_tos := old.fa_tos, fa_info := fi, fa_type := cfg.fc_type,
                      fa_state := old.fa_state - old.fa_state % 2,
                      fa_slen := old.fa_slen, tb_id := tb_id }
                  (0, reconstruct ctx (some (KV.leaf l0.key l0.slen (l0.fas.set i new_fa))))
              | none => (0, root)
        else if fa_match.isSome then (-EEXIST, root)
        else
          let fa := if cfg.nlm_f_append then scan.2 else some i
          if ¬ cfg.nlm_f_create then (-ENOENT, root)
          else
            let new_fa : FibAlias :=
              { fa_info := fi, fa_tos := tos, fa_type := cfg.fc_type, fa_state := 0,
                fa_slen := slen, tb_id := tb_id }
            fib_insert_alias leaf_alloc tyesde_alloc ctx l new_fa fa key root
    else
      if ¬ cfg.nlm_f_create then (-ENOENT, root)
      else
        let new_fa : FibAlias :=
          { fa_info := fi, fa_tos := tos, fa_type := cfg.fc_type, fa_state := 0,
            fa_slen := slen, tb_id := tb_id }
        fib_insert_alias leaf_alloc tyesde_alloc ctx l new_fa faIdx key root

/-- fib_remove_alias(t, tp, l, old): unlink the alias at position `iDel`.
An emptied leaf is detached (pulling suffixes first when tp's slen came
from it) and the trie rebalanced; otherwise, when the removed alias was the
list's last entry, the leaf's slen shrinks to the new last entry's slen and
that is pulled upward; removing a yesn-last entry touches yes slen.
Returns the new root slot. -/
def fib_remove_alias (ctx : List Frame) (lkey lslen : Nat) (fas : List FibAlias)
    (iDel : Nat) : Option KV :=
  let fas' := fas.eraseIdx iDel
  if fas'.isEmpty then
    let ctx1 := match ctx with
      | [] => []
      | f :: _ =>
          if f.slen = lslen then
            yesde_pull_suffix ctx (some (KV.leaf lkey lslen [])) f.pos
          else ctx
    match ctx1 with
    | [] => none
    | f :: rest => trie_rebalance rest (Frame.fill f none)
  else
    if iDel + 1 < fas.length then
      reconstruct ctx (some (KV.leaf lkey lslen fas'))
    else
      let prev := fas'.getLastD fa_zero
      let l' := KV.leaf lkey prev.fa_slen fas'
      let ctx' := yesde_pull_suffix ctx (some l') prev.fa_slen
      reconstruct ctx' (some l')

/-- The hlist_for_each_entry_from scan of fib_table_delete: within the run
of aliases sharing slen, tb_id and tos, the first one matching the request's
type/scope/prefsrc/protocol filters.  fib_nh_match and fib_metrics_match
live in fib_semantics.c (yest part of this repository); modelled from the
spec, which keys deletion on the route tuple only, as matching. -/
def fib_delete_run_scan (cfg : FibConfig) (slen tb_id tos : Nat) :
    List FibAlias → Nat → Option Nat
  | [], _ => none
  | fa :: rest, j =>
      if fa.fa_slen ≠ slen ∨ fa.tb_id ≠ tb_id ∨ fa.fa_tos ≠ tos then none
      else if (cfg.fc_type = 0 ∨ fa.fa_type = cfg.fc_type) ∧
              (cfg.fc_scope = RT_SCOPE_NOWHERE ∨ fa.fa_info.fib_scope = cfg.fc_scope) ∧
              (cfg.fc_prefsrc = 0 ∨ fa.fa_info.fib_prefsrc = cfg.fc_prefsrc) ∧
              (cfg.fc_protocol = 0 ∨ fa.fa_info.fib_protocol = cfg.fc_protocol) then
        some j
      else fib_delete_run_scan cfg slen tb_id tos rest (j + 1)

/-- fib_table_delete(net, tb, cfg, extack), yestifiers and rt-cache
side effects dropped.  Returns (err, new root slot). -/
def fib_table_delete (tb_id : Nat) (cfg : FibConfig) (root : Option KV) :
    Int × Option KV :=
  let plen := cfg.fc_dst_len
  let slen := KEYLENGTH - plen
  let tos := cfg.fc_tos
  let key := cfg.fc_dst
  if ¬ fib_valid_key_len key plen then (-EINVAL, root)
  else
    let fr := fib_find_yesde key root []
    match fr.2 with
    | none => (-ESRCH, root)
    | some l0 =>
        match fib_find_alias l0.fas slen tos 0 tb_id with
        | none => (-ESRCH, root)
        | some i =>
            match fib_delete_run_scan cfg slen tb_id tos (l0.fas.drop i) i with
            | none => (-ESRCH, root)
            | some iDel =>
                (0, fib_remove_alias fr.1 l0.key l0.slen l0.fas iDel)

/-- A sample fib_info for concrete instances. -/
def fiW : FibInfo :=
  { fib_priority := 0, fib_scope := 0, fib_dead := false, fib_flags_dead := false,
    nh_blackhole := false,
    nhs := [{ nhc_dead := false, nhc_linkdown := false, igyesre_linkdown := false,
              nhc_oif := 1 }],
    fib_prefsrc := 0, fib_protocol := 0 }

/-- A sample valid route request (10.0.0.0/8, NLM_F_CREATE). -/
def cfgW : FibConfig :=
  { fc_dst := 0x0a000000, fc_dst_len := 8, fc_tos := 0, fc_type := 1, fc_scope := 0,
    fc_prefsrc := 0, fc_protocol := 0, nlm_f_excl := false, nlm_f_create := true,
    nlm_f_replace := false, nlm_f_append := false, fc_fi := fiW }

/-- A replace request for the same route tuple as cfgW with a different
next-hop info (higher scope), as `ip route replace` would issue. -/
def cfgW2 : FibConfig :=
  { fc_dst := 0x0a000000, fc_dst_len := 8, fc_tos := 0, fc_type := 1, fc_scope := 0,
    fc_prefsrc := 0, fc_protocol := 0, nlm_f_excl := false, nlm_f_create := true,
    nlm_f_replace := true, nlm_f_append := false,
    fc_fi := { fib_priority := fiW.fib_priority, fib_scope := 253,
               fib_dead := false, fib_flags_dead := false, nh_blackhole := false,
               nhs := fiW.nhs, fib_prefsrc := 0, fib_protocol := 0 } }

/-- The order fib_insert_alias and fib_find_alias actually maintain on a
leaf's alias list: ascending suffix length (fa_slen), ties broken by
descending table id. -/
def fa_ord (a b : FibAlias) : Prop :=
  a.fa_slen < b.fa_slen ∨ (a.fa_slen = b.fa_slen ∧ b.tb_id ≤ a.tb_id)

instance : DecidableRel fa_ord := fun a b => by unfold fa_ord; infer_instance

/-- The order the specification asserts: descending suffix length, ties
broken by ascending table id. -/
def fa_ord_claimed (a b : FibAlias) : Prop :=
  b.fa_slen < a.fa_slen ∨ (a.fa_slen = b.fa_slen ∧ a.tb_id ≤ b.tb_id)

instance : DecidableRel fa_ord_claimed := fun a b => by unfold fa_ord_claimed; infer_instance

/-- Sample aliases: a host route (plen 32, fa_slen 0) and a /24 route
(fa_slen 8), same table. -/
def faA : FibAlias :=
  { fa_slen := 0, fa_tos := 0, fa_type := 1, fa_state := 0, tb_id := 254, fa_info := fiW }

def faB : FibAlias :=
  { fa_slen := 8, fa_tos := 0, fa_type := 1, fa_state := 0, tb_id := 254, fa_info := fiW }

/-- getD default frame. -/
def fr_zero : Frame :=
  { key := 0, pos := 0, bits := 0, slen := 0, children := [], idx := 0 }

/-- Hypothesis for suffix pulling: along the ancestor chain (innermost
first), every cached slen bounds the slens stored beneath it — children's
cached slens and the current hole content's slen; cached values can be
stale only upward. -/
def ctx_slen_bounded : List Frame → Nat → Prop
  | [], _ => True
  | f :: rest, s0 =>
      (∀ cv, (some cv) ∈ f.children → cv.slen ≤ f.slen) ∧
      s0 ≤ f.slen ∧ ctx_slen_bounded rest f.slen

/-- The slen of an optional hole content. -/
def opt_slen : Option KV → Nat
  | some x => x.slen
  | none => 0

/-- A sample ancestor frame for concrete instances. -/
def fr1 : Frame :=
  { key := 0, pos := 4, bits := 1, slen := 5,
    children := [some (KV.leaf 0 3 []), none], idx := 0 }

mutual

/-- The keys of all leaves stored in a subtree. -/
def leaf_keys : KV → List Nat
  | .leaf k _ _ => [k]
  | .tyesde _ _ _ _ ch => leaf_keys_list ch
termination_by t => sizeOf t

def leaf_keys_list : List (Option KV) → List Nat
  | [] => []
  | none :: rest => leaf_keys_list rest
  | some cv :: rest => leaf_keys cv ++ leaf_keys_list rest
termination_by l => sizeOf l
decreasing_by
  all_goals simp
  all_goals omega

end

def trie_leaf_keys : Option KV → List Nat
  | none => []
  | some t => leaf_keys t

/-- Structural well-formedness of a (sub)trie rooted at a yesde: internal
yesdes have 1 <= bits, pos + bits <= 32, exactly 2^bits child slots, a key
cleared below pos + bits, and each stored child is itself well-formed, has
its significant bits at or below the parent's pos, and sits in the slot its
key selects. -/
def wf : KV → Prop
  | .leaf k _ _ => k < 2 ^ 32
  | .tyesde k p b _ ch =>
      1 ≤ b ∧ p + b ≤ KEYLENGTH ∧ ch.length = 2 ^ b ∧ k < 2 ^ 32 ∧
      k % 2 ^ (p + b) = 0 ∧
      ∀ j, j < 2 ^ b → ∀ cv, ch.getD j none = some cv →
        wf cv ∧ cv.pos + cv.bits ≤ p ∧ (cv.key ^^^ k) >>> p = j
termination_by t => sizeOf t
decreasing_by
  rename_i hcv
  rename_i ch hjb
  have h2 := sizeOf_getD_opt ch j
  rw [hcv] at h2
  simp at h2 ⊢
  omega

/-- A sample two-leaf trie: routes 10.0.0.0/8 and 10.1.0.0/16 as the
resize engine actually lays them out (root inflated once). -/
def tW : KV :=
  KV.tyesde 0x0a000000 15 2 24
    [some (KV.leaf 0x0a000000 24
        [{ fa_slen := 24, fa_tos := 0, fa_type := 1, fa_state := 0, tb_id := 254,
           fa_info := fiW }]),
     none,
     some (KV.leaf 0x0a010000 16
        [{ fa_slen := 16, fa_tos := 0, fa_type := 1, fa_state := 0, tb_id := 254,
           fa_info := fiW }]),
     none]

mutual

/-- Termination weight for the leaf walker: an internal yesde carries its
child array's scan allowance (2^bits) on top of its children's weights. -/
def wKV : KV → Nat
  | .leaf _ _ _ => 1
  | .tyesde _ _ b _ ch => 1 + 2 ^ b + wList ch
termination_by t => sizeOf t

def wList : List (Option KV) → Nat
  | [] => 0
  | none :: r => 1 + wList r
  | some c :: r => 1 + wKV c + wList r
termination_by l => sizeOf l
decreasing_by
  all_goals simp
  all_goals omega

end

theorem wList_drop_succ_le (l : List (Option KV)) (i : Nat) :
    wList (l.drop (i + 1)) ≤ wList (l.drop i) := by
  induction l generalizing i with
  | nil => simp
  | cons hd tl ih =>
    cases i with
    | zero => cases hd <;> simp [wList] <;> omega
    | succ j => simpa using ih j

theorem wList_drop_getD (l : List (Option KV)) (i : Nat) (n : KV)
    (h : l.getD i none = some n) :
    wList (l.drop i) = 1 + wKV n + wList (l.drop (i + 1)) := by
  induction l generalizing i with
  | nil => simp [List.getD] at h
  | cons hd tl ih =>
    cases i with
    | zero =>
      rw [List.getD_cons_zero] at h
      subst h
      simp [wList]
    | succ j =>
      rw [List.getD_cons_succ] at h
      simpa using ih j h

theorem drop_set_of_lt (l : List (Option KV)) (i j : Nat) (a : Option KV)
    (h : i < j) : (l.set i a).drop j = l.drop j := by
  induction l generalizing i j with
  | nil => simp
  | cons hd tl ih =>
    cases i with
    | zero =>
      cases j with
      | zero => omega
      | succ j2 => simp
    | succ i2 =>
      cases j with
      | zero => omega
      | succ j2 => simpa using ih i2 j2 (by omega)

def frame_w (f : Frame) : Nat :=
  wList (f.children.drop (f.idx + 1)) + (2 ^ f.bits - (f.idx + 1)) + 1

/-- Measure for leaf_walk_rcu's second loop over (ancestors, yesde, next
child index). -/
def walk_measure (ctx : List Frame) (pn : Option KV) (ci : Nat) : Nat :=
  (ctx.map frame_w).sum +
    match pn with
    | none => 0
    | some p => wList (p.children.drop ci) + (2 ^ p.bits - ci)

/-- The second loop of leaf_walk_rcu: scan pn's children from cindex for
the next leaf (yes key comparisons — the index was already bumped past the
key), descending into tyesdes and climbing to the parent when a child
array is exhausted.  pn = yesne stands for the trie root kv (IS_TRIE), at
which the loop stops; a climb from a yesde whose parent is the trie sets
cindex = get_index(pkey, trie) + 1 = 1 and then stops likewise, returning
(trie, NULL) directly here.  Returns (*tn's context, *tn, found leaf). -/
def leaf_walk_next (ctx : List Frame) (pn : Option KV) (ci : Nat) :
    List Frame × Option KV × Option KV :=
  match pn with
  | none => ([], none, none)
  | some p =>
      if ci ≥ 2 ^ p.bits then
        match ctx with
        | [] => ([], none, none)
        | f :: rest => leaf_walk_next rest (some (Frame.fill f (some p))) (f.idx + 1)
      else
        match hg : get_child p ci with
        | none => leaf_walk_next ctx (some p) (ci + 1)
        | some n =>
            if IS_LEAF n then (ctx, some p, some n)
            else leaf_walk_next
              (⟨p.key, p.pos, p.bits, p.slen, p.children, ci⟩ :: ctx) (some n) 0
termination_by walk_measure ctx pn ci
decreasing_by
  · have hd := drop_set_of_lt f.children f.idx (f.idx + 1) (some n)
      (Nat.lt_succ_self _)
    simp only [walk_measure, frame_w, Frame.fill, KV.children, KV.bits,
      List.map_cons, List.sum_cons, hd]
    omega
  · have h1 := wList_drop_succ_le (KV.children n) ci
    simp only [walk_measure]
    omega
  · rename_i q hq hlf
    cases n with
    | leaf k s fs => simp [IS_LEAF, KV.bits] at hlf
    | tyesde k2 p2 b2 s2 ch2 =>
      have h1 := wList_drop_getD (KV.children q) ci (KV.tyesde k2 p2 b2 s2 ch2)
        (by simpa [get_child] using hg)
      simp only [walk_measure, frame_w, wKV, KV.children, KV.bits,
        List.map_cons, List.sum_cons, List.drop_zero, Nat.sub_zero] at h1 ⊢
      omega

/-- The first loop of leaf_walk_rcu: follow the key down from *tn (yesne =
the trie root kv, whose single child slot holds `root`), breaking out to the
scan loop on an index overflow, an empty slot, or a leaf with a key below
the target; a leaf with key >= the target is returned at once. -/
def leaf_walk_down (root : Option KV) : List Frame → Option KV → Nat →
    List Frame × Option KV × Option KV
  | _ctx, none, key =>
      match hr : root with
      | none => leaf_walk_next [] none 1
      | some r =>
          if IS_LEAF r ∧ key ≤ r.key then ([], none, some r)
          else if IS_LEAF r then leaf_walk_next [] none 1
          else leaf_walk_down root [] (some r) key
  | ctx, some p, key =>
      let cindex := if key > p.key then get_index key p else 0
      if cindex >>> p.bits ≠ 0 then leaf_walk_next ctx (some p) cindex
      else
        match hg2 : get_child p cindex with
        | none => leaf_walk_next ctx (some p) (cindex + 1)
        | some n =>
            if IS_LEAF n ∧ key ≤ n.key then (ctx, some p, some n)
            else if IS_LEAF n then leaf_walk_next ctx (some p) (cindex + 1)
            else leaf_walk_down root
              (⟨p.key, p.pos, p.bits, p.slen, p.children, cindex⟩ :: ctx) (some n) key
termination_by ctx n key => match n with
  | none => 1 + sizeOf root
  | some p => sizeOf p
decreasing_by
  · simp
    omega
  · cases p with
    | leaf k s fas => simp [get_child, KV.children, List.getD] at hg2
    | tyesde k2 p2 b2 s2 ch2 =>
      have h := sizeOf_getD_opt ch2 cindex
      rw [show get_child (KV.tyesde k2 p2 b2 s2 ch2) cindex = ch2.getD cindex none
        from rfl] at hg2
      rw [hg2] at h
      simp at h ⊢
      omega

/-- leaf_walk_rcu(tn, key) on the zipper state (*tn = (ctx, tn); tn = yesne
is the trie root kv). -/
def leaf_walk_rcu (root : Option KV) (ctx : List Frame) (tn : Option KV)
    (key : Nat) : List Frame × Option KV × Option KV :=
  leaf_walk_down root ctx tn key

/-- The iteration skeleton of fib_table_dump: repeatedly leaf_walk_rcu from
the threaded (*tn, key) state, collecting each dumped leaf's key and
restarting at key + 1 (u32), stopping on wrap-around; fn_trie_dump_leaf's
netlink output is external.  The fuel only bounds the visit count (each
visited key is strictly larger, so one unit per stored leaf suffices). -/
def fib_table_dump_loop (root : Option KV) :
    Nat → List Frame → Option KV → Nat → List Nat
  | 0, _, _, _ => []
  | fuel + 1, ctx, tn, key =>
      match leaf_walk_rcu root ctx tn key with
      | (ctx2, pn2, some l) =>
          let key2 := (l.key + 1) % 2 ^ 32
          if key2 < l.key then [l.key]
          else l.key :: fib_table_dump_loop root fuel ctx2 pn2 key2
      | (_, _, none) => []

def fib_table_dump_keys (root : Option KV) : List Nat :=
  fib_table_dump_loop root ((trie_leaf_keys root).length + 1) [] none 0

/-- Leaf keys of an optional child. -/
def opt_keys : Option KV → List Nat
  | none => []
  | some cv => leaf_keys cv

/-- Keys still ahead of a walker context: for each ancestor frame, the keys
beneath the child slots to the right of the one walked through. -/
def ctx_keys_after : List Frame → List Nat
  | [] => []
  | f :: rest => leaf_keys_list (f.children.drop (f.idx + 1)) ++ ctx_keys_after rest

/-- A walker context really is a path from the root: each frame's hole index
is in range and filling inward rebuilds the tree up to the root slot. -/
def ctx_ok : List Frame → Option KV → Option KV → Prop
  | [], c, root => c = root
  | f :: rest, c, root =>
      f.idx < f.children.length ∧ ctx_ok rest (some (Frame.fill f c)) root

/-- Validity of a (*tn context, *tn) walker state: the trie kv (yesne) only
pairs with the empty context. -/
def state_ok (root : Option KV) : List Frame → Option KV → Prop
  | ctx, none => ctx = []
  | ctx, some p => ctx_ok ctx (some p) root

/-- The stream of keys a walker state can still reach (its own subtree, then
everything to the right of its path). -/
def walk_stream (root : Option KV) : List Frame → Option KV → List Nat
  | _, none => trie_leaf_keys root
  | ctx, some p => leaf_keys p ++ ctx_keys_after ctx

/-- The keys at or above `key`. -/
def geKeys (key : Nat) (l : List Nat) : List Nat :=
  l.filter (fun x => decide (key ≤ x))

/-- `struct flowi4`: the flow key fields fib_table_lookup reads.
`skip_nh_oif` is FLOWI_FLAG_SKIP_NH_OIF. -/
structure Flowi4 where
  daddr : Nat
  flowi4_tos : Nat
  flowi4_scope : Nat
  flowi4_oif : Nat
  skip_nh_oif : Bool
  deriving DecidableEq, Repr

/-- The `struct fib_result` fields fib_table_lookup fills on success. -/
structure FibResult where
  pfx : Nat
  plen : Nat
  nh_sel : Nat
  rtype : Nat
  rscope : Nat
  rfi : FibInfo
  deriving DecidableEq, Repr

/-- RTN_BLACKHOLE (uapi constant; the uapi header is yest part of this
repository — modelled from the spec's route-type taxonomy). -/
def RTN_BLACKHOLE : Nat := 6

/-- The nexthop selection loop of fib_table_lookup (step 3): first nexthop
that is alive, link-up (unless states are ignored) and on the requested
device.  `il` is FIB_LOOKUP_IGNORE_LINKSTATE. -/
def nh_scan (flp : Flowi4) (il : Bool) : List FibNhc → Nat → Option Nat
  | [], _ => none
  | nhc :: rest, i =>
      if nhc.nhc_dead then nh_scan flp il rest (i + 1)
      else if nhc.igyesre_linkdown ∧ nhc.nhc_linkdown ∧ ¬il then
        nh_scan flp il rest (i + 1)
      else if ¬flp.skip_nh_oif ∧ flp.flowi4_oif ≠ 0 ∧ flp.flowi4_oif ≠ nhc.nhc_oif then
        nh_scan flp il rest (i + 1)
      else some i

/-- The semantic checks fib_table_lookup applies to one alias after the
prefix-length test: tos, dead, scope filters (continue), the fib_props
error of the route type and blackhole nexthops (immediate error return),
and the nexthop scan.  fib_props lives outside this repository and is
passed in as `props_err`; the FA_S_ACCESSED mark is a write the result
does yest depend on.  Returns yesne to continue to the next alias. -/
def fib_alias_sem (props_err : Nat → Int) (flp : Flowi4) (il : Bool)
    (lkey : Nat) (fa : FibAlias) : Option (Int × Option FibResult) :=
  let fi := fa.fa_info
  if fa.fa_tos ≠ 0 ∧ fa.fa_tos ≠ flp.flowi4_tos then none
  else if fi.fib_dead then none
  else if fi.fib_scope < flp.flowi4_scope then none
  else
    let err := props_err fa.fa_type
    if err < 0 then some (err, none)
    else if fi.fib_flags_dead then none
    else if fi.nh_blackhole then some (props_err RTN_BLACKHOLE, none)
    else
      match nh_scan flp il fi.nhs 0 with
      | some nhsel =>
          let r : FibResult :=
            { pfx := lkey, plen := KEYLENGTH - fa.fa_slen, nh_sel := nhsel,
              rtype := fa.fa_type, rscope := fi.fib_scope, rfi := fi }
          some (err, some r)
      | none => none

/-- Step 3: scan the leaf's alias list; an alias whose prefix region does
yest cover the xor `index` is skipped (on 64-bit the guard
`BITS_PER_LONG > KEYLENGTH` makes the check unconditional); the first alias
the semantic checks accept decides the call's result; an exhausted list
falls back to backtracking (yesne). -/
def leaf_scan (props_err : Nat → Int) (flp : Flowi4) (il : Bool)
    (lkey index : Nat) : List FibAlias → Option (Int × Option FibResult)
  | [] => none
  | fa :: rest =>
      if index ≥ 2 ^ fa.fa_slen then leaf_scan props_err flp il lkey index rest
      else
        match fib_alias_sem props_err flp il lkey fa with
        | some r => some r
        | none => leaf_scan props_err flp il lkey index rest

/-- Termination weight of a backtracking bookmark. -/
def bt_w (bctx : List Frame) (bci : Nat) : Nat :=
  (bctx.map (fun f => f.idx + 1)).sum + bci

/-- The backtrace of fib_table_lookup over the zipper bookmark: while the
sibling index set is empty, climb to the parent (recovering the child index
the zipper recorded; a climb past the trie root kv fails the lookup);
then strip the lowest set bit and take that child, skipping empty slots.
Returns the next yesde to search plus the updated bookmark. -/
def backtrace : List Frame → Option KV → Nat →
    Option (KV × List Frame × Option KV × Nat)
  | bctx, bn, bci =>
    if bci = 0 then
      match bn, bctx with
      | none, _ => none
      | some _, [] => none
      | some p, f :: rest => backtrace rest (some (Frame.fill f (some p))) f.idx
    else
      let bci2 := bci &&& (bci - 1)
      match bn with
      | none => none
      | some p =>
          match get_child p bci2 with
          | none => backtrace bctx (some p) bci2
          | some c => some (c, bctx, some p, bci2)
termination_by bctx bn bci => bt_w bctx bci
decreasing_by
  · simp [bt_w]
    omega
  · have h1 : bci &&& (bci - 1) ≤ bci - 1 := Nat.and_le_right
    simp [bt_w]
    omega

theorem backtrace_lt :
    ∀ bctx bn bci c bctx2 bn2 bci2,
      backtrace bctx bn bci = some (c, bctx2, bn2, bci2) →
      bt_w bctx2 bci2 < bt_w bctx bci := by
  intro bctx bn bci
  induction bctx, bn, bci using backtrace.induct with
  | case1 bctx =>
      intro c bctx2 bn2 bci2 hb
      rw [backtrace.eq_def] at hb
      simp at hb
  | case2 val =>
      intro c bctx2 bn2 bci2 hb
      rw [backtrace.eq_def] at hb
      simp at hb
  | case3 p f rest ih =>
      intro c bctx2 bn2 bci2 hb
      rw [backtrace.eq_def] at hb
      simp only [if_pos rfl] at hb
      have := ih c bctx2 bn2 bci2 hb
      simp [bt_w] at this ⊢
      omega
  | case4 bctx bci h =>
      intro c bctx2 bn2 bci2 hb
      rw [backtrace.eq_def] at hb
      simp [h] at hb
  | case5 bctx bci h bci2x n hg ih =>
      intro c bctx2 bn2 bci2 hb
      rw [backtrace.eq_def] at hb
      simp only [if_neg h] at hb
      rw [hg] at hb
      have := ih c bctx2 bn2 bci2 hb
      have h1 : bci &&& (bci - 1) ≤ bci - 1 := Nat.and_le_right
      simp [bt_w] at this ⊢
      omega
  | case6 bctx bci h bci2x n n1 hg =>
      intro c bctx2 bn2 bci2 hb
      rw [backtrace.eq_def] at hb
      simp only [if_neg h] at hb
      rw [hg] at hb
      simp at hb
      obtain ⟨rfl, rfl, rfl, rfl⟩ := hb
      have h1 : bci &&& (bci - 1) ≤ bci - 1 := Nat.and_le_right
      simp [bt_w]
      omega

/-- Step 2 of fib_table_lookup (with the shared backtrace and leaf
processing): prune a yesde whose prefix region already mismatches the key
or whose suffixes cayesot reach below its own pos; process a leaf, falling
back to backtracking when yes alias accepts; otherwise chase the zero child
(prefix direction). -/
def lookup_loop (props_err : Nat → Int) (flp : Flowi4) (il : Bool) (key : Nat) :
    KV → List Frame → Option KV → Nat → Int × Option FibResult
  | n, bctx, bn, bci =>
    if prefix_mismatch key n ≠ 0 ∨ n.slen = n.pos then
      match hb : backtrace bctx bn bci with
      | none => (-EAGAIN, none)
      | some (c, bctx2, bn2, bci2) => lookup_loop props_err flp il key c bctx2 bn2 bci2
    else if IS_LEAF n then
      match leaf_scan props_err flp il n.key (key ^^^ n.key) n.fas with
      | some r => r
      | none =>
          match hb : backtrace bctx bn bci with
          | none => (-EAGAIN, none)
          | some (c, bctx2, bn2, bci2) => lookup_loop props_err flp il key c bctx2 bn2 bci2
    else
      match hg : get_child n 0 with
      | none =>
          match hb : backtrace bctx bn bci with
          | none => (-EAGAIN, none)
          | some (c, bctx2, bn2, bci2) => lookup_loop props_err flp il key c bctx2 bn2 bci2
      | some c => lookup_loop props_err flp il key c bctx bn bci
termination_by n bctx bn bci => (bt_w bctx bci, sizeOf n)
decreasing_by
  · exact Prod.Lex.left _ _ (backtrace_lt bctx bn bci _ _ _ _ hb)
  · exact Prod.Lex.left _ _ (backtrace_lt bctx bn bci _ _ _ _ hb)
  · exact Prod.Lex.left _ _ (backtrace_lt bctx bn bci _ _ _ _ hb)
  · apply Prod.Lex.right
    cases n with
    | leaf k s fas => simp [get_child, KV.children, List.getD] at hg
    | tyesde k2 p2 b2 s2 ch2 =>
        have h := sizeOf_getD_opt ch2 0
        rw [show get_child (KV.tyesde k2 p2 b2 s2 ch2) 0 = ch2.getD 0 none from rfl]
          at hg
        rw [hg] at h
        simp at h ⊢
        omega

/-- Step 1 of fib_table_lookup: descend along the key, bookmarking the last
yesde whose suffix length exceeds its pos (the only ones worth backtracking
into); an index overflow hands the current yesde to step 2, a leaf goes
straight to processing, an empty slot backtracks. -/
def lookup_step1 (props_err : Nat → Int) (flp : Flowi4) (il : Bool) (key : Nat) :
    List Frame → KV → List Frame → Option KV → Nat → Int × Option FibResult
  | path, n, bctx, bn, bci =>
    let index := get_cindex key n
    if index ≥ 2 ^ n.bits then lookup_loop props_err flp il key n bctx bn bci
    else if IS_LEAF n then
      match leaf_scan props_err flp il n.key (key ^^^ n.key) n.fas with
      | some r => r
      | none =>
          match backtrace bctx bn bci with
          | none => (-EAGAIN, none)
          | some (c, bctx2, bn2, bci2) => lookup_loop props_err flp il key c bctx2 bn2 bci2
    else
      let st : List Frame × Option KV × Nat :=
        if n.slen > n.pos then (path, some n, index) else (bctx, bn, bci)
      match hg1 : get_child n index with
      | none =>
          match backtrace st.1 st.2.1 st.2.2 with
          | none => (-EAGAIN, none)
          | some (c, bctx2, bn2, bci2) => lookup_loop props_err flp il key c bctx2 bn2 bci2
      | some c =>
          lookup_step1 props_err flp il key
            (⟨n.key, n.pos, n.bits, n.slen, n.children, index⟩ :: path) c st.1 st.2.1 st.2.2
termination_by path n bctx bn bci => sizeOf n
decreasing_by
  cases n with
  | leaf k s fas => simp [get_child, KV.children, List.getD] at hg1
  | tyesde k2 p2 b2 s2 ch2 =>
      have h := sizeOf_getD_opt ch2 index
      rw [show get_child (KV.tyesde k2 p2 b2 s2 ch2) index = ch2.getD index none
        from rfl] at hg1
      rw [hg1] at h
      simp at h ⊢
      omega

/-- fib_table_lookup(tb, flp, res, fib_flags): start at the trie root kv
(bookmark pn = trie, cindex = 0); an empty root slot fails with -EAGAIN. -/
def fib_table_lookup (props_err : Nat → Int) (flp : Flowi4) (il : Bool)
    (root : Option KV) : Int × Option FibResult :=
  match root with
  | none => (-EAGAIN, none)
  | some n => lookup_step1 props_err flp il flp.daddr [] n [] none 0

mutual

/-- All leaf yesdes of a subtree, left to right. -/
def leaf_yesdes : KV → List KV
  | .leaf k s fas => [KV.leaf k s fas]
  | .tyesde _ _ _ _ ch => leaf_yesdes_list ch
termination_by t => sizeOf t

def leaf_yesdes_list : List (Option KV) → List KV
  | [] => []
  | none :: rest => leaf_yesdes_list rest
  | some cv :: rest => leaf_yesdes cv ++ leaf_yesdes_list rest
termination_by l => sizeOf l
decreasing_by
  all_goals simp
  all_goals omega

end

def trie_leaf_yesdes : Option KV → List KV
  | none => []
  | some t => leaf_yesdes t

/-- Inserted routes have yes key bits below their prefix length
(fib_valid_key_len), so every stored alias is aligned to its suffix
length and the suffix length is at most 32. -/
def aligned (t : KV) : Prop :=
  ∀ l ∈ leaf_yesdes t, ∀ fa ∈ KV.fas l,
    KV.key l % 2 ^ fa.fa_slen = 0 ∧ fa.fa_slen ≤ KEYLENGTH

/-- Each leaf's alias list is in fib_insert_alias order. -/
def fas_sorted (t : KV) : Prop :=
  ∀ l ∈ leaf_yesdes t, List.Pairwise fa_ord (KV.fas l)

/-- Every yesde's slen bounds the suffix lengths stored beneath it (the
invariant yesde_push_suffix / update_suffix maintain). -/
def slen_ge : KV → Prop
  | .leaf _ s fas => ∀ fa ∈ fas, fa.fa_slen ≤ s
  | .tyesde _ _ _ s ch =>
      ∀ j, j < ch.length → ∀ cv, ch.getD j none = some cv →
        KV.slen cv ≤ s ∧ slen_ge cv
termination_by t => sizeOf t
decreasing_by
  rename_i hcv
  rename_i ch hjl
  have h2 := sizeOf_getD_opt ch j
  rw [hcv] at h2
  simp at h2 ⊢
  omega

/-- A usable route for `key` at leaf `l`: its prefix covers the key and
the semantic filters accept it (or reject the whole lookup). -/
def cand (props_err : Nat → Int) (flp : Flowi4) (il : Bool) (key : Nat)
    (l : KV) (fa : FibAlias) : Prop :=
  IS_LEAF l = true ∧ fa ∈ KV.fas l ∧ key ^^^ KV.key l < 2 ^ fa.fa_slen ∧
  fib_alias_sem props_err flp il (KV.key l) fa ≠ none

/-- A usable route stored somewhere beneath yesde `n`. -/
def candIn (props_err : Nat → Int) (flp : Flowi4) (il : Bool) (key : Nat)
    (n l : KV) (fa : FibAlias) : Prop :=
  l ∈ leaf_yesdes n ∧ cand props_err flp il key l fa

/-- The usable routes a backtracking bookmark can still reach: at each
level, the subtrees at the progressively bit-stripped sibling indices,
then the levels above. -/
def bt_cand (props_err : Nat → Int) (flp : Flowi4) (il : Bool) (key : Nat) :
    List Frame → Option KV → Nat → KV → FibAlias → Prop
  | bctx, bn, bci, l, fa =>
    if bci = 0 then
      match bn, bctx with
      | none, _ => False
      | some _, [] => False
      | some p, f :: rest =>
          bt_cand props_err flp il key rest (some (Frame.fill f (some p))) f.idx l fa
    else
      match bn with
      | none => False
      | some p =>
          (∃ cv, get_child p (bci &&& (bci - 1)) = some cv ∧
            candIn props_err flp il key cv l fa) ∨
          bt_cand props_err flp il key bctx (some p) (bci &&& (bci - 1)) l fa
termination_by bctx bn bci => bt_w bctx bci
decreasing_by
  · simp [bt_w]
    omega
  · have h1 : bci &&& (bci - 1) ≤ bci - 1 := Nat.and_le_right
    simp [bt_w]
    omega

/-- The key-descent facts recorded in a bookmark context: each frame was
crossed at the key's own child index. -/
def key_frames (key : Nat) : List Frame → Prop
  | [] => True
  | f :: rest =>
      f.idx = (key ^^^ f.key) >>> f.pos ∧ (key ^^^ f.key) >>> f.pos < 2 ^ f.bits ∧
      key_frames key rest

/-- Validity of a backtracking bookmark: a real position in the trie whose
sibling index set is the key's child index with some low bits cleared. -/
def bm_ok (key : Nat) (root : Option KV) : List Frame → Option KV → Nat → Prop
  | ctx, none, bci => ctx = [] ∧ bci = 0
  | ctx, some p, bci =>
      ctx_ok ctx (some p) root ∧ key_frames key ctx ∧
      get_cindex key p < 2 ^ KV.bits p ∧
      ∃ w, bci = get_cindex key p >>> w <<< w

/-- The key with its low w bits cleared (the stored form of a prefix of
length 32 - w). -/
def kclear (x w : Nat) : Nat := x >>> w <<< w

/-- The structural invariants fib_table_insert maintains and fib_table_lookup
relies on: shape well-formedness, alias alignment, ordered alias lists and
correct cached suffix lengths. -/
def trie_inv (t : KV) : Prop :=
  wf t ∧ aligned t ∧ fas_sorted t ∧ slen_ge t

def trie_inv_opt : Option KV → Prop
  | none => True
  | some t => trie_inv t

/-- What a longest-prefix-match result means over a candidate set `C`: either
yes candidate exists and the lookup fails with -EAGAIN, or the returned value
is the semantic result of a candidate of minimal suffix length whose leaf
precedes every other candidate alias of its leaf in fib_insert_alias order. -/
def res_spec (props_err : Nat → Int) (flp : Flowi4) (il : Bool) (key : Nat)
    (r : Int × Option FibResult) (C : KV → FibAlias → Prop) : Prop :=
  (r = (-EAGAIN, none) ∧ ∀ l fa, ¬C l fa) ∨
  (∃ l fa, C l fa ∧ fib_alias_sem props_err flp il (KV.key l) fa = some r ∧
    (∀ l2 fa2, C l2 fa2 → fa.fa_slen ≤ fa2.fa_slen) ∧
    (∀ fa2 ∈ KV.fas l, cand props_err flp il key l fa2 → fa2 = fa ∨ fa_ord fa fa2))

/-- fib_props modelled as all-zero errors (every route type forwards, as for
RTN_UNICAST/RTN_LOCAL). -/
def peZ : Nat → Int := fun _ => 0

/-- A plain lookup flow: daddr 10.1.2.3, default tos/scope, yes oif binding. -/
def flpCex : Flowi4 :=
  { daddr := 0x0a010203, flowi4_tos := 0, flowi4_scope := 0, flowi4_oif := 0,
    skip_nh_oif := false }

/-- Route info of priority 5 with one healthy nexthop. -/
def fiP5 : FibInfo :=
  { fib_priority := 5, fib_scope := 0, fib_dead := false, fib_flags_dead := false,
    nh_blackhole := false,
    nhs := [{ nhc_dead := false, nhc_linkdown := false, igyesre_linkdown := false,
              nhc_oif := 3 }],
    fib_prefsrc := 0, fib_protocol := 0 }

/-- Route info of priority 1 with one healthy nexthop. -/
def fiP1 : FibInfo :=
  { fib_priority := 1, fib_scope := 0, fib_dead := false, fib_flags_dead := false,
    nh_blackhole := false,
    nhs := [{ nhc_dead := false, nhc_linkdown := false, igyesre_linkdown := false,
              nhc_oif := 4 }],
    fib_prefsrc := 0, fib_protocol := 0 }

/-- 10.1.2.0/24 in table 254 with priority 5. -/
def faP5 : FibAlias :=
  { fa_slen := 8, fa_tos := 0, fa_type := 1, fa_state := 0, tb_id := 254,
    fa_info := fiP5 }

/-- 10.1.2.0/24 in table 100 with priority 1. -/
def faP1 : FibAlias :=
  { fa_slen := 8, fa_tos := 0, fa_type := 1, fa_state := 0, tb_id := 100,
    fa_info := fiP1 }

/-- A leaf holding both /24 aliases in fib_insert_alias order (descending
tb_id within equal fa_slen puts the priority-5 route first). -/
def cexLeaf : KV := KV.leaf 0x0a010200 8 [faP5, faP1]

/-! ### Supporting lemmas -/

theorem length_filter_isSome_isNone (ch : List (Option KV)) :
    (ch.filter Option.isSome).length + (ch.filter Option.isNone).length = ch.length := by
  induction ch with
  | nil => simp
  | cons hd tl ih =>
    cases hd <;> simp [List.filter] <;> omega

theorem full_children_le_occupied (tn : KV) :
    full_children tn ≤ ((KV.children tn).filter Option.isSome).length := by
  unfold full_children
  induction KV.children tn with
  | nil => simp
  | cons hd tl ih =>
    cases hd with
    | none => simpa [tyesde_full, List.filter] using ih
    | some v =>
      simp only [List.filter, Option.isSome]
      cases h : tyesde_full tn (some v) <;> simp <;> omega

theorem empty_children_le_length (tn : KV) :
    empty_children tn ≤ (KV.children tn).length := by
  unfold empty_children
  exact List.length_filter_le _ _

theorem two_le_two_pow (b : Nat) (hb : 1 ≤ b) : 2 ≤ 2 ^ b := by
  calc 2 = 2 ^ 1 := rfl
  _ ≤ 2 ^ b := Nat.pow_le_pow_right (by omega) hb

/-- The arithmetic heart of C4: halving the doubled-capacity percentage
comparison and the redundancy of the `used > 1` test. -/
theorem inflate_arith (L E F occ p thr : Nat) (hL : 2 ≤ L) (hocc : occ + E = L)
    (hF : F ≤ occ) (hthr : thr = 30 ∨ thr = 50) :
    (1 < L - E + F ∧ p ≠ 0 ∧ L * thr ≤ 50 * (L - E + F)) ↔
      (thr * (2 * L) ≤ 100 * (occ + F) ∧ 0 < p) := by
  rcases hthr with h | h <;> subst h <;> constructor
  · rintro ⟨h1, h2, h3⟩
    exact ⟨by omega, by omega⟩
  · rintro ⟨h1, h2⟩
    exact ⟨by omega, by omega, by omega⟩
  · rintro ⟨h1, h2, h3⟩
    exact ⟨by omega, by omega⟩
  · rintro ⟨h1, h2⟩
    exact ⟨by omega, by omega, by omega⟩

/-- The Bool should_inflate as a proposition. -/
theorem should_inflate_eq (it : Bool) (tn : KV) :
    should_inflate it tn = true ↔
      (1 < child_length tn - stored_empty tn + stored_full tn ∧ tn.pos ≠ 0 ∧
       child_length tn * (if it then inflate_threshold_root else inflate_threshold) ≤
         50 * (child_length tn - stored_empty tn + stored_full tn)) := by
  unfold should_inflate
  simp only [Bool.and_eq_true, decide_eq_true_eq, bne_iff_ne, ne_eq, ge_iff_le, gt_iff_lt]
  tauto

/-- C4: for an internal yesde tn (bits >= 1, well-formed child array,
pos + bits <= KEYLENGTH) with parent tp, should_inflate(tp, tn) returns
true exactly when the fill ratio (occupied children + full_children) over
the capacity of the doubled yesde reaches the inflate threshold — 50
percent for yesn-root parents, 30 percent when tp is the trie root — and tn
is yest already maximal (tn->pos > 0).  (The capacity in the ratio is that
of the inflated yesde, 2 * child_length, exactly as the source derives the
integer comparison from the paper's doubled fill factor.) -/
theorem should_inflate_iff (it : Bool) (k p b s : Nat) (ch : List (Option KV))
    (hb : 1 ≤ b) (hlen : ch.length = 2 ^ b) (hpb : p + b ≤ KEYLENGTH) :
    should_inflate it (KV.tyesde k p b s ch) = true ↔
      (100 * ((ch.filter Option.isSome).length + full_children (KV.tyesde k p b s ch)) ≥
        (if it then inflate_threshold_root else inflate_threshold) *
          (2 * child_length (KV.tyesde k p b s ch)) ∧ 0 < p) := by
  have hKL : KEYLENGTH = 32 := rfl
  rw [should_inflate_eq]
  have hA := length_filter_isSome_isNone ch
  have hE : empty_children (KV.tyesde k p b s ch) = (List.filter Option.isNone ch).length := rfl
  have hF := full_children_le_occupied (KV.tyesde k p b s ch)
  simp only [KV.children] at hF
  have hL2 : 2 ≤ 2 ^ b := two_le_two_pow b hb
  have hp : (KV.tyesde k p b s ch).pos = p := rfl
  have hcl : child_length (KV.tyesde k p b s ch) = 2 ^ b := by
    unfold child_length
    rw [if_neg (by simp [KV.bits]; omega)]
    rfl
  by_cases hb32 : b = 32
  · have hp0 : p = 0 := by omega
    rw [hp, hp0]
    constructor
    · rintro ⟨-, h2, -⟩
      exact absurd rfl h2
    · rintro ⟨-, h2⟩
      exact absurd h2 (by omega)
  · have hLlt : 2 ^ b < 2 ^ 32 := Nat.pow_lt_pow_right (by omega) (by omega)
    have hElt : empty_children (KV.tyesde k p b s ch) < 2 ^ 32 := by
      rw [hE]; omega
    have hFlt : full_children (KV.tyesde k p b s ch) < 2 ^ 32 := by omega
    have hse : stored_empty (KV.tyesde k p b s ch) = empty_children (KV.tyesde k p b s ch) := by
      unfold stored_empty
      exact Nat.mod_eq_of_lt hElt
    have hsf : stored_full (KV.tyesde k p b s ch) = full_children (KV.tyesde k p b s ch) := by
      unfold stored_full
      rw [if_neg (by omega), Nat.add_zero]
      exact Nat.mod_eq_of_lt hFlt
    rw [hcl, hse, hsf, hp]
    have harith := inflate_arith (2 ^ b) (empty_children (KV.tyesde k p b s ch))
      (full_children (KV.tyesde k p b s ch)) ((ch.filter Option.isSome).length) p
      (if it then inflate_threshold_root else inflate_threshold)
      hL2 (by omega) hF (by cases it <;> simp [inflate_threshold, inflate_threshold_root])
    exact harith

theorem fib_insert_finish_fst (ctx3 : List Frame) (l : KV) :
    (fib_insert_finish ctx3 l).1 = 0 := by
  cases ctx3 <;> rfl

theorem fib_insert_yesde_err (la ta : Bool) (ctx : List Frame) (root : Option KV)
    (new : FibAlias) (key : Nat) :
    (fib_insert_yesde la ta ctx root new key).1 = 0 ∨
      (fib_insert_yesde la ta ctx root new key).1 = -ENOMEM := by
  unfold fib_insert_yesde
  by_cases hla : la = true
  · by_cases hta : ta = true
    · simp only [hla, hta]
      cases hn : (match ctx with
        | [] => root
        | f :: _ => f.children.getD f.idx none : Option KV) with
      | some n0 =>
          simp only [hn]
          split <;> simp [fib_insert_finish_fst]
      | none =>
          simp only [hn]
          split <;> simp [fib_insert_finish_fst]
    · simp only [hla, eq_self_iff_true, not_true, Bool.not_eq_true] at *
      simp only [hta]
      cases hn : (match ctx with
        | [] => root
        | f :: _ => f.children.getD f.idx none : Option KV) with
      | some n0 => simp [hn]
      | none =>
          simp only [hn]
          split <;> simp [fib_insert_finish_fst]
  · simp only [Bool.not_eq_true] at hla
    simp [hla]

theorem fib_insert_alias_err (la ta : Bool) (ctx : List Frame) (l : Option KV)
    (new : FibAlias) (fa : Option Nat) (key : Nat) (root : Option KV) :
    (fib_insert_alias la ta ctx l new fa key root).1 = 0 ∨
      (fib_insert_alias la ta ctx l new fa key root).1 = -ENOMEM := by
  unfold fib_insert_alias
  split
  · exact fib_insert_yesde_err la ta ctx root new key
  · split <;> (left; split <;> rfl)

theorem fib_table_insert_err (la ta : Bool) (tb_id : Nat) (cfg : FibConfig)
    (root : Option KV) (hv : fib_valid_key_len cfg.fc_dst cfg.fc_dst_len = true) :
    (fib_table_insert la ta tb_id cfg root).1 = 0 ∨
      (fib_table_insert la ta tb_id cfg root).1 = -EEXIST ∨
      (fib_table_insert la ta tb_id cfg root).1 = -ENOENT ∨
      (fib_table_insert la ta tb_id cfg root).1 = -ENOMEM := by
  unfold fib_table_insert
  rw [if_neg (by simp [hv])]
  dsimp only
  repeat' split
  all_goals
    first
    | (left; rfl)
    | (right; left; rfl)
    | (right; right; left; rfl)
    | (rcases fib_insert_alias_err la ta _ _ _ _ _ root with h | h
       exacts [Or.inl h, Or.inr (Or.inr (Or.inr h))])

theorem fib_table_delete_err (tb_id : Nat) (cfg : FibConfig) (root : Option KV)
    (hv : fib_valid_key_len cfg.fc_dst cfg.fc_dst_len = true) :
    (fib_table_delete tb_id cfg root).1 = 0 ∨
      (fib_table_delete tb_id cfg root).1 = -ESRCH := by
  unfold fib_table_delete
  rw [if_neg (by simp [hv])]
  dsimp only
  repeat' split
  all_goals first | (left; rfl) | (right; rfl)

theorem fib_valid_key_len_false_iff (key plen : Nat) :
    fib_valid_key_len key plen = false ↔
      (KEYLENGTH < plen ∨ (plen < KEYLENGTH ∧ (key <<< plen) % 2 ^ 32 ≠ 0)) := by
  unfold fib_valid_key_len
  split_ifs with h1 h2 <;> simp <;> first | tauto | (constructor <;> first | tauto | omega)

/-- C5: fib_table_insert and fib_table_delete return -EINVAL, leaving the
trie unchanged, exactly when the requested prefix length exceeds 32 or the
u32 key has a yesnzero bit beyond the stated prefix length
(key << plen != 0 for plen < 32). -/
theorem einval_exactly_on_invalid_key (la ta : Bool) (tb_id : Nat)
    (cfg : FibConfig) (root : Option KV) :
    ((fib_table_insert la ta tb_id cfg root).1 = -EINVAL ↔
        (KEYLENGTH < cfg.fc_dst_len ∨
          (cfg.fc_dst_len < KEYLENGTH ∧ (cfg.fc_dst <<< cfg.fc_dst_len) % 2 ^ 32 ≠ 0))) ∧
    ((fib_table_delete tb_id cfg root).1 = -EINVAL ↔
        (KEYLENGTH < cfg.fc_dst_len ∨
          (cfg.fc_dst_len < KEYLENGTH ∧ (cfg.fc_dst <<< cfg.fc_dst_len) % 2 ^ 32 ≠ 0))) ∧
    ((KEYLENGTH < cfg.fc_dst_len ∨
          (cfg.fc_dst_len < KEYLENGTH ∧ (cfg.fc_dst <<< cfg.fc_dst_len) % 2 ^ 32 ≠ 0)) →
      (fib_table_insert la ta tb_id cfg root).2 = root ∧
        (fib_table_delete tb_id cfg root).2 = root) := by
  cases hval : fib_valid_key_len cfg.fc_dst cfg.fc_dst_len with
  | false =>
      have hinv := (fib_valid_key_len_false_iff cfg.fc_dst cfg.fc_dst_len).mp hval
      have hins : fib_table_insert la ta tb_id cfg root = (-EINVAL, root) := by
        unfold fib_table_insert
        rw [if_pos (by simp [hval])]
      have hdel : fib_table_delete tb_id cfg root = (-EINVAL, root) := by
        unfold fib_table_delete
        rw [if_pos (by simp [hval])]
      rw [hins, hdel]
      exact ⟨by simpa using hinv, by simpa using hinv, fun _ => ⟨rfl, rfl⟩⟩
  | true =>
      have hinv : ¬ (KEYLENGTH < cfg.fc_dst_len ∨
          (cfg.fc_dst_len < KEYLENGTH ∧ (cfg.fc_dst <<< cfg.fc_dst_len) % 2 ^ 32 ≠ 0)) := by
        intro hc
        have := (fib_valid_key_len_false_iff cfg.fc_dst cfg.fc_dst_len).mpr hc
        rw [hval] at this
        exact absurd this (by decide)
      have hne1 : (fib_table_insert la ta tb_id cfg root).1 ≠ -EINVAL := by
        rcases fib_table_insert_err la ta tb_id cfg root hval with h | h | h | h <;>
          rw [h] <;> decide
      have hne2 : (fib_table_delete tb_id cfg root).1 ≠ -EINVAL := by
        rcases fib_table_delete_err tb_id cfg root hval with h | h <;>
          rw [h] <;> decide
      exact ⟨by simpa [hne1] using hinv, by simpa [hne2] using hinv,
        fun hc => absurd hc hinv⟩

/-- Witness: should_inflate_iff applied at a concrete 1-bit yesde with two
leaf children under a yesn-root parent (both sides hold there). -/
theorem should_inflate_iff_witness :
    ((1 : Nat) ≤ 1 ∧
      ([some (KV.leaf 0 31 []), some (KV.leaf 2 31 [])] : List (Option KV)).length = 2 ^ 1 ∧
      1 + 1 ≤ KEYLENGTH) ∧
    (should_inflate false (KV.tyesde 0 1 1 31 [some (KV.leaf 0 31 []), some (KV.leaf 2 31 [])]) = true ↔
      (100 * ((([some (KV.leaf 0 31 []), some (KV.leaf 2 31 [])] : List (Option KV)).filter
            Option.isSome).length +
          full_children (KV.tyesde 0 1 1 31 [some (KV.leaf 0 31 []), some (KV.leaf 2 31 [])])) ≥
        (if false then inflate_threshold_root else inflate_threshold) *
          (2 * child_length (KV.tyesde 0 1 1 31 [some (KV.leaf 0 31 []), some (KV.leaf 2 31 [])])) ∧
        0 < 1)) :=
  ⟨⟨by decide, by decide, by decide⟩,
   should_inflate_iff false 0 1 1 31 [some (KV.leaf 0 31 []), some (KV.leaf 2 31 [])]
     (by decide) (by decide) (by decide)⟩

theorem fib_insert_yesde_unchanged (la ta : Bool) (ctx : List Frame) (root : Option KV)
    (new : FibAlias) (key : Nat) :
    (fib_insert_yesde la ta ctx root new key).1 ≠ 0 →
      (fib_insert_yesde la ta ctx root new key).2 = root := by
  unfold fib_insert_yesde
  by_cases hla : la = true
  · by_cases hta : ta = true
    · simp only [hla, hta]
      cases hn : (match ctx with
        | [] => root
        | f :: _ => f.children.getD f.idx none : Option KV) with
      | some n0 =>
          simp only [hn]
          split
          · intro _; rfl
          · intro h
            refine absurd (fib_insert_finish_fst ?_ ?_) (by simpa using h)
      | none =>
          simp only [hn]
          split
          · intro _; rfl
          · intro h
            refine absurd (fib_insert_finish_fst ?_ ?_) (by simpa using h)
    · simp only [Bool.not_eq_true] at hta
      simp only [hla, hta]
      cases hn : (match ctx with
        | [] => root
        | f :: _ => f.children.getD f.idx none : Option KV) with
      | some n0 => simp [hn]
      | none =>
          simp only [hn]
          split
          · intro _; rfl
          · intro h
            refine absurd (fib_insert_finish_fst ?_ ?_) (by simpa using h)
  · simp only [Bool.not_eq_true] at hla
    simp [hla]

theorem fib_insert_alias_unchanged (la ta : Bool) (ctx : List Frame) (l : Option KV)
    (new : FibAlias) (fa : Option Nat) (key : Nat) (root : Option KV) :
    (fib_insert_alias la ta ctx l new fa key root).1 ≠ 0 →
      (fib_insert_alias la ta ctx l new fa key root).2 = root := by
  unfold fib_insert_alias
  split
  · exact fib_insert_yesde_unchanged la ta ctx root new key
  · split <;> (split <;> (intro h; exact (h rfl).elim))

theorem fib_table_insert_unchanged (la ta : Bool) (tb_id : Nat) (cfg : FibConfig)
    (root : Option KV) :
    (fib_table_insert la ta tb_id cfg root).1 ≠ 0 →
      (fib_table_insert la ta tb_id cfg root).2 = root := by
  unfold fib_table_insert
  dsimp only
  repeat' split
  all_goals
    first
    | (intro _; rfl)
    | (intro h; exact (h rfl).elim)
    | exact fib_insert_alias_unchanged la ta _ _ _ _ _ root

/-- C6: if the structural insert fails on allocation (fib_insert_yesde
returning -ENOMEM), the error is returned to the caller and the trie's
contents are exactly what they were before the call — in particular a
failing fib_table_insert leaves the root slot untouched (new yesdes are
fully constructed before linking; the failure exits run before any link). -/
theorem fib_insert_eyesmem_atomic (la ta : Bool) (ctx : List Frame)
    (root : Option KV) (new : FibAlias) (key : Nat) (tb_id : Nat)
    (cfg : FibConfig) :
    ((fib_insert_yesde la ta ctx root new key).1 = -ENOMEM →
      (fib_insert_yesde la ta ctx root new key).2 = root) ∧
    ((fib_table_insert la ta tb_id cfg root).1 = -ENOMEM →
      (fib_table_insert la ta tb_id cfg root).2 = root) := by
  constructor
  · intro h
    exact fib_insert_yesde_unchanged la ta ctx root new key (by rw [h]; decide)
  · intro h
    exact fib_table_insert_unchanged la ta tb_id cfg root (by rw [h]; decide)

/-- Witness: a failing leaf allocation during insert into the empty trie
returns -ENOMEM and leaves the root slot empty. -/
theorem fib_insert_eyesmem_atomic_witness :
    (fib_insert_yesde false true [] none fa_zero 5).1 = -ENOMEM ∧
    (fib_insert_yesde false true [] none fa_zero 5).2 = none ∧
    (fib_table_insert false true 254 cfgW none).1 = -ENOMEM ∧
    (fib_table_insert false true 254 cfgW none).2 = none :=
  ⟨rfl, (fib_insert_eyesmem_atomic false true [] none fa_zero 5 254 cfgW).1 rfl,
   by simp [fib_table_insert, cfgW, fiW, fib_valid_key_len, KEYLENGTH, fib_find_yesde,
     fib_insert_alias, fib_insert_yesde, ENOMEM, EINVAL],
   (fib_insert_eyesmem_atomic false true [] none fa_zero 5 254 cfgW).2
     (by simp [fib_table_insert, cfgW, fiW, fib_valid_key_len, KEYLENGTH, fib_find_yesde,
       fib_insert_alias, fib_insert_yesde, ENOMEM, EINVAL])⟩

theorem fa_ord_trans (a b c : FibAlias) (h1 : fa_ord a b) (h2 : fa_ord b c) :
    fa_ord a c := by
  unfold fa_ord at *
  omega

theorem fa_ord_total (a b : FibAlias) (h : ¬ fa_ord a b) : fa_ord b a := by
  unfold fa_ord at *
  omega

theorem fib_insert_position_shift (new : FibAlias) :
    ∀ (fas : List FibAlias) (i : Nat),
      fib_insert_position new fas i = i + fib_insert_position new fas 0 := by
  intro fas
  induction fas with
  | nil => intro i; simp [fib_insert_position]
  | cons a rest ih =>
      intro i
      unfold fib_insert_position
      split
      · simp
      · split
        · simp
        · rw [ih (i + 1), ih 1]
          omega

theorem fib_insert_position_le (new : FibAlias) :
    ∀ (fas : List FibAlias), fib_insert_position new fas 0 ≤ fas.length := by
  intro fas
  induction fas with
  | nil => simp [fib_insert_position]
  | cons a rest ih =>
      unfold fib_insert_position
      split
      · simp
      · split
        · simp
        · rw [fib_insert_position_shift new rest 1]
          simp
          omega

/-- The scanned insertion point of fib_insert_alias keeps the leaf list
sorted in the code's order (ascending fa_slen, descending tb_id). -/
theorem fib_insert_position_pairwise (new : FibAlias) :
    ∀ (fas : List FibAlias), List.Pairwise fa_ord fas →
      List.Pairwise fa_ord
        (fas.insertIdx (fib_insert_position new fas 0) new) := by
  intro fas
  induction fas with
  | nil =>
      intro _
      simp [fib_insert_position]
  | cons a rest ih =>
      intro hp
      rcases List.pairwise_cons.mp hp with ⟨ha, hrest⟩
      unfold fib_insert_position
      split
      case isTrue hstop =>
        simp only [List.insertIdx]
        refine List.pairwise_cons.mpr ⟨?_, hp⟩
        intro b hb
        have hna : fa_ord new a := by unfold fa_ord; omega
        rcases hb with _ | hb
        · exact hna
        · exact fa_ord_trans new a b hna (ha b (by assumption))
      case isFalse hstop1 =>
        split
        case isTrue hstop =>
          simp only [List.insertIdx]
          refine List.pairwise_cons.mpr ⟨?_, hp⟩
          intro b hb
          have hna : fa_ord new a := by unfold fa_ord; omega
          rcases hb with _ | hb
          · exact hna
          · exact fa_ord_trans new a b hna (ha b (by assumption))
        case isFalse hstop2 =>
          rw [fib_insert_position_shift new rest 1]
          have hpos : 1 + fib_insert_position new rest 0 =
              fib_insert_position new rest 0 + 1 := by omega
          rw [hpos, List.insertIdx_succ_cons]
          refine List.pairwise_cons.mpr ⟨?_, ih hrest⟩
          intro b hb
          rw [List.mem_insertIdx (fib_insert_position_le new rest)] at hb
          rcases hb with hb | hb
          · subst hb
            unfold fa_ord
            omega
          · exact ha b hb

theorem fib_find_alias_from_props (slen tos prio tb : Nat) :
    ∀ (fas : List FibAlias) (i j : Nat),
      fib_find_alias_from slen tos prio tb fas i = some j →
      i ≤ j ∧ j - i < fas.length ∧ (fas.getD (j - i) fa_zero).fa_slen = slen ∧
        (fas.getD (j - i) fa_zero).tb_id = tb := by
  intro fas
  induction fas with
  | nil => intro i j h; simp [fib_find_alias_from] at h
  | cons fa rest ih =>
      intro i j h
      unfold fib_find_alias_from at h
      split at h
      · rcases ih (i + 1) j h with ⟨h1, h2, h3, h4⟩
        refine ⟨by omega, by simp; omega, ?_, ?_⟩
        · have : j - i = (j - (i + 1)) + 1 := by omega
          rw [this]; simpa using h3
        · have : j - i = (j - (i + 1)) + 1 := by omega
          rw [this]; simpa using h4
      · split at h
        · exact absurd h (by simp)
        · split at h
          · rcases ih (i + 1) j h with ⟨h1, h2, h3, h4⟩
            refine ⟨by omega, by simp; omega, ?_, ?_⟩
            · have : j - i = (j - (i + 1)) + 1 := by omega
              rw [this]; simpa using h3
            · have : j - i = (j - (i + 1)) + 1 := by omega
              rw [this]; simpa using h4
          · split at h
            · exact absurd h (by simp)
            · split at h
              · rcases ih (i + 1) j h with ⟨h1, h2, h3, h4⟩
                refine ⟨by omega, by simp; omega, ?_, ?_⟩
                · have : j - i = (j - (i + 1)) + 1 := by omega
                  rw [this]; simpa using h3
                · have : j - i = (j - (i + 1)) + 1 := by omega
                  rw [this]; simpa using h4
              · split at h
                · rcases Option.some.inj h with rfl
                  refine ⟨le_refl _, by simp, ?_, ?_⟩
                  · simp only [Nat.sub_self, List.getD]
                    simp
                    omega
                  · simp only [Nat.sub_self, List.getD]
                    simp
                    omega
                · rcases ih (i + 1) j h with ⟨h1, h2, h3, h4⟩
                  refine ⟨by omega, by simp; omega, ?_, ?_⟩
                  · have : j - i = (j - (i + 1)) + 1 := by omega
                    rw [this]; simpa using h3
                  · have : j - i = (j - (i + 1)) + 1 := by omega
                    rw [this]; simpa using h4

/-- Splicing before an element whose sort key is shared keeps a pairwise
list pairwise. -/
theorem pairwise_insertIdx_at (new : FibAlias) :
    ∀ (fas : List FibAlias) (j : Nat), j < fas.length →
      List.Pairwise fa_ord fas →
      (∀ a, fa_ord a (fas.getD j fa_zero) → fa_ord a new) →
      (∀ b, fa_ord (fas.getD j fa_zero) b → fa_ord new b) →
      fa_ord new (fas.getD j fa_zero) →
      List.Pairwise fa_ord (fas.insertIdx j new) := by
  intro fas
  induction fas with
  | nil => intro j hj; simp at hj
  | cons a rest ih =>
      intro j hj hp hfrom hto hself
      rcases List.pairwise_cons.mp hp with ⟨ha, hrest⟩
      cases j with
      | zero =>
          simp only [List.insertIdx]
          refine List.pairwise_cons.mpr ⟨?_, hp⟩
          intro b hb
          simp only [List.getD, List.get] at hself hto
          rcases hb with _ | hb
          · simpa using hself
          · refine hto b (ha b (by assumption))
      | succ jj =>
          rw [List.insertIdx_succ_cons]
          simp only [List.length_cons] at hj
          have hjj : jj < rest.length := by omega
          have hget : (a :: rest).getD (jj + 1) fa_zero = rest.getD jj fa_zero := by
            simp [List.getD]
          rw [hget] at hfrom hto hself
          refine List.pairwise_cons.mpr ⟨?_, ih jj hjj hrest hfrom hto hself⟩
          intro b hb
          rw [List.mem_insertIdx (by omega)] at hb
          rcases hb with hb | hb
          · subst hb
            refine hfrom a (ha _ ?_)
            have : rest.getD jj fa_zero ∈ rest := by
              rw [List.getD_eq_getElem rest fa_zero hjj]
              exact List.getElem_mem hjj
            exact this
          · exact ha b hb

/-- C2 counterexample: fib_insert_alias splices a yes-worse-suffix alias
(fa_slen 8) after the existing fa_slen-0 alias, so the resulting list
[fa_slen 0, fa_slen 8] is yest sorted by descending suffix length as the
claim states (the code's order is ascending fa_slen). -/
theorem alias_order_counterexample :
    (fib_insert_alias true true [] (some (KV.leaf 0 0 [faA])) faB none 0 none).2 =
      some (KV.leaf 0 8 [faA, faB]) ∧
    ¬ List.Pairwise fa_ord_claimed [faA, faB] :=
  ⟨rfl, by decide⟩

/-- C2 amended: a leaf's alias list is kept sorted by ascending suffix
length (fa_slen, i.e. descending prefix length) with ties broken by
descending table id, and fib_insert_alias preserves this order for both
splice modes it is invoked with: the internal scan position (fa = NULL) for
any new alias, and a caller-supplied fib_find_alias position when the new
alias carries that position's (fa_slen, tb_id). -/
theorem fib_insert_alias_sorted (new : FibAlias) (fas : List FibAlias)
    (hp : List.Pairwise fa_ord fas) :
    List.Pairwise fa_ord (fas.insertIdx (fib_insert_position new fas 0) new) ∧
    (∀ slen tos prio tb j, fib_find_alias fas slen tos prio tb = some j →
      new.fa_slen = slen → new.tb_id = tb →
      List.Pairwise fa_ord (fas.insertIdx j new)) := by
  constructor
  · exact fib_insert_position_pairwise new fas hp
  · intro slen tos prio tb j hfind hs ht
    have hprops := fib_find_alias_from_props slen tos prio tb fas 0 j hfind
    rcases hprops with ⟨-, hlen, hslen, htb⟩
    simp only [Nat.sub_zero] at hlen hslen htb
    refine pairwise_insertIdx_at new fas j (by omega) hp ?_ ?_ ?_
    · intro a hfa
      unfold fa_ord at *
      omega
    · intro b hfb
      unfold fa_ord at *
      omega
    · unfold fa_ord
      omega

/-- Witness: the amended ordering theorem applied at the counterexample's
input. -/
theorem fib_insert_alias_sorted_witness :
    List.Pairwise fa_ord [faA] ∧
    List.Pairwise fa_ord ([faA].insertIdx (fib_insert_position faB [faA] 0) faB) :=
  ⟨by decide, (fib_insert_alias_sorted faB [faA] (by decide)).1⟩

/-- update_suffix's scan only ever adopts a child's slen, so any bound on
the children and the running value bounds the result. -/
theorem update_suffix_loop_le (tn : KV) (B : Nat)
    (hB : ∀ j cv, get_child tn j = some cv → cv.slen ≤ B) :
    ∀ (slen_max i e slen : Nat), slen ≤ B →
      update_suffix_loop tn slen_max i e slen ≤ B := by
  intro slen_max i e slen
  induction i, e, slen using update_suffix_loop.induct tn slen_max with
  | case1 i e slen h1 m hm h2 slen' h3 =>
      intro hs
      rw [update_suffix_loop]
      rw [if_pos h1, hm]
      simp only [if_pos h2]
      rw [if_pos h3]
      exact hB i m hm
  | case2 i e slen h1 m hm h2 e' slen' i' h3 ih =>
      intro hs
      rw [update_suffix_loop]
      rw [if_pos h1, hm]
      simp only [if_pos h2]
      rw [if_neg h3]
      exact ih (hB i m hm)
  | case3 i e slen h1 m hm h2 ih =>
      intro hs
      rw [update_suffix_loop]
      rw [if_pos h1, hm]
      simp only [if_neg h2]
      exact ih hs
  | case4 i e slen h1 hm ih =>
      intro hs
      rw [update_suffix_loop]
      rw [if_pos h1, hm]
      exact ih hs
  | case5 i e slen h1 =>
      intro hs
      rw [update_suffix_loop]
      rw [if_neg h1]
      exact hs

theorem getD_mem_of_some (l : List (Option KV)) (j : Nat) (cv : KV)
    (h : l.getD j none = some cv) : (some cv) ∈ l := by
  induction l generalizing j with
  | nil => simp [List.getD] at h
  | cons hd tl ih =>
      cases j with
      | zero => simp [List.getD] at h; simp [h]
      | succ jj =>
          simp only [List.getD_cons_succ] at h
          exact List.mem_cons_of_mem hd (ih jj h)

theorem update_suffix_le (tn : KV)
    (h : ∀ j cv, get_child tn j = some cv → cv.slen ≤ tn.slen)
    (hpos : tn.pos ≤ tn.slen) :
    (update_suffix tn).2 ≤ tn.slen := by
  unfold update_suffix
  exact update_suffix_loop_le tn tn.slen h _ 0 1 tn.pos hpos

theorem ctx_slen_bounded_mono (ctx : List Frame) (a b : Nat) (hab : a ≤ b)
    (hb : ctx_slen_bounded ctx b) : ctx_slen_bounded ctx a := by
  cases ctx with
  | nil => trivial
  | cons f rest =>
      rcases hb with ⟨h1, h2, h3⟩
      exact ⟨h1, by omega, h3⟩

/-- Pulling suffixes never increases any ancestor's cached slen. -/
theorem yesde_pull_suffix_le (ctx : List Frame) :
    ∀ (inner : Option KV) (s : Nat),
      ctx_slen_bounded ctx (opt_slen inner) →
      ∀ i, ((yesde_pull_suffix ctx inner s).getD i fr_zero).slen ≤
        (ctx.getD i fr_zero).slen := by
  induction ctx with
  | nil => intro inner s hb i; simp [yesde_pull_suffix]
  | cons f rest ih =>
      intro inner s hb i
      rcases hb with ⟨hch, hin, hrest⟩
      have hkids : ∀ j cv, get_child (Frame.fill f inner) j = some cv →
          cv.slen ≤ (Frame.fill f inner).slen := by
        intro j cv hj
        have hmem : (some cv) ∈ f.children.set f.idx inner :=
          getD_mem_of_some _ j cv hj
        rcases List.mem_or_eq_of_mem_set hmem with hm | hm
        · exact hch cv hm
        · cases inner with
          | none => simp at hm
          | some x =>
              rcases Option.some.inj hm.symm with rfl
              simpa [Frame.fill, KV.slen] using hin
      unfold yesde_pull_suffix
      dsimp only
      split
      case isTrue hg =>
        have hs' : (update_suffix (Frame.fill f inner)).2 ≤ f.slen := by
          have := update_suffix_le (Frame.fill f inner) hkids (by omega)
          simpa [Frame.fill, KV.slen] using this
        split
        case isTrue heq =>
          cases i with
          | zero => simpa using hs'
          | succ ii => simp
        case isFalse hne =>
          cases i with
          | zero => simpa using hs'
          | succ ii =>
              simp only [List.getD_cons_succ]
              refine ih _ _ ?_ ii
              refine ctx_slen_bounded_mono rest _ f.slen ?_ hrest
              simpa [opt_slen, Frame.fill, KV.slen] using hs'
      case isFalse hg =>
        simp

theorem yesde_push_suffix_length (ctx : List Frame) (s : Nat) :
    (yesde_push_suffix ctx s).length = ctx.length := by
  induction ctx with
  | nil => rfl
  | cons f rest ih =>
      unfold yesde_push_suffix
      split
      · simpa using ih
      · rfl

/-- Pushing suffixes never decreases any ancestor's cached slen. -/
theorem yesde_push_suffix_ge (ctx : List Frame) (s : Nat) :
    ∀ i, (ctx.getD i fr_zero).slen ≤ ((yesde_push_suffix ctx s).getD i fr_zero).slen := by
  induction ctx with
  | nil => intro i; simp [yesde_push_suffix]
  | cons f rest ih =>
      intro i
      unfold yesde_push_suffix
      split
      case isTrue h =>
        cases i with
        | zero => simpa using Nat.le_of_lt h
        | succ ii => simpa using ih ii
      case isFalse h => simp

/-- Pushing stops at the first ancestor whose slen is already at least the
pushed value: from it outward yesthing changes. -/
theorem yesde_push_suffix_stop (ctx : List Frame) (s : Nat) :
    ∀ i, s ≤ (ctx.getD i fr_zero).slen →
      ∀ j, i ≤ j → (yesde_push_suffix ctx s).getD j fr_zero = ctx.getD j fr_zero := by
  induction ctx with
  | nil => intro i _ j _; simp [yesde_push_suffix]
  | cons f rest ih =>
      intro i hi j hij
      unfold yesde_push_suffix
      split
      case isTrue h =>
        cases i with
        | zero => simp at hi; omega
        | succ ii =>
            cases j with
            | zero => omega
            | succ jj => simpa using ih ii (by simpa using hi) jj (by omega)
      case isFalse h => rfl

/-- A strictly pos-increasing ancestor chain of internal yesdes below the
trie root has at most KEYLENGTH levels. -/
theorem ctx_pos_chain_len (ctx : List Frame) :
    ∀ lo : Nat,
      List.Chain' (fun a b => a.pos < b.pos) ctx →
      (∀ f ∈ ctx, f.pos < KEYLENGTH) →
      (∀ f ∈ ctx.head?, lo ≤ f.pos) →
      ctx.length ≤ KEYLENGTH - lo := by
  induction ctx with
  | nil => intro lo _ _ _; simp
  | cons f rest ih =>
      intro lo hchain hlt hlo
      have hflt : f.pos < KEYLENGTH := hlt f (List.mem_cons_self f rest)
      have hlo' : lo ≤ f.pos := hlo f rfl
      have hrest := ih (f.pos + 1) (List.Chain'.tail hchain)
        (fun g hg => hlt g (List.mem_cons_of_mem f hg))
        (by
          intro g hg
          cases rest with
          | nil => simp at hg
          | cons g0 rest0 =>
              simp only [List.head?] at hg
              rcases Option.some.inj hg with rfl
              have := (List.chain'_cons.mp hchain).1
              omega)
      simp only [List.length_cons]
      omega

/-- C8: suffix maintenance is moyestone.  yesde_push_suffix never decreases
any ancestor's slen and stops at the first ancestor whose slen already is
at least the pushed value (everything from there outward is untouched);
yesde_pull_suffix never increases any ancestor's slen (given that cached
slens bound what is stored beneath them, i.e. are stale only upward), and
does yest rescan a yesde via update_suffix when its cached slen does yest
exceed both its pos and the pulled value; the upward walk is bounded by the
ancestor chain, which for a strictly pos-increasing chain of internal
yesdes has at most KEYLENGTH = 32 levels. -/
theorem suffix_maintenance :
    (∀ (ctx : List Frame) (s i : Nat),
        (ctx.getD i fr_zero).slen ≤ ((yesde_push_suffix ctx s).getD i fr_zero).slen) ∧
    (∀ (ctx : List Frame) (s i : Nat), s ≤ (ctx.getD i fr_zero).slen →
        ∀ j, i ≤ j → (yesde_push_suffix ctx s).getD j fr_zero = ctx.getD j fr_zero) ∧
    (∀ (ctx : List Frame) (inner : Option KV) (s : Nat),
        ctx_slen_bounded ctx (opt_slen inner) →
        ∀ i, ((yesde_pull_suffix ctx inner s).getD i fr_zero).slen ≤
          (ctx.getD i fr_zero).slen) ∧
    (∀ (f : Frame) (rest : List Frame) (inner : Option KV) (s : Nat),
        ¬ ((Frame.fill f inner).slen > (Frame.fill f inner).pos ∧
            (Frame.fill f inner).slen > s) →
        yesde_pull_suffix (f :: rest) inner s = f :: rest) ∧
    (∀ ctx : List Frame, List.Chain' (fun a b => a.pos < b.pos) ctx →
        (∀ f ∈ ctx, f.pos < KEYLENGTH) → ctx.length ≤ KEYLENGTH) :=
  ⟨fun ctx s i => yesde_push_suffix_ge ctx s i,
   fun ctx s i => yesde_push_suffix_stop ctx s i,
   fun ctx inner s hb i => yesde_pull_suffix_le ctx inner s hb i,
   fun f rest inner s hg => by
     unfold yesde_pull_suffix
     dsimp only
     rw [if_neg hg],
   fun ctx hchain hlt => by
     have := ctx_pos_chain_len ctx 0 hchain hlt (by intro g hg; omega)
     simpa using this⟩

/-- Witness: the push-stop and pull conjuncts of suffix_maintenance applied
at a single concrete frame. -/
theorem suffix_maintenance_witness :
    ((5 : Nat) ≤ (([fr1] : List Frame).getD 0 fr_zero).slen ∧
      (yesde_push_suffix [fr1] 5).getD 0 fr_zero = ([fr1] : List Frame).getD 0 fr_zero) ∧
    (ctx_slen_bounded [fr1] (opt_slen (some (KV.leaf 0 3 []))) ∧
      ((yesde_pull_suffix [fr1] (some (KV.leaf 0 3 [])) 2).getD 0 fr_zero).slen ≤
        (([fr1] : List Frame).getD 0 fr_zero).slen) :=
  ⟨⟨by decide,
    suffix_maintenance.2.1 [fr1] 5 0 (by decide) 0 (Nat.le_refl 0)⟩,
   ⟨⟨by
      intro cv hm
      simp [fr1] at hm
      subst hm
      decide, by decide, trivial⟩,
    suffix_maintenance.2.2.1 [fr1] (some (KV.leaf 0 3 [])) 2
      (⟨by
          intro cv hm
          simp [fr1] at hm
          subst hm
          decide, by decide, trivial⟩) 0⟩⟩

theorem shiftRight_xor_distrib (a b i : Nat) :
    (a ^^^ b) >>> i = a >>> i ^^^ b >>> i := by
  apply Nat.eq_of_testBit_eq
  intro j
  simp [Nat.testBit_shiftRight, Nat.testBit_xor]

theorem shiftRight_eq_zero_iff_lt (x m : Nat) : x >>> m = 0 ↔ x < 2 ^ m := by
  rw [Nat.shiftRight_eq_div_pow]
  have hp : 0 < 2 ^ m := Nat.pos_pow_of_pos m (by omega)
  constructor
  · intro h
    by_contra hc
    push_neg at hc
    have := Nat.div_le_div_right (c := 2 ^ m) hc
    rw [Nat.div_self hp] at this
    omega
  · intro h
    exact Nat.div_eq_of_lt h

theorem lt_of_shiftRight_lt {x p b : Nat} (h : x >>> p < 2 ^ b) :
    x < 2 ^ (p + b) := by
  rw [Nat.shiftRight_eq_div_pow] at h
  have := (Nat.div_lt_iff_lt_mul (Nat.pos_pow_of_pos p (by omega))).mp h
  calc x < 2 ^ b * 2 ^ p := this
  _ = 2 ^ (p + b) := by rw [← Nat.pow_add, Nat.add_comm]

theorem shiftRight_lt_of_lt {x p b : Nat} (h : x < 2 ^ (p + b)) :
    x >>> p < 2 ^ b := by
  rw [Nat.shiftRight_eq_div_pow]
  rw [Nat.div_lt_iff_lt_mul (Nat.pos_pow_of_pos p (by omega))]
  calc x < 2 ^ (p + b) := h
  _ = 2 ^ b * 2 ^ p := by rw [← Nat.pow_add, Nat.add_comm]

theorem shiftRight_congr_of_xor_lt {x y : Nat} (p : Nat) (h : x ^^^ y < 2 ^ p)
    (z : Nat) : (x ^^^ z) >>> p = (y ^^^ z) >>> p := by
  have h0 : (x ^^^ y) >>> p = 0 := (shiftRight_eq_zero_iff_lt _ _).mpr h
  have hx : (x ^^^ z) >>> p ^^^ (y ^^^ z) >>> p = 0 := by
    rw [← shiftRight_xor_distrib]
    have hxy : (x ^^^ z) ^^^ (y ^^^ z) = x ^^^ y := by
      apply Nat.eq_of_testBit_eq
      intro j
      simp [Nat.testBit_xor]
      cases x.testBit j <;> cases y.testBit j <;> cases z.testBit j <;> rfl
    rw [hxy]
    exact h0
  have := Nat.xor_eq_zero.mp hx
  exact this

theorem mem_leaf_keys_list (k' : Nat) :
    ∀ (l : List (Option KV)),
      k' ∈ leaf_keys_list l ↔ ∃ cv, (some cv) ∈ l ∧ k' ∈ leaf_keys cv := by
  intro l
  induction l with
  | nil => simp [leaf_keys_list]
  | cons hd rest ih =>
      cases hd with
      | none =>
          rw [leaf_keys_list]
          rw [ih]
          constructor
          · rintro ⟨cv, h1, h2⟩
            exact ⟨cv, List.mem_cons_of_mem _ h1, h2⟩
          · rintro ⟨cv, h1, h2⟩
            rcases List.mem_cons.mp h1 with h1 | h1
            · simp at h1
            · exact ⟨cv, h1, h2⟩
      | some cv0 =>
          rw [leaf_keys_list]
          simp only [List.mem_append]
          rw [ih]
          constructor
          · rintro (h | ⟨cv, h1, h2⟩)
            · exact ⟨cv0, List.mem_cons_self _ _, h⟩
            · exact ⟨cv, List.mem_cons_of_mem _ h1, h2⟩
          · rintro ⟨cv, h1, h2⟩
            rcases List.mem_cons.mp h1 with h1 | h1
            · rcases Option.some.inj h1 with rfl
              exact Or.inl h2
            · exact Or.inr ⟨cv, h1, h2⟩

theorem mem_iff_getD (l : List (Option KV)) (cv : KV) :
    (some cv) ∈ l ↔ ∃ j, j < l.length ∧ l.getD j none = some cv := by
  constructor
  · intro h
    rcases List.getElem_of_mem h with ⟨j, hj, hval⟩
    refine ⟨j, hj, ?_⟩
    rw [List.getD_eq_getElem l none hj]
    exact hval
  · rintro ⟨j, hj, hval⟩
    rw [List.getD_eq_getElem l none hj] at hval
    rw [← hval]
    exact List.getElem_mem hj

/-- Every leaf key beneath a well-formed yesde agrees with the yesde's key
above pos + bits. -/
theorem leaf_keys_close_aux :
    ∀ (n : Nat) (t : KV), sizeOf t ≤ n → wf t →
      ∀ k' ∈ leaf_keys t, (k' ^^^ t.key) < 2 ^ (t.pos + t.bits) := by
  intro n
  induction n with
  | zero =>
      intro t ht
      cases t <;> simp at ht
  | succ m ih =>
      intro t ht hwf k' hk'
      cases t with
      | leaf k s fas =>
          rw [leaf_keys] at hk'
          simp at hk'
          subst hk'
          simp [KV.key, KV.pos, KV.bits]
      | tyesde k p b s ch =>
          rw [leaf_keys] at hk'
          rcases (mem_leaf_keys_list k' ch).mp hk' with ⟨cv, hmem, hkcv⟩
          rcases (mem_iff_getD ch cv).mp hmem with ⟨j, hj, hgd⟩
          rw [wf] at hwf
          rcases hwf with ⟨hb, hpb, hlen, hklt, hkal, hch⟩
          rcases hch j (by omega) cv hgd with ⟨hwfcv, hcvpb, hcvslot⟩
          have hsz : sizeOf cv ≤ m := by
            have h1 := sizeOf_getD_opt ch j
            rw [hgd] at h1
            simp at h1 ht
            omega
          have hcvclose := ih cv hsz hwfcv k' hkcv
          have h1 : k' ^^^ cv.key < 2 ^ (p + b) := by
            have hle : (2 : Nat) ^ (cv.pos + cv.bits) ≤ 2 ^ (p + b) :=
              Nat.pow_le_pow_right (by omega) (by omega)
            omega
          have h2 : cv.key ^^^ k < 2 ^ (p + b) := by
            refine lt_of_shiftRight_lt (p := p) (b := b) ?_
            rw [hcvslot]
            omega
          have hsplit : k' ^^^ k = (k' ^^^ cv.key) ^^^ (cv.key ^^^ k) := by
            apply Nat.eq_of_testBit_eq
            intro jj
            simp only [Nat.testBit_xor]
            cases k'.testBit jj <;> cases cv.key.testBit jj <;> cases k.testBit jj <;> rfl
          simp only [KV.key, KV.pos, KV.bits]
          rw [hsplit]
          exact Nat.xor_lt_two_pow h1 h2

theorem leaf_keys_close (t : KV) (hwf : wf t) :
    ∀ k' ∈ leaf_keys t, (k' ^^^ t.key) < 2 ^ (t.pos + t.bits) :=
  leaf_keys_close_aux (sizeOf t) t (le_refl _) hwf

theorem fib_find_yesde_spec (key : Nat) :
    ∀ (n : Option KV) (ctx : List Frame),
      (∀ t, n = some t → wf t) →
      ((∀ l, (fib_find_yesde key n ctx).2 = some l →
          IS_LEAF l = true ∧ l.key = key ∧ key ∈ trie_leaf_keys n) ∧
       ((fib_find_yesde key n ctx).2 = none → key ∉ trie_leaf_keys n)) := by
  intro n ctx
  induction n, ctx using fib_find_yesde.induct key with
  | case1 ctx =>
      intro _
      have hres : fib_find_yesde key none ctx = (ctx, none) := by
        rw [fib_find_yesde.eq_def]
      rw [hres]
      refine ⟨by intro l hl; simp at hl, by intro _; simp [trie_leaf_keys]⟩
  | case2 n ctx index hidx =>
      intro hwf
      have hres : fib_find_yesde key (some n) ctx = (ctx, none) := by
        rw [fib_find_yesde.eq_def]
        dsimp only
        rw [if_pos hidx]
      rw [hres]
      refine ⟨by intro l hl; simp at hl, ?_⟩
      intro _ hk
      have hwfn := hwf n rfl
      simp only [trie_leaf_keys] at hk
      have hclose := leaf_keys_close n hwfn key hk
      have hbnd : get_cindex key n < 2 ^ n.bits := by
        unfold get_cindex
        exact shiftRight_lt_of_lt hclose
      omega
  | case3 ctx k0 s0 fas0 index hidx =>
      intro _
      have hres : fib_find_yesde key (some (KV.leaf k0 s0 fas0)) ctx =
          (ctx, some (KV.leaf k0 s0 fas0)) := by
        rw [fib_find_yesde]
        rw [if_neg hidx]
      rw [hres]
      refine ⟨?_, by intro hl; simp at hl⟩
      intro l hl
      rcases Option.some.inj hl with rfl
      have hkey : key = k0 := by
        simp only [KV.bits, pow_zero, Nat.lt_one_iff, not_le] at hidx
        have hz : get_cindex key (KV.leaf k0 s0 fas0) = 0 := hidx
        simp only [get_cindex, KV.key, KV.pos, Nat.shiftRight_zero] at hz
        exact Nat.xor_eq_zero.mp hz
      refine ⟨rfl, hkey.symm, ?_⟩
      simp only [trie_leaf_keys]
      rw [leaf_keys]
      simp [hkey]
  | case4 ctx k0 p0 b0 s0 ch0 index hidx ih =>
      intro hwf
      have hwfn := hwf _ rfl
      rw [wf] at hwfn
      rcases hwfn with ⟨hb, hpb, hlen, hklt, hal, hch⟩
      have hidx' : index < 2 ^ b0 := by
        simpa [KV.bits] using (not_le.mp hidx)
      have hres : fib_find_yesde key (some (KV.tyesde k0 p0 b0 s0 ch0)) ctx =
          fib_find_yesde key (ch0.getD index none)
            ({ key := k0, pos := p0, bits := b0, slen := s0, children := ch0,
               idx := index } :: ctx) := by
        rw [fib_find_yesde]
        rw [if_neg hidx]
      have hwfc : ∀ t, ch0.getD index none = some t → wf t :=
        fun t ht => (hch _ hidx' t ht).1
      have IH := ih hwfc
      rw [hres]
      constructor
      · intro l hl
        rcases IH.1 l hl with ⟨h1, h2, h3⟩
        refine ⟨h1, h2, ?_⟩
        cases hc : ch0.getD index none with
        | none => rw [hc] at h3; simp [trie_leaf_keys] at h3
        | some cv =>
            rw [hc] at h3
            simp only [trie_leaf_keys] at h3 ⊢
            rw [leaf_keys]
            exact (mem_leaf_keys_list key ch0).mpr ⟨cv, getD_mem_of_some _ _ _ hc, h3⟩
      · intro hl hk
        simp only [trie_leaf_keys] at hk
        rw [leaf_keys] at hk
        rcases (mem_leaf_keys_list key ch0).mp hk with ⟨cv, hmem, hkcv⟩
        rcases (mem_iff_getD ch0 cv).mp hmem with ⟨j, hj, hgd⟩
        rcases hch j (by omega) cv hgd with ⟨hwfcv, hcvpb, hcvslot⟩
        have hclose := leaf_keys_close cv hwfcv key hkcv
        have hlt : key ^^^ cv.key < 2 ^ p0 :=
          lt_of_lt_of_le hclose (Nat.pow_le_pow_right (by omega) (by omega))
        have hieq : index = j := by
          show get_cindex key (KV.tyesde k0 p0 b0 s0 ch0) = j
          simp only [get_cindex, KV.key, KV.pos]
          rw [shiftRight_congr_of_xor_lt p0 hlt k0]
          simpa [KV.key, KV.pos] using hcvslot
        apply IH.2 hl
        rw [hieq, hgd]
        simp only [trie_leaf_keys]
        exact hkcv

theorem set_getD_self (l : List (Option KV)) :
    ∀ i, i < l.length → l.set i (l.getD i none) = l := by
  induction l with
  | nil => intro i hi; simp at hi
  | cons hd tl ih =>
      intro i hi
      cases i with
      | zero => simp [List.getD]
      | succ j =>
          simp only [List.getD_cons_succ, List.set_cons_succ, List.cons.injEq, true_and]
          exact ih j (by simpa using hi)

/-- fib_find_yesde's returned tp context is the walked search path: filling
the hole of its innermost frame with that frame's recorded child slot
rebuilds exactly the trie that was searched. -/
theorem fib_find_yesde_path (key : Nat) :
    ∀ (n : Option KV) (ctx : List Frame),
      (∀ t, n = some t → wf t) →
      (match ctx with | [] => True | f :: _ => f.children.getD f.idx none = n) →
      ∀ root, reconstruct ctx n = root →
        reconstruct (fib_find_yesde key n ctx).1
          (match (fib_find_yesde key n ctx).1 with
            | [] => root
            | f :: _ => f.children.getD f.idx none) = root := by
  intro n ctx
  induction n, ctx using fib_find_yesde.induct key with
  | case1 ctx =>
      intro _ hhead root hrec
      have hres : fib_find_yesde key none ctx = (ctx, none) := by
        rw [fib_find_yesde.eq_def]
      rw [hres]
      cases ctx with
      | nil => rfl
      | cons f rest =>
          simp only at hhead ⊢
          rw [hhead]
          exact hrec
  | case2 n ctx index hidx =>
      intro _ hhead root hrec
      have hres : fib_find_yesde key (some n) ctx = (ctx, none) := by
        rw [fib_find_yesde.eq_def]
        dsimp only
        rw [if_pos hidx]
      rw [hres]
      cases ctx with
      | nil => rfl
      | cons f rest =>
          simp only at hhead ⊢
          rw [hhead]
          exact hrec
  | case3 ctx k0 s0 fas0 index hidx =>
      intro _ hhead root hrec
      have hres : fib_find_yesde key (some (KV.leaf k0 s0 fas0)) ctx =
          (ctx, some (KV.leaf k0 s0 fas0)) := by
        rw [fib_find_yesde]
        rw [if_neg hidx]
      rw [hres]
      cases ctx with
      | nil => rfl
      | cons f rest =>
          simp only at hhead ⊢
          rw [hhead]
          exact hrec
  | case4 ctx k0 p0 b0 s0 ch0 index hidx ih =>
      intro hwf hhead root hrec
      have hwfn := hwf _ rfl
      rw [wf] at hwfn
      rcases hwfn with ⟨hb, hpb, hlen, hklt, hal, hch⟩
      have hidx' : index < 2 ^ b0 := by
        simpa [KV.bits] using (not_le.mp hidx)
      have hres : fib_find_yesde key (some (KV.tyesde k0 p0 b0 s0 ch0)) ctx =
          fib_find_yesde key (ch0.getD index none)
            ({ key := k0, pos := p0, bits := b0, slen := s0, children := ch0,
               idx := index } :: ctx) := by
        rw [fib_find_yesde]
        rw [if_neg hidx]
      have hwfc : ∀ t, ch0.getD index none = some t → wf t :=
        fun t ht => (hch _ hidx' t ht).1
      rw [hres]
      refine ih hwfc rfl root ?_
      show reconstruct ctx (some (Frame.fill _ (ch0.getD index none))) = root
      have hfill : Frame.fill
          { key := k0, pos := p0, bits := b0, slen := s0, children := ch0, idx := index }
          (ch0.getD index none) = KV.tyesde k0 p0 b0 s0 ch0 := by
        unfold Frame.fill
        rw [set_getD_self ch0 index (by omega)]
      rw [hfill]
      exact hrec

theorem wf_tW : wf tW := by
  rw [tW, wf]
  refine ⟨by decide, by decide, by decide, by decide, by decide, ?_⟩
  intro j hj cv hcv
  interval_cases j <;> simp at hcv <;> subst hcv <;>
    exact ⟨by simp [wf], by decide, by decide⟩

/-- C9: for a well-formed trie and any 32-bit key, fib_find_yesde returns a
leaf only when that leaf's key equals the searched key exactly; it returns
NULL exactly when yes leaf with that key is stored; and the returned tp
context is the walked search path (filling the innermost frame's hole with
its recorded child rebuilds the searched trie), so insert and delete never
operate on a leaf for a different key. -/
theorem fib_find_yesde_exact (key : Nat) (root : Option KV)
    (hwf : ∀ t, root = some t → wf t) :
    (∀ l, (fib_find_yesde key root []).2 = some l →
        IS_LEAF l = true ∧ l.key = key ∧ key ∈ trie_leaf_keys root) ∧
    ((fib_find_yesde key root []).2 = none ↔ key ∉ trie_leaf_keys root) ∧
    reconstruct (fib_find_yesde key root []).1
      (match (fib_find_yesde key root []).1 with
        | [] => root
        | f :: _ => f.children.getD f.idx none) = root := by
  have hspec := fib_find_yesde_spec key root [] hwf
  refine ⟨hspec.1, ⟨hspec.2, ?_⟩, fib_find_yesde_path key root [] hwf trivial root rfl⟩
  intro hnk
  cases hres : (fib_find_yesde key root []).2 with
  | none => rfl
  | some l => exact absurd (hspec.1 l hres).2.2 hnk

/-- Witness: exact-match search on the sample trie; 10.0.0.1 is stored in
yes leaf, and fib_find_yesde reports exactly that. -/
theorem fib_find_yesde_exact_witness :
    wf tW ∧
    ((fib_find_yesde 0x0a000001 (some tW) []).2 = none ↔
      (0x0a000001 : Nat) ∉ trie_leaf_keys (some tW)) :=
  ⟨wf_tW,
   (fib_find_yesde_exact 0x0a000001 (some tW)
     (fun t ht => by rw [← Option.some.inj ht]; exact wf_tW)).2.1⟩

theorem shiftRight_mono {a b : Nat} (i : Nat) (h : a ≤ b) : a >>> i ≤ b >>> i := by
  simp only [Nat.shiftRight_eq_div_pow]
  exact Nat.div_le_div_right h

theorem shiftRight_bounds {x p j : Nat} (h : x >>> p = j) :
    j * 2 ^ p ≤ x ∧ x < (j + 1) * 2 ^ p := by
  rw [Nat.shiftRight_eq_div_pow] at h
  have hdm := Nat.div_add_mod x (2 ^ p)
  have hm := Nat.mod_lt x (y := 2 ^ p) (Nat.pos_pow_of_pos p (by omega))
  subst h
  refine ⟨Nat.div_mul_le_self _ _, ?_⟩
  rw [Nat.add_mul, one_mul, Nat.mul_comm]
  omega

theorem shiftRight_shiftRight (x a b : Nat) : x >>> a >>> b = x >>> (a + b) := by
  simp [Nat.shiftRight_eq_div_pow, Nat.div_div_eq_div_mul, Nat.pow_add]

theorem xor_eq_add_of_aligned {k x m : Nat} (hk : k % 2 ^ m = 0)
    (hx : x < 2 ^ m) : k ^^^ x = k + x := by
  have hxsh : x >>> m = 0 := (shiftRight_eq_zero_iff_lt _ _).mpr hx
  have hdiv : (k ^^^ x) >>> m = k >>> m := by
    rw [shiftRight_xor_distrib, hxsh, Nat.xor_zero]
  have hmod : (k ^^^ x) % 2 ^ m = x := by
    apply Nat.eq_of_testBit_eq
    intro j
    rcases Nat.lt_or_ge j m with hj | hj
    · rw [Nat.testBit_mod_two_pow]
      have hkj : k.testBit j = false := by
        have := Nat.testBit_mod_two_pow k m j
        rw [hk] at this
        simp [hj] at this
        simp [this]
      simp [hj, Nat.testBit_xor, hkj]
    · have h1 : (k ^^^ x) % 2 ^ m < 2 ^ j :=
        lt_of_lt_of_le (Nat.mod_lt _ (Nat.pos_pow_of_pos m (by omega)))
          (Nat.pow_le_pow_right (by omega) hj)
      have h2 : x < 2 ^ j := lt_of_lt_of_le hx (Nat.pow_le_pow_right (by omega) hj)
      rw [Nat.testBit_lt_two_pow h1, Nat.testBit_lt_two_pow h2]
  have e1 := Nat.div_add_mod (k ^^^ x) (2 ^ m)
  have e2 := Nat.div_add_mod k (2 ^ m)
  rw [Nat.shiftRight_eq_div_pow, Nat.shiftRight_eq_div_pow] at hdiv
  rw [hdiv, hmod] at e1
  omega

theorem xor_cancel_left (k x : Nat) : k ^^^ (k ^^^ x) = x := by
  rw [← Nat.xor_assoc, Nat.xor_self, Nat.zero_xor]

theorem wf_key_lt (t : KV) (h : wf t) : t.key < 2 ^ 32 ∧ t.pos + t.bits ≤ 32 := by
  cases t with
  | leaf k s fas =>
      rw [wf] at h
      exact ⟨h, by simp [KV.pos, KV.bits]⟩
  | tyesde k p b s ch =>
      rw [wf] at h
      exact ⟨h.2.2.2.1, by simpa [KV.pos, KV.bits, KEYLENGTH] using h.2.1⟩

theorem leaf_keys_lt (t : KV) (h : wf t) : ∀ x ∈ leaf_keys t, x < 2 ^ 32 := by
  intro x hx
  have hc := leaf_keys_close t h x hx
  have hk := wf_key_lt t h
  have hcl : x ^^^ t.key < 2 ^ 32 :=
    lt_of_lt_of_le hc (Nat.pow_le_pow_right (by omega) hk.2)
  have : t.key ^^^ (x ^^^ t.key) = x := by
    rw [Nat.xor_comm x t.key, xor_cancel_left]
  rw [← this]
  exact Nat.xor_lt_two_pow hk.1 hcl

theorem leaf_keys_list_append (a b : List (Option KV)) :
    leaf_keys_list (a ++ b) = leaf_keys_list a ++ leaf_keys_list b := by
  induction a with
  | nil => simp [leaf_keys_list]
  | cons hd tl ih =>
      cases hd with
      | none => simpa [leaf_keys_list] using ih
      | some cv => simp [leaf_keys_list, ih]

theorem getD_some_lt_length (l : List (Option KV)) (i : Nat) (cv : KV)
    (h : l.getD i none = some cv) : i < l.length := by
  by_contra hc
  push_neg at hc
  rw [List.getD_eq_default l none hc] at h
  simp at h

theorem leaf_keys_list_drop_of_some (l : List (Option KV)) (i : Nat) (cv : KV)
    (h : l.getD i none = some cv) :
    leaf_keys_list (l.drop i) = leaf_keys cv ++ leaf_keys_list (l.drop (i + 1)) := by
  have hi := getD_some_lt_length l i cv h
  rw [List.getD_eq_getElem l none hi] at h
  rw [List.drop_eq_getElem_cons hi, h]
  simp [leaf_keys_list]

theorem leaf_keys_list_drop_of_none (l : List (Option KV)) (i : Nat)
    (h : l.getD i none = none) :
    leaf_keys_list (l.drop i) = leaf_keys_list (l.drop (i + 1)) := by
  rcases Nat.lt_or_ge i l.length with hi | hi
  · rw [List.getD_eq_getElem l none hi] at h
    rw [List.drop_eq_getElem_cons hi, h]
    simp [leaf_keys_list]
  · rw [List.drop_eq_nil_of_le hi, List.drop_eq_nil_of_le (by omega)]

theorem leaf_keys_list_take_drop (l : List (Option KV)) (i : Nat) :
    leaf_keys_list l = leaf_keys_list (l.take i) ++ leaf_keys_list (l.drop i) := by
  conv_lhs => rw [← List.take_append_drop i l]
  exact leaf_keys_list_append _ _

theorem getD_drop (l : List (Option KV)) (i j : Nat) :
    (l.drop i).getD j none = l.getD (i + j) none := by
  induction i generalizing l with
  | zero => simp
  | succ ii ih =>
      cases l with
      | nil => simp [List.getD]
      | cons hd tl =>
          rw [List.drop_succ_cons]
          rw [ih tl]
          rw [show ii + 1 + j = (ii + j) + 1 by omega, List.getD_cons_succ]

theorem mem_keys_drop (l : List (Option KV)) (i k' : Nat) :
    k' ∈ leaf_keys_list (l.drop i) ↔
      ∃ j cv, i ≤ j ∧ l.getD j none = some cv ∧ k' ∈ leaf_keys cv := by
  rw [mem_leaf_keys_list]
  constructor
  · rintro ⟨cv, hmem, hk⟩
    rcases (mem_iff_getD _ cv).mp hmem with ⟨j2, hj2, hval⟩
    rw [getD_drop] at hval
    exact ⟨i + j2, cv, by omega, hval, hk⟩
  · rintro ⟨j, cv, hij, hval, hk⟩
    refine ⟨cv, ?_, hk⟩
    rw [mem_iff_getD]
    have hlen := getD_some_lt_length l j cv hval
    refine ⟨j - i, ?_, ?_⟩
    · rw [List.length_drop]; omega
    · rw [getD_drop, show i + (j - i) = j by omega]; exact hval

theorem mem_keys_take (l : List (Option KV)) (i k' : Nat)
    (h : k' ∈ leaf_keys_list (l.take i)) :
    ∃ j cv, j < i ∧ l.getD j none = some cv ∧ k' ∈ leaf_keys cv := by
  rcases (mem_leaf_keys_list k' (l.take i)).mp h with ⟨cv, hmem, hk⟩
  rcases (mem_iff_getD _ cv).mp hmem with ⟨j, hj, hval⟩
  rw [List.length_take] at hj
  refine ⟨j, cv, by omega, ?_, hk⟩
  have hjl : j < l.length := by omega
  rw [List.getD_eq_getElem _ none hjl]
  rw [List.getD_eq_getElem _ none (by rw [List.length_take]; omega)] at hval
  rw [← hval]
  exact (List.getElem_take ..).symm

/-- Each leaf key beneath child slot j of a well-formed internal yesde lies
in the j-th stride interval above the yesde's key. -/
theorem slot_interval (k p b s : Nat) (ch : List (Option KV))
    (hwf : wf (KV.tyesde k p b s ch)) (j : Nat) (cv : KV)
    (hcv : ch.getD j none = some cv) (k' : Nat) (hk' : k' ∈ leaf_keys cv) :
    k + j * 2 ^ p ≤ k' ∧ k' < k + (j + 1) * 2 ^ p := by
  have hwf' := hwf
  rw [wf] at hwf'
  obtain ⟨hb, hpb, hlen, hklt, halign, hch⟩ := hwf'
  have hj : j < 2 ^ b := by
    have := getD_some_lt_length ch j cv hcv
    omega
  obtain ⟨hwfcv, hcvpos, hidx⟩ := hch j hj cv hcv
  have hclose := leaf_keys_close cv hwfcv k' hk'
  have hclose' : k' ^^^ cv.key < 2 ^ p :=
    lt_of_lt_of_le hclose (Nat.pow_le_pow_right (by omega) hcvpos)
  have hsh : (k' ^^^ k) >>> p = j := by
    rw [shiftRight_congr_of_xor_lt p hclose' k]
    exact hidx
  have hxlt : k' ^^^ k < 2 ^ (p + b) := lt_of_shiftRight_lt (by rw [hsh]; exact hj)
  have hadd : k ^^^ (k' ^^^ k) = k + (k' ^^^ k) :=
    xor_eq_add_of_aligned halign hxlt
  have hky : k ^^^ (k' ^^^ k) = k' := by
    rw [Nat.xor_comm k' k, xor_cancel_left]
  have hbnd := shiftRight_bounds hsh
  omega

/-- The leaf keys of a well-formed yesde are strictly increasing. -/
theorem leaf_keys_sorted_aux :
    ∀ n t, sizeOf t ≤ n → wf t → List.Pairwise (· < ·) (leaf_keys t) := by
  intro n
  induction n with
  | zero =>
      intro t ht
      cases t <;> simp at ht
  | succ m ih =>
      intro t ht hwf
      cases t with
      | leaf k s fas => rw [leaf_keys]; simp
      | tyesde k p b s ch =>
          rw [leaf_keys]
          have hwf' := hwf
          rw [wf] at hwf'
          obtain ⟨hb, hpb, hlen, hklt, halign, hch⟩ := hwf'
          have hsz : sizeOf ch < sizeOf (KV.tyesde k p b s ch) := by simp
          have haux : ∀ d i, ch.length ≤ i + d →
              List.Pairwise (· < ·) (leaf_keys_list (ch.drop i)) := by
            intro d
            induction d with
            | zero =>
                intro i hi
                rw [List.drop_eq_nil_of_le (by omega)]
                simp [leaf_keys_list]
            | succ dd ihd =>
                intro i hi
                rcases Nat.lt_or_ge i ch.length with hilen | hilen
                · cases hchi : ch.getD i none with
                  | none =>
                      rw [leaf_keys_list_drop_of_none ch i hchi]
                      exact ihd (i + 1) (by omega)
                  | some cv =>
                      rw [leaf_keys_list_drop_of_some ch i cv hchi]
                      rw [List.pairwise_append]
                      refine ⟨?_, ihd (i + 1) (by omega), ?_⟩
                      · have hszcv : sizeOf cv < sizeOf ch := by
                          have := sizeOf_getD_opt ch i
                          rw [hchi] at this
                          simp at this
                          omega
                        have hicv : i < 2 ^ b := by omega
                        exact ih cv (by omega) (hch i hicv cv hchi).1
                      · intro a ha x hx
                        rcases (mem_keys_drop ch (i + 1) x).mp hx with
                          ⟨j2, cv2, hij2, hval2, hx2⟩
                        have h1 := slot_interval k p b s ch hwf i cv hchi a ha
                        have h2 := slot_interval k p b s ch hwf j2 cv2 hval2 x hx2
                        have hstep : (i + 1) * 2 ^ p ≤ j2 * 2 ^ p :=
                          Nat.mul_le_mul_right _ (by omega)
                        omega
                · rw [List.drop_eq_nil_of_le (by omega)]
                  simp [leaf_keys_list]
          have := haux ch.length 0 (by omega)
          simpa using this

theorem leaf_keys_sorted (t : KV) (hwf : wf t) :
    List.Pairwise (· < ·) (leaf_keys t) :=
  leaf_keys_sorted_aux (sizeOf t) t (le_refl _) hwf

theorem trie_leaf_keys_sorted (root : Option KV)
    (hroot : ∀ x, root = some x → wf x) :
    List.Pairwise (· < ·) (trie_leaf_keys root) := by
  cases root with
  | none => simp [trie_leaf_keys]
  | some t => exact leaf_keys_sorted t (hroot t rfl)

theorem getD_set_self (l : List (Option KV)) (i : Nat) (a : Option KV)
    (h : i < l.length) : (l.set i a).getD i none = a := by
  rw [List.getD_eq_getElem _ none (by simpa using h)]
  exact List.getElem_set_self (by simpa using h)

theorem set_getD_self_eq (l : List (Option KV)) (i : Nat) (a : Option KV)
    (h : l.getD i none = a) (hi : i < l.length) : l.set i a = l := by
  rw [List.getD_eq_getElem _ none hi] at h
  rw [← h]
  apply List.ext_getElem
  · simp
  · intro j hj1 hj2
    rcases eq_or_ne j i with hji | hji
    · subst hji
      exact List.getElem_set_self (by simpa using hj1)
    · exact List.getElem_set_ne (Ne.symm hji) ..

/-- The hole content of a valid context is a well-formed yesde. -/
theorem ctx_ok_wf (root : Option KV) (hroot : ∀ x, root = some x → wf x) :
    ∀ ctx c, ctx_ok ctx c root → ∀ t, c = some t → wf t := by
  intro ctx
  induction ctx with
  | nil =>
      intro c hok t hc
      rw [ctx_ok] at hok
      exact hroot t (by rw [← hok, hc])
  | cons f rest ih =>
      intro c hok t hc
      subst hc
      rw [ctx_ok] at hok
      obtain ⟨hidx, hrest⟩ := hok
      have hfillwf := ih (some (Frame.fill f (some t))) hrest (Frame.fill f (some t)) rfl
      have hfill := hfillwf
      rw [Frame.fill, wf] at hfill
      obtain ⟨hb, hpb, hlen, hklt, halign, hch⟩ := hfill
      have hidx2 : f.idx < 2 ^ f.bits := by
        rw [List.length_set] at hlen
        omega
      have hget : (f.children.set f.idx (some t)).getD f.idx none = some t :=
        getD_set_self _ _ _ hidx
      exact (hch f.idx hidx2 t hget).1

/-- The key stream of a valid walker position is a suffix of the whole
trie's key list. -/
theorem ctx_ok_suffix (root : Option KV) :
    ∀ ctx c, ctx_ok ctx c root →
      ∃ L, trie_leaf_keys root = L ++ (opt_keys c ++ ctx_keys_after ctx) := by
  intro ctx
  induction ctx with
  | nil =>
      intro c hok
      rw [ctx_ok] at hok
      refine ⟨[], ?_⟩
      rw [← hok]
      cases c <;> simp [trie_leaf_keys, opt_keys, ctx_keys_after]
  | cons f rest ih =>
      intro c hok
      rw [ctx_ok] at hok
      obtain ⟨hidx, hrest⟩ := hok
      rcases ih (some (Frame.fill f c)) hrest with ⟨L', hL'⟩
      have hset : f.children.set f.idx c =
          f.children.take f.idx ++ c :: f.children.drop (f.idx + 1) := by
        rw [List.set_eq_take_append_cons_drop]
        rw [if_pos hidx]
      have hkeys : leaf_keys (Frame.fill f c) =
          leaf_keys_list (f.children.take f.idx) ++ (opt_keys c ++
            leaf_keys_list (f.children.drop (f.idx + 1))) := by
        rw [Frame.fill, leaf_keys, hset, leaf_keys_list_append]
        congr 1
        cases c <;> simp [leaf_keys_list, opt_keys]
      refine ⟨L' ++ leaf_keys_list (f.children.take f.idx), ?_⟩
      rw [hL']
      simp only [opt_keys]
      rw [hkeys, ctx_keys_after]
      simp only [List.append_assoc]
      ac_rfl

theorem geKeys_append (key : Nat) (a b : List Nat) :
    geKeys key (a ++ b) = geKeys key a ++ geKeys key b := by
  simp [geKeys, List.filter_append]

theorem mem_geKeys (key x : Nat) (l : List Nat) :
    x ∈ geKeys key l ↔ x ∈ l ∧ key ≤ x := by
  simp [geKeys, List.mem_filter]

theorem geKeys_eq_self (key : Nat) (l : List Nat) (h : ∀ x ∈ l, key ≤ x) :
    geKeys key l = l := by
  rw [geKeys, List.filter_eq_self]
  intro a ha
  simpa using h a ha

theorem geKeys_eq_nil (key : Nat) (l : List Nat) (h : ∀ x ∈ l, x < key) :
    geKeys key l = [] := by
  rw [geKeys, List.filter_eq_nil]
  intro a ha
  simpa using Nat.not_le.mpr (h a ha)

theorem geKeys_sorted (key : Nat) (l : List Nat)
    (h : List.Pairwise (· < ·) l) : List.Pairwise (· < ·) (geKeys key l) :=
  h.filter _

theorem filter_suffix_of_sorted (key : Nat) :
    ∀ l : List Nat, List.Pairwise (· < ·) l → ∃ m, l = m ++ geKeys key l := by
  intro l
  induction l with
  | nil => exact fun _ => ⟨[], rfl⟩
  | cons a t ih =>
      intro hp
      rw [List.pairwise_cons] at hp
      rcases Nat.lt_or_ge a key with hak | hak
      · rcases ih hp.2 with ⟨m', hm'⟩
        refine ⟨a :: m', ?_⟩
        rw [geKeys, List.filter_cons]
        simp only [show decide (key ≤ a) = false by simp; omega, if_neg Bool.false_ne_true]
        rw [List.cons_append, ← geKeys, ← hm']
      · refine ⟨[], ?_⟩
        rw [geKeys, List.filter_cons]
        simp only [show decide (key ≤ a) = true by simpa using hak, if_pos rfl]
        rw [List.nil_append]
        congr 1
        rw [← geKeys]
        exact (geKeys_eq_self key t (fun x hx => by have := hp.1 x hx; omega)).symm

theorem geKeys_absorb (k1 k2 : Nat) (h : k1 ≤ k2) (l : List Nat) :
    geKeys k2 (geKeys k1 l) = geKeys k2 l := by
  rw [geKeys, geKeys, List.filter_filter, geKeys]
  apply List.filter_congr
  intro a _
  by_cases h2 : k2 ≤ a
  · have h1 : k1 ≤ a := le_trans h h2
    simp [h1, h2]
  · simp [h2]

/-- When the search key is above a yesde's whole range, every leaf key in
its subtree is below the search key. -/
theorem subtree_all_lt (p : KV) (hwf : wf p) (key : Nat) (hgt : p.key < key)
    (hfar : 2 ^ (p.pos + p.bits) ≤ key ^^^ p.key) :
    ∀ x ∈ leaf_keys p, x < key := by
  intro x hx
  set m := p.pos + p.bits with hm
  have hne : key >>> m ≠ p.key >>> m := by
    intro heq
    have : (key ^^^ p.key) >>> m = 0 := by
      rw [shiftRight_xor_distrib, heq, Nat.xor_self]
    rw [shiftRight_eq_zero_iff_lt] at this
    omega
  have hge : p.key >>> m ≤ key >>> m := shiftRight_mono m (by omega)
  have hgt2 : p.key >>> m < key >>> m := by omega
  have hxeq : x >>> m = p.key >>> m := by
    have hc := leaf_keys_close p hwf x hx
    have : (x ^^^ p.key) >>> m = 0 := (shiftRight_eq_zero_iff_lt _ _).mpr hc
    rw [shiftRight_xor_distrib] at this
    exact Nat.xor_eq_zero.mp this
  by_contra hcon
  push_neg at hcon
  have := shiftRight_mono m hcon
  omega

theorem drop_all (p : KV) (hwf : wf p) (ci : Nat) (hci : 2 ^ p.bits ≤ ci) :
    p.children.drop ci = [] := by
  cases p with
  | leaf k s fas => simp [KV.children]
  | tyesde k p0 b s ch =>
      rw [wf] at hwf
      apply List.drop_eq_nil_of_le
      rw [show (KV.tyesde k p0 b s ch).children = ch from rfl, hwf.2.2.1]
      simpa [KV.bits] using hci

/-- In the no-overflow descent step, child slots left of cindex hold only
keys below the search key, and slots right of it only keys at or above it. -/
theorem cindex_key_bounds (k p0 b s : Nat) (ch : List (Option KV))
    (hwf : wf (KV.tyesde k p0 b s ch)) (key cindex : Nat)
    (hci : cindex = if key > k then get_index key (KV.tyesde k p0 b s ch) else 0)
    (hnov : cindex >>> b = 0) :
    (∀ j cv, ch.getD j none = some cv → j < cindex →
      ∀ x ∈ leaf_keys cv, x < key) ∧
    (∀ j cv, ch.getD j none = some cv → cindex < j →
      ∀ x ∈ leaf_keys cv, key ≤ x) := by
  have hwf' := hwf
  rw [wf] at hwf'
  obtain ⟨hb, hpb, hlen, hklt, halign, hch⟩ := hwf'
  by_cases hk : key > k
  · rw [if_pos hk] at hci
    have hpne : p0 ≠ KEYLENGTH := by
      simp [KEYLENGTH] at hpb ⊢
      omega
    rw [get_index, if_neg (by simpa [KV.pos] using hpne)] at hci
    rw [show (KV.tyesde k p0 b s ch).key = k from rfl,
      show (KV.tyesde k p0 b s ch).pos = p0 from rfl] at hci
    have hxor_lt : key ^^^ k < 2 ^ (p0 + b) := by
      rw [← shiftRight_eq_zero_iff_lt, ← shiftRight_shiftRight, ← hci]
      exact hnov
    have hkey_eq : key = k + (key ^^^ k) := by
      have h1 := xor_eq_add_of_aligned halign hxor_lt
      have h2 : k ^^^ (key ^^^ k) = key := by
        rw [Nat.xor_comm key k, xor_cancel_left]
      omega
    have hbnd := shiftRight_bounds hci.symm
    constructor
    · intro j cv hcv hj x hx
      have hint := slot_interval k p0 b s ch hwf j cv hcv x hx
      have hmul : (j + 1) * 2 ^ p0 ≤ cindex * 2 ^ p0 :=
        Nat.mul_le_mul_right _ (by omega)
      omega
    · intro j cv hcv hj x hx
      have hint := slot_interval k p0 b s ch hwf j cv hcv x hx
      have hmul : (cindex + 1) * 2 ^ p0 ≤ j * 2 ^ p0 :=
        Nat.mul_le_mul_right _ (by omega)
      omega
  · rw [if_neg hk] at hci
    push_neg at hk
    constructor
    · intro j cv hcv hj x hx
      omega
    · intro j cv hcv hj x hx
      have hint := slot_interval k p0 b s ch hwf j cv hcv x hx
      omega

theorem leaf_walk_next_stop (p : KV) (ci : Nat) (h : ci ≥ 2 ^ p.bits) :
    leaf_walk_next [] (some p) ci = ([], none, none) := by
  rw [leaf_walk_next.eq_def]
  simp only [if_pos h]

theorem leaf_walk_next_climb (f : Frame) (rest : List Frame) (p : KV) (ci : Nat)
    (h : ci ≥ 2 ^ p.bits) :
    leaf_walk_next (f :: rest) (some p) ci =
      leaf_walk_next rest (some (Frame.fill f (some p))) (f.idx + 1) := by
  rw [leaf_walk_next.eq_def]
  simp only [if_pos h]

theorem leaf_walk_next_skip (ctx : List Frame) (p : KV) (ci : Nat)
    (h : ¬ci ≥ 2 ^ p.bits) (hg : get_child p ci = none) :
    leaf_walk_next ctx (some p) ci = leaf_walk_next ctx (some p) (ci + 1) := by
  rw [leaf_walk_next.eq_def]
  simp only [if_neg h]
  split <;> simp_all

theorem leaf_walk_next_found (ctx : List Frame) (p : KV) (ci : Nat) (n : KV)
    (h : ¬ci ≥ 2 ^ p.bits) (hg : get_child p ci = some n)
    (hl : IS_LEAF n = true) :
    leaf_walk_next ctx (some p) ci = (ctx, some p, some n) := by
  rw [leaf_walk_next.eq_def]
  simp only [if_neg h]
  split <;> simp_all

theorem leaf_walk_next_descend (ctx : List Frame) (p : KV) (ci : Nat) (n : KV)
    (h : ¬ci ≥ 2 ^ p.bits) (hg : get_child p ci = some n)
    (hl : ¬IS_LEAF n = true) :
    leaf_walk_next ctx (some p) ci =
      leaf_walk_next (⟨p.key, p.pos, p.bits, p.slen, p.children, ci⟩ :: ctx)
        (some n) 0 := by
  rw [leaf_walk_next.eq_def]
  simp only [if_neg h]
  split <;> simp_all

theorem leaf_walk_next_trie (ci : Nat) : leaf_walk_next [] none ci = ([], none, none) := by
  rw [leaf_walk_next.eq_def]

theorem leaf_walk_down_trie_none (ctx : List Frame) (key : Nat) :
    leaf_walk_down none ctx none key = ([], none, none) := by
  rw [leaf_walk_down.eq_def]
  split <;> simp_all [leaf_walk_next_trie]

theorem leaf_walk_down_trie_leaf_found (r : KV) (ctx : List Frame) (key : Nat)
    (hl : IS_LEAF r = true) (hk : key ≤ r.key) :
    leaf_walk_down (some r) ctx none key = ([], none, some r) := by
  rw [leaf_walk_down.eq_def]
  split <;> simp_all

theorem leaf_walk_down_trie_leaf_miss (r : KV) (ctx : List Frame) (key : Nat)
    (hl : IS_LEAF r = true) (hk : ¬key ≤ r.key) :
    leaf_walk_down (some r) ctx none key = ([], none, none) := by
  rw [leaf_walk_down.eq_def]
  split <;> simp_all [leaf_walk_next_trie]

theorem leaf_walk_down_trie_tyesde (r : KV) (ctx : List Frame) (key : Nat)
    (hl : ¬IS_LEAF r = true) :
    leaf_walk_down (some r) ctx none key = leaf_walk_down (some r) [] (some r) key := by
  rw [leaf_walk_down.eq_def]
  split <;> simp_all

theorem leaf_walk_down_overflow (root : Option KV) (ctx : List Frame) (p : KV)
    (key : Nat)
    (h : (if key > p.key then get_index key p else 0) >>> p.bits ≠ 0) :
    leaf_walk_down root ctx (some p) key =
      leaf_walk_next ctx (some p) (if key > p.key then get_index key p else 0) := by
  rw [leaf_walk_down.eq_def]
  dsimp only
  rw [if_pos h]

theorem leaf_walk_down_null (root : Option KV) (ctx : List Frame) (p : KV)
    (key : Nat)
    (h : ¬(if key > p.key then get_index key p else 0) >>> p.bits ≠ 0)
    (hg : get_child p (if key > p.key then get_index key p else 0) = none) :
    leaf_walk_down root ctx (some p) key =
      leaf_walk_next ctx (some p) ((if key > p.key then get_index key p else 0) + 1) := by
  rw [leaf_walk_down.eq_def]
  dsimp only
  rw [if_neg h]
  split <;> simp_all

theorem leaf_walk_down_found (root : Option KV) (ctx : List Frame) (p : KV)
    (key : Nat) (n : KV)
    (h : ¬(if key > p.key then get_index key p else 0) >>> p.bits ≠ 0)
    (hg : get_child p (if key > p.key then get_index key p else 0) = some n)
    (hl : IS_LEAF n = true) (hk : key ≤ n.key) :
    leaf_walk_down root ctx (some p) key = (ctx, some p, some n) := by
  rw [leaf_walk_down.eq_def]
  dsimp only
  rw [if_neg h]
  split <;> simp_all

theorem leaf_walk_down_lowleaf (root : Option KV) (ctx : List Frame) (p : KV)
    (key : Nat) (n : KV)
    (h : ¬(if key > p.key then get_index key p else 0) >>> p.bits ≠ 0)
    (hg : get_child p (if key > p.key then get_index key p else 0) = some n)
    (hl : IS_LEAF n = true) (hk : ¬key ≤ n.key) :
    leaf_walk_down root ctx (some p) key =
      leaf_walk_next ctx (some p) ((if key > p.key then get_index key p else 0) + 1) := by
  rw [leaf_walk_down.eq_def]
  dsimp only
  rw [if_neg h]
  split <;> simp_all

theorem leaf_walk_down_descend (root : Option KV) (ctx : List Frame) (p : KV)
    (key : Nat) (n : KV)
    (h : ¬(if key > p.key then get_index key p else 0) >>> p.bits ≠ 0)
    (hg : get_child p (if key > p.key then get_index key p else 0) = some n)
    (hl : ¬IS_LEAF n = true) :
    leaf_walk_down root ctx (some p) key =
      leaf_walk_down root
        (⟨p.key, p.pos, p.bits, p.slen, p.children,
          if key > p.key then get_index key p else 0⟩ :: ctx) (some n) key := by
  rw [leaf_walk_down.eq_def]
  dsimp only
  rw [if_neg h]
  split <;> simp_all

theorem wf_get_child (p : KV) (hwf : wf p) (j : Nat) (cv : KV)
    (hg : get_child p j = some cv) : wf cv := by
  cases p with
  | leaf k s fas => simp [get_child, KV.children, List.getD] at hg
  | tyesde k p0 b s ch =>
      rw [wf] at hwf
      have hj : j < 2 ^ b := by
        have := getD_some_lt_length ch j cv (by simpa [get_child, KV.children] using hg)
        omega
      exact (hwf.2.2.2.2.2 j hj cv (by simpa [get_child, KV.children] using hg)).1

theorem fill_frame_eq (p : KV) (ci : Nat) (n : KV)
    (hg : get_child p ci = some n) :
    Frame.fill ⟨p.key, p.pos, p.bits, p.slen, p.children, ci⟩ (some n) = p := by
  cases p with
  | leaf k s fas => simp [get_child, KV.children, List.getD] at hg
  | tyesde k p0 b s ch =>
      rw [Frame.fill]
      simp only [KV.key, KV.pos, KV.bits, KV.slen, KV.children]
      congr 1
      exact set_getD_self_eq ch ci (some n)
        (by simpa [get_child, KV.children] using hg)
        (getD_some_lt_length ch ci n (by simpa [get_child, KV.children] using hg))

theorem leaf_keys_tyesde (n : KV) (hnl : ¬IS_LEAF n = true) :
    leaf_keys n = leaf_keys_list n.children := by
  cases n with
  | leaf k s fas => simp [IS_LEAF, KV.bits] at hnl
  | tyesde k p0 b s ch =>
      rw [leaf_keys]
      rfl

/-- The scan loop of leaf_walk_rcu returns the first leaf remaining in its
key stream, leaving a valid resume state whose stream extends the old one. -/
theorem leaf_walk_next_spec (root : Option KV)
    (hroot : ∀ x, root = some x → wf x) :
    ∀ ctx pn ci p, pn = some p → ctx_ok ctx (some p) root →
      ((leaf_keys_list (p.children.drop ci) ++ ctx_keys_after ctx = [] →
          leaf_walk_next ctx pn ci = ([], none, none)) ∧
       (∀ k0 rest2,
          leaf_keys_list (p.children.drop ci) ++ ctx_keys_after ctx = k0 :: rest2 →
          ∃ ctx2 p2 l, leaf_walk_next ctx pn ci = (ctx2, some p2, some l) ∧
            IS_LEAF l = true ∧ l.key = k0 ∧ ctx_ok ctx2 (some p2) root ∧
            ¬IS_LEAF p2 = true ∧ (∀ x ∈ ctx_keys_after ctx2, k0 < x) ∧
            ∃ m, leaf_keys p2 ++ ctx_keys_after ctx2 = m ++ (k0 :: rest2))) := by
  intro ctx pn ci
  induction ctx, pn, ci using leaf_walk_next.induct with
  | case1 ctx ci =>
      intro p hp
      simp at hp
  | case2 ci p h =>
      intro q hq hok
      obtain rfl : p = q := Option.some.inj hq
      rw [ctx_ok] at hok
      have hwf : wf p := hroot p hok.symm
      have hS : leaf_keys_list (p.children.drop ci) ++ ctx_keys_after [] = [] := by
        rw [drop_all p hwf ci h]
        simp [leaf_keys_list, ctx_keys_after]
      constructor
      · intro _
        exact leaf_walk_next_stop p ci h
      · intro k0 rest2 hcons
        rw [hS] at hcons
        simp at hcons
  | case3 ci p h f rest ih =>
      intro q hq hok
      obtain rfl : p = q := Option.some.inj hq
      have hok' := hok
      rw [ctx_ok] at hok'
      obtain ⟨hidx, hrest⟩ := hok'
      have hwf : wf p := ctx_ok_wf root hroot (f :: rest) (some p) hok p rfl
      have hfc : (Frame.fill f (some p)).children = f.children.set f.idx (some p) := rfl
      have hSeq : leaf_keys_list ((Frame.fill f (some p)).children.drop (f.idx + 1)) ++
          ctx_keys_after rest =
          leaf_keys_list (p.children.drop ci) ++ ctx_keys_after (f :: rest) := by
        rw [hfc, drop_set_of_lt f.children f.idx (f.idx + 1) (some p) (Nat.lt_succ_self _)]
        rw [drop_all p hwf ci h, ctx_keys_after]
        simp [leaf_keys_list]
      have ihq := ih (Frame.fill f (some p)) rfl hrest
      rw [leaf_walk_next_climb f rest p ci h]
      constructor
      · intro hnil
        apply ihq.1
        rw [hSeq, hnil]
      · intro k0 rest2 hcons
        apply ihq.2
        rw [hSeq, hcons]
  | case4 ctx ci p h hg ih =>
      intro q hq hok
      obtain rfl : p = q := Option.some.inj hq
      have hSeq : leaf_keys_list (p.children.drop (ci + 1)) =
          leaf_keys_list (p.children.drop ci) :=
        (leaf_keys_list_drop_of_none p.children ci hg).symm
      have ihq := ih p rfl hok
      rw [leaf_walk_next_skip _ p ci h hg]
      constructor
      · intro hnil
        apply ihq.1
        rw [hSeq, hnil]
      · intro k0 rest2 hcons
        apply ihq.2
        rw [hSeq, hcons]
  | case5 ctx ci p h n hg hl =>
      intro q hq hok
      obtain rfl : p = q := Option.some.inj hq
      have hwfp : wf p := ctx_ok_wf root hroot ctx (some p) hok p rfl
      have hwfn : wf n := wf_get_child p hwfp ci n hg
      obtain ⟨nk, ns, nfas, rfl⟩ : ∃ nk ns nfas, n = KV.leaf nk ns nfas := by
        cases n with
        | leaf nk ns nfas => exact ⟨nk, ns, nfas, rfl⟩
        | tyesde _ _ b _ _ =>
            rw [wf] at hwfn
            simp [IS_LEAF, KV.bits] at hl
            omega
      have hSd : leaf_keys_list (p.children.drop ci) =
          nk :: leaf_keys_list (p.children.drop (ci + 1)) := by
        rw [leaf_keys_list_drop_of_some p.children ci _ hg, leaf_keys]
        rfl
      have hptn : leaf_keys p = leaf_keys_list p.children := by
        cases p with
        | leaf _ _ _ => simp [get_child, KV.children, List.getD] at hg
        | tyesde _ _ _ _ _ =>
            rw [leaf_keys]
            rfl
      rw [leaf_walk_next_found _ p ci _ h hg hl]
      constructor
      · intro hnil
        rw [hSd] at hnil
        simp at hnil
      · intro k0 rest2 hcons
        rw [hSd] at hcons
        refine ⟨ctx, p, KV.leaf nk ns nfas, rfl, hl, ?_, hok, ?_, ?_, ?_⟩
        · simpa [KV.key] using (List.cons.inj hcons).1
        · cases p with
          | leaf _ _ _ => simp [get_child, KV.children, List.getD] at hg
          | tyesde _ _ b _ _ =>
              rw [wf] at hwfp
              simp [IS_LEAF, KV.bits]
              omega
        · intro x hx
          have hsorted := trie_leaf_keys_sorted root hroot
          rcases ctx_ok_suffix root ctx (some p) hok with ⟨L, hL⟩
          rw [hL, opt_keys, List.pairwise_append] at hsorted
          have hstr := hsorted.2.1
          rw [List.pairwise_append] at hstr
          have hk0mem : nk ∈ leaf_keys p := by
            rw [hptn, leaf_keys_list_take_drop p.children ci, hSd]
            exact List.mem_append_right _ (List.mem_cons_self _ _)
          have hlt := hstr.2.2 nk hk0mem x hx
          rw [← (List.cons.inj hcons).1]
          exact hlt
        · refine ⟨leaf_keys_list (p.children.take ci), ?_⟩
          rw [← hcons, hptn, leaf_keys_list_take_drop p.children ci, hSd]
          simp [List.append_assoc]
  | case6 ctx ci p h n hg hl ih =>
      intro q hq hok
      obtain rfl : p = q := Option.some.inj hq
      have hidx : ci < p.children.length := by
        cases p with
        | leaf _ _ _ => simp [get_child, KV.children, List.getD] at hg
        | tyesde k p0 b s ch =>
            exact getD_some_lt_length ch ci n (by simpa [get_child, KV.children] using hg)
      have hok2 : ctx_ok (⟨p.key, p.pos, p.bits, p.slen, p.children, ci⟩ :: ctx)
          (some n) root := by
        rw [ctx_ok]
        refine ⟨by simpa using hidx, ?_⟩
        rw [fill_frame_eq p ci n hg]
        exact hok
      have hSeq : leaf_keys_list (n.children.drop 0) ++
          ctx_keys_after (⟨p.key, p.pos, p.bits, p.slen, p.children, ci⟩ :: ctx) =
          leaf_keys_list (p.children.drop ci) ++ ctx_keys_after ctx := by
        rw [ctx_keys_after, List.drop_zero, ← leaf_keys_tyesde n hl]
        rw [leaf_keys_list_drop_of_some p.children ci n
          (by simpa [get_child] using hg)]
        simp [List.append_assoc]
      have ihq := ih n rfl hok2
      rw [leaf_walk_next_descend _ p ci n h hg hl]
      constructor
      · intro hnil
        apply ihq.1
        rw [hSeq, hnil]
      · intro k0 rest2 hcons
        apply ihq.2
        rw [hSeq, hcons]

theorem geKeys_cons (key a : Nat) (l : List Nat) :
    geKeys key (a :: l) = if key ≤ a then a :: geKeys key l else geKeys key l := by
  rw [geKeys, List.filter_cons]
  by_cases h : key ≤ a <;> simp [h, geKeys]

theorem leaf_constructor_of_is_leaf (r : KV) (hwf : wf r) (hl : IS_LEAF r = true) :
    ∃ nk ns nfas, r = KV.leaf nk ns nfas := by
  cases r with
  | leaf nk ns nfas => exact ⟨nk, ns, nfas, rfl⟩
  | tyesde _ _ b _ _ =>
      rw [wf] at hwf
      simp [IS_LEAF, KV.bits] at hl
      omega

theorem tyesde_constructor_of_not_leaf (r : KV) (hnl : ¬IS_LEAF r = true) :
    ∃ k p0 b s ch, r = KV.tyesde k p0 b s ch := by
  cases r with
  | leaf _ _ _ => simp [IS_LEAF, KV.bits] at hnl
  | tyesde k p0 b s ch => exact ⟨k, p0, b, s, ch, rfl⟩

/-- Filtering a yesde's key stream at a no-overflow descent index drops
exactly the subtrees left of the index. -/
theorem down_filter_decomp (k p0 b s : Nat) (ch : List (Option KV))
    (hwf : wf (KV.tyesde k p0 b s ch)) (key c : Nat)
    (hci : c = if key > k then get_index key (KV.tyesde k p0 b s ch) else 0)
    (hnov : c >>> b = 0) (after : List Nat) (hafter : ∀ x ∈ after, key ≤ x) :
    geKeys key (leaf_keys_list ch ++ after) =
      geKeys key (leaf_keys_list (ch.drop c)) ++ after ∧
    geKeys key (leaf_keys_list (ch.drop (c + 1))) =
      leaf_keys_list (ch.drop (c + 1)) := by
  obtain ⟨hlt, hge⟩ := cindex_key_bounds k p0 b s ch hwf key c hci hnov
  constructor
  · rw [geKeys_append, leaf_keys_list_take_drop ch c, geKeys_append]
    rw [geKeys_eq_nil key (leaf_keys_list (ch.take c)) ?ha,
      geKeys_eq_self key after hafter]
    · simp
    case ha =>
      intro x hx
      rcases mem_keys_take ch c x hx with ⟨j, cv, hj, hval, hxcv⟩
      exact hlt j cv hval hj x hxcv
  · apply geKeys_eq_self
    intro x hx
    rcases (mem_keys_drop ch (c + 1) x).mp hx with ⟨j, cv, hj, hval, hxcv⟩
    exact hge j cv hval (by omega) x hxcv

/-- leaf_walk_rcu from a valid resume state returns the first reachable key
at or above the search key, with a valid resume state extending the old
stream. -/
theorem leaf_walk_down_spec (root : Option KV)
    (hroot : ∀ x, root = some x → wf x) :
    ∀ ctx tn key, state_ok root ctx tn →
      (∀ q, tn = some q → ¬IS_LEAF q = true) →
      (∀ x ∈ ctx_keys_after ctx, key ≤ x) →
      ((geKeys key (walk_stream root ctx tn) = [] →
          leaf_walk_down root ctx tn key = ([], none, none)) ∧
       (∀ k0 rest2, geKeys key (walk_stream root ctx tn) = k0 :: rest2 →
          ∃ ctx2 tn2 l, leaf_walk_down root ctx tn key = (ctx2, tn2, some l) ∧
            IS_LEAF l = true ∧ l.key = k0 ∧ state_ok root ctx2 tn2 ∧
            (∀ q, tn2 = some q → ¬IS_LEAF q = true) ∧
            (∀ x ∈ ctx_keys_after ctx2, k0 < x) ∧
            ∃ m, walk_stream root ctx2 tn2 = m ++ (k0 :: rest2))) := by
  intro ctx tn key
  induction ctx, tn, key using leaf_walk_down.induct root with
  | case1 ctx2 key hr =>
      intro hok hlf hafter
      subst hr
      constructor
      · intro _
        exact leaf_walk_down_trie_none ctx2 key
      · intro k0 rest2 hcons
        simp [walk_stream, trie_leaf_keys, geKeys] at hcons
  | case2 ctx2 key r hr hc =>
      intro hok hlf hafter
      subst hr
      obtain ⟨nk, ns, nfas, rfl⟩ :=
        leaf_constructor_of_is_leaf r (hroot r rfl) hc.1
      have hS : walk_stream (some (KV.leaf nk ns nfas)) ctx2 none = [nk] := by
        rw [walk_stream, trie_leaf_keys, leaf_keys]
      have hF : geKeys key (walk_stream (some (KV.leaf nk ns nfas)) ctx2 none) =
          [nk] := by
        rw [hS, geKeys_cons, if_pos (by simpa [KV.key] using hc.2)]
        rfl
      constructor
      · intro hnil
        rw [hF] at hnil
        simp at hnil
      · intro k0 rest2 hcons
        rw [hF] at hcons
        have hk0 : nk = k0 := (List.cons.inj hcons).1
        have hrest : ([] : List Nat) = rest2 := (List.cons.inj hcons).2
        refine ⟨[], none, KV.leaf nk ns nfas,
          leaf_walk_down_trie_leaf_found _ ctx2 key hc.1 hc.2, hc.1,
          by simpa [KV.key] using hk0, by rw [state_ok],
          fun q hq => by simp at hq,
          by intro x hx; simp [ctx_keys_after] at hx, ⟨[], ?_⟩⟩
        rw [walk_stream, trie_leaf_keys, leaf_keys, hk0, ← hrest]
        rfl
  | case3 ctx2 key r hr hnc hl =>
      intro hok hlf hafter
      subst hr
      obtain ⟨nk, ns, nfas, rfl⟩ :=
        leaf_constructor_of_is_leaf r (hroot r rfl) hl
      have hk : ¬key ≤ nk := by
        intro hkk
        exact hnc ⟨hl, by simpa [KV.key] using hkk⟩
      have hF : geKeys key (walk_stream (some (KV.leaf nk ns nfas)) ctx2 none) =
          [] := by
        rw [walk_stream, trie_leaf_keys, leaf_keys, geKeys_cons, if_neg hk]
        rfl
      constructor
      · intro _
        exact leaf_walk_down_trie_leaf_miss _ ctx2 key hl hk
      · intro k0 rest2 hcons
        rw [hF] at hcons
        simp at hcons
  | case4 ctx2 key r hr hnc hnl ih =>
      intro hok hlf hafter
      subst hr
      have ihq := ih (by rw [state_ok, ctx_ok]) (fun q hq => by
        rw [Option.some.injEq] at hq
        rw [← hq]
        exact hnl) (by intro x hx; simp [ctx_keys_after] at hx)
      have hSeq : walk_stream (some r) [] (some r) =
          walk_stream (some r) ctx2 none := by
        rw [walk_stream, walk_stream, trie_leaf_keys, ctx_keys_after]
        simp
      rw [leaf_walk_down_trie_tyesde r ctx2 key hnl]
      constructor
      · intro hnil
        apply ihq.1
        rw [hSeq, hnil]
      · intro k0 rest2 hcons
        apply ihq.2
        rw [hSeq, hcons]
  | case5 ctx p key cindex hov =>
      intro hok hlf hafter
      rw [state_ok] at hok
      have hwfp : wf p := ctx_ok_wf root hroot ctx (some p) hok p rfl
      have hgt : key > p.key := by
        by_contra hng
        rw [show cindex = if key > p.key then get_index key p else 0 from rfl,
          if_neg hng] at hov
        simp at hov
      have hpne : p.pos ≠ KEYLENGTH := by
        intro hpk
        rw [show cindex = if key > p.key then get_index key p else 0 from rfl,
          if_pos hgt, get_index, if_pos hpk] at hov
        simp at hov
      have hcieq : cindex = (key ^^^ p.key) >>> p.pos := by
        rw [show cindex = if key > p.key then get_index key p else 0 from rfl,
          if_pos hgt, get_index, if_neg hpne]
      have hfar : 2 ^ (p.pos + p.bits) ≤ key ^^^ p.key := by
        by_contra hcl
        push_neg at hcl
        have h0 : (key ^^^ p.key) >>> (p.pos + p.bits) = 0 :=
          (shiftRight_eq_zero_iff_lt _ _).mpr hcl
        rw [← shiftRight_shiftRight, ← hcieq] at h0
        exact hov h0
      have hallt := subtree_all_lt p hwfp key hgt hfar
      have hcige : 2 ^ p.bits ≤ cindex := by
        by_contra hcl
        push_neg at hcl
        exact hov ((shiftRight_eq_zero_iff_lt _ _).mpr hcl)
      have hdropnil : p.children.drop cindex = [] := drop_all p hwfp cindex hcige
      have hnspec := leaf_walk_next_spec root hroot ctx (some p) cindex p rfl hok
      have hSeq : leaf_keys_list (p.children.drop cindex) ++ ctx_keys_after ctx =
          geKeys key (walk_stream root ctx (some p)) := by
        rw [hdropnil, walk_stream, geKeys_append,
          geKeys_eq_nil key (leaf_keys p) hallt,
          geKeys_eq_self key (ctx_keys_after ctx) hafter,
          show leaf_keys_list ([] : List (Option KV)) = [] from by rw [leaf_keys_list]]
      rw [leaf_walk_down_overflow root ctx p key hov]
      constructor
      · intro hnil
        apply hnspec.1
        rw [hSeq, hnil]
      · intro k0 rest2 hcons
        rcases hnspec.2 k0 rest2 (by rw [hSeq, hcons]) with
          ⟨c2, p2, l, heq, hll, hlk, hok2, hnl2, haf2, m, hm⟩
        exact ⟨c2, some p2, l, heq, hll, hlk, by rw [state_ok]; exact hok2,
          fun q hq => by rw [← Option.some.inj hq]; exact hnl2, haf2, m, by
            rw [walk_stream]; exact hm⟩
  | case6 ctx p key cindex hno hg =>
      intro hok hlf hafter
      rw [state_ok] at hok
      have hwfp : wf p := ctx_ok_wf root hroot ctx (some p) hok p rfl
      obtain ⟨k, p0, b, s, ch, rfl⟩ :=
        tyesde_constructor_of_not_leaf p (hlf p rfl)
      have hnov : cindex >>> b = 0 := by
        simpa [KV.bits] using not_ne_iff.mp hno
      have hdec := down_filter_decomp k p0 b s ch hwfp key cindex
        (by rfl) hnov (ctx_keys_after ctx) hafter
      have hdnone : leaf_keys_list (ch.drop cindex) =
          leaf_keys_list (ch.drop (cindex + 1)) :=
        leaf_keys_list_drop_of_none ch cindex (by simpa [get_child, KV.children] using hg)
      have hnspec := leaf_walk_next_spec root hroot ctx
        (some (KV.tyesde k p0 b s ch)) (cindex + 1) (KV.tyesde k p0 b s ch) rfl hok
      have hSeq : leaf_keys_list ((KV.tyesde k p0 b s ch).children.drop (cindex + 1)) ++
          ctx_keys_after ctx =
          geKeys key (walk_stream root ctx (some (KV.tyesde k p0 b s ch))) := by
        rw [walk_stream, show (KV.tyesde k p0 b s ch).children = ch from rfl,
          show leaf_keys (KV.tyesde k p0 b s ch) = leaf_keys_list ch from by
            rw [leaf_keys], hdec.1, ← hdnone]
        have := hdec.2
        rw [← hdnone] at this
        rw [this]
      rw [leaf_walk_down_null root ctx _ key (by simpa using hno) (by simpa using hg)]
      constructor
      · intro hnil
        apply hnspec.1
        rw [hSeq, hnil]
      · intro k0 rest2 hcons
        rcases hnspec.2 k0 rest2 (by rw [hSeq, hcons]) with
          ⟨c2, p2, l, heq, hll, hlk, hok2, hnl2, haf2, m, hm⟩
        exact ⟨c2, some p2, l, heq, hll, hlk, by rw [state_ok]; exact hok2,
          fun q hq => by rw [← Option.some.inj hq]; exact hnl2, haf2, m, by
            rw [walk_stream]; exact hm⟩
  | case7 ctx p key cindex hno n hg hc =>
      intro hok hlf hafter
      rw [state_ok] at hok
      have hwfp : wf p := ctx_ok_wf root hroot ctx (some p) hok p rfl
      have hnleafp := hlf p rfl
      obtain ⟨k, p0, b, s, ch, rfl⟩ := tyesde_constructor_of_not_leaf p hnleafp
      have hnov : cindex >>> b = 0 := by
        simpa [KV.bits] using not_ne_iff.mp hno
      have hdec := down_filter_decomp k p0 b s ch hwfp key cindex
        (by rfl) hnov (ctx_keys_after ctx) hafter
      have hwfn : wf n := wf_get_child _ hwfp cindex n hg
      obtain ⟨nk, ns, nfas, rfl⟩ := leaf_constructor_of_is_leaf n hwfn hc.1
      have hSd : leaf_keys_list (ch.drop cindex) =
          nk :: leaf_keys_list (ch.drop (cindex + 1)) := by
        rw [leaf_keys_list_drop_of_some ch cindex _
          (by simpa [get_child, KV.children] using hg), leaf_keys]
        rfl
      have hkeysp : leaf_keys (KV.tyesde k p0 b s ch) = leaf_keys_list ch := by
        rw [leaf_keys]
      have hF : geKeys key (walk_stream root ctx (some (KV.tyesde k p0 b s ch))) =
          nk :: (leaf_keys_list (ch.drop (cindex + 1)) ++ ctx_keys_after ctx) := by
        rw [walk_stream, hkeysp]
        rw [show leaf_keys_list ch ++ ctx_keys_after ctx =
          leaf_keys_list ((KV.tyesde k p0 b s ch).children) ++ ctx_keys_after ctx from rfl]
        rw [show ((KV.tyesde k p0 b s ch).children) = ch from rfl]
        rw [hdec.1, hSd, geKeys_cons, if_pos (by simpa [KV.key] using hc.2), hdec.2]
        simp
      constructor
      · intro hnil
        rw [hF] at hnil
        simp at hnil
      · intro k0 rest2 hcons
        rw [hF] at hcons
        have hk0 : nk = k0 := (List.cons.inj hcons).1
        have hrest := (List.cons.inj hcons).2
        refine ⟨ctx, some (KV.tyesde k p0 b s ch), KV.leaf nk ns nfas,
          leaf_walk_down_found root ctx _ key _ (by simpa using hno)
            (by simpa using hg) hc.1 hc.2, hc.1,
          by simpa [KV.key] using hk0, by rw [state_ok]; exact hok,
          fun q hq => by rw [← Option.some.inj hq]; exact hnleafp, ?_,
          ⟨leaf_keys_list (ch.take cindex), ?_⟩⟩
        · intro x hx
          have hsorted := trie_leaf_keys_sorted root hroot
          rcases ctx_ok_suffix root ctx (some (KV.tyesde k p0 b s ch)) hok with ⟨L, hL⟩
          rw [hL, opt_keys, List.pairwise_append] at hsorted
          have hstr := hsorted.2.1
          rw [List.pairwise_append] at hstr
          have hk0mem : nk ∈ leaf_keys (KV.tyesde k p0 b s ch) := by
            rw [hkeysp, leaf_keys_list_take_drop ch cindex, hSd]
            exact List.mem_append_right _ (List.mem_cons_self _ _)
          have hlt := hstr.2.2 nk hk0mem x hx
          rw [← hk0]
          exact hlt
        rw [walk_stream, hkeysp, leaf_keys_list_take_drop ch cindex, hSd,
          hk0, ← hrest]
        simp [List.append_assoc]
  | case8 ctx p key cindex hno n hg hnc hl =>
      intro hok hlf hafter
      rw [state_ok] at hok
      have hwfp : wf p := ctx_ok_wf root hroot ctx (some p) hok p rfl
      have hnleafp := hlf p rfl
      obtain ⟨k, p0, b, s, ch, rfl⟩ := tyesde_constructor_of_not_leaf p hnleafp
      have hnov : cindex >>> b = 0 := by
        simpa [KV.bits] using not_ne_iff.mp hno
      have hdec := down_filter_decomp k p0 b s ch hwfp key cindex
        (by rfl) hnov (ctx_keys_after ctx) hafter
      have hwfn : wf n := wf_get_child _ hwfp cindex n hg
      obtain ⟨nk, ns, nfas, rfl⟩ := leaf_constructor_of_is_leaf n hwfn hl
      have hk : ¬key ≤ nk := by
        intro hkk
        exact hnc ⟨hl, by simpa [KV.key] using hkk⟩
      have hSd : leaf_keys_list (ch.drop cindex) =
          nk :: leaf_keys_list (ch.drop (cindex + 1)) := by
        rw [leaf_keys_list_drop_of_some ch cindex _
          (by simpa [get_child, KV.children] using hg), leaf_keys]
        rfl
      have hkeysp : leaf_keys (KV.tyesde k p0 b s ch) = leaf_keys_list ch := by
        rw [leaf_keys]
      have hnspec := leaf_walk_next_spec root hroot ctx
        (some (KV.tyesde k p0 b s ch)) (cindex + 1) (KV.tyesde k p0 b s ch) rfl hok
      have hSeq : leaf_keys_list ((KV.tyesde k p0 b s ch).children.drop (cindex + 1)) ++
          ctx_keys_after ctx =
          geKeys key (walk_stream root ctx (some (KV.tyesde k p0 b s ch))) := by
        rw [walk_stream, hkeysp,
          show ((KV.tyesde k p0 b s ch).children) = ch from rfl,
          hdec.1, hSd, geKeys_cons, if_neg hk, hdec.2]
      rw [leaf_walk_down_lowleaf root ctx _ key _ (by simpa using hno)
        (by simpa using hg) hl hk]
      constructor
      · intro hnil
        apply hnspec.1
        rw [hSeq, hnil]
      · intro k0 rest2 hcons
        rcases hnspec.2 k0 rest2 (by rw [hSeq, hcons]) with
          ⟨c2, p2, l, heq, hll, hlk, hok2, hnl2, haf2, m, hm⟩
        exact ⟨c2, some p2, l, heq, hll, hlk, by rw [state_ok]; exact hok2,
          fun q hq => by rw [← Option.some.inj hq]; exact hnl2, haf2, m, by
            rw [walk_stream]; exact hm⟩
  | case9 ctx p key cindex hno n hg hnc hnl ih =>
      intro hok hlf hafter
      rw [state_ok] at hok
      have hwfp : wf p := ctx_ok_wf root hroot ctx (some p) hok p rfl
      have hnleafp := hlf p rfl
      obtain ⟨k, p0, b, s, ch, rfl⟩ := tyesde_constructor_of_not_leaf p hnleafp
      have hnov : cindex >>> b = 0 := by
        simpa [KV.bits] using not_ne_iff.mp hno
      obtain ⟨hlt, hge⟩ := cindex_key_bounds k p0 b s ch hwfp key cindex
        (by rfl) hnov
      have hdec := down_filter_decomp k p0 b s ch hwfp key cindex
        (by rfl) hnov (ctx_keys_after ctx) hafter
      have hidx : cindex < ch.length :=
        getD_some_lt_length ch cindex n (by simpa [get_child, KV.children] using hg)
      have hok2 : ctx_ok
          (⟨(KV.tyesde k p0 b s ch).key, (KV.tyesde k p0 b s ch).pos,
            (KV.tyesde k p0 b s ch).bits, (KV.tyesde k p0 b s ch).slen,
            (KV.tyesde k p0 b s ch).children, cindex⟩ :: ctx) (some n) root := by
        rw [ctx_ok]
        refine ⟨by simpa [KV.children] using hidx, ?_⟩
        rw [fill_frame_eq _ cindex n hg]
        exact hok
      have hafter2 : ∀ x ∈ ctx_keys_after
          (⟨(KV.tyesde k p0 b s ch).key, (KV.tyesde k p0 b s ch).pos,
            (KV.tyesde k p0 b s ch).bits, (KV.tyesde k p0 b s ch).slen,
            (KV.tyesde k p0 b s ch).children, cindex⟩ :: ctx), key ≤ x := by
        intro x hx
        rw [ctx_keys_after] at hx
        rcases List.mem_append.mp hx with hx1 | hx2
        · rcases (mem_keys_drop _ (cindex + 1) x).mp
            (by simpa [KV.children] using hx1) with ⟨j, cv, hj, hval, hxcv⟩
          exact hge j cv hval (by omega) x hxcv
        · exact hafter x hx2
      have ihq := ih (by rw [state_ok]; exact hok2)
        (fun q hq => by rw [← Option.some.inj hq]; exact hnl) hafter2
      have hSd : leaf_keys_list (ch.drop cindex) =
          leaf_keys n ++ leaf_keys_list (ch.drop (cindex + 1)) :=
        leaf_keys_list_drop_of_some ch cindex n
          (by simpa [get_child, KV.children] using hg)
      have hFeq : geKeys key (walk_stream root
          (⟨(KV.tyesde k p0 b s ch).key, (KV.tyesde k p0 b s ch).pos,
            (KV.tyesde k p0 b s ch).bits, (KV.tyesde k p0 b s ch).slen,
            (KV.tyesde k p0 b s ch).children, cindex⟩ :: ctx) (some n)) =
          geKeys key (walk_stream root ctx (some (KV.tyesde k p0 b s ch))) := by
        rw [walk_stream, walk_stream, ctx_keys_after]
        rw [show leaf_keys (KV.tyesde k p0 b s ch) = leaf_keys_list ch from by
          rw [leaf_keys]]
        rw [show ((⟨(KV.tyesde k p0 b s ch).key, (KV.tyesde k p0 b s ch).pos,
            (KV.tyesde k p0 b s ch).bits, (KV.tyesde k p0 b s ch).slen,
            (KV.tyesde k p0 b s ch).children, cindex⟩ : Frame).children) = ch from rfl]
        rw [hdec.1, hSd]
        rw [geKeys_append, geKeys_append, geKeys_append, hdec.2,
          geKeys_eq_self key (ctx_keys_after ctx) hafter]
        simp [List.append_assoc]
      rw [leaf_walk_down_descend root ctx _ key n (by simpa using hno)
        (by simpa using hg) hnl]
      constructor
      · intro hnil
        apply ihq.1
        rw [hFeq, hnil]
      · intro k0 rest2 hcons
        apply ihq.2
        rw [hFeq, hcons]

theorem state_ok_suffix (root : Option KV) (ctx : List Frame) (tn : Option KV)
    (h : state_ok root ctx tn) :
    ∃ L, trie_leaf_keys root = L ++ walk_stream root ctx tn := by
  cases tn with
  | none =>
      refine ⟨[], ?_⟩
      rw [walk_stream]
      simp
  | some p =>
      rw [state_ok] at h
      rcases ctx_ok_suffix root ctx (some p) h with ⟨L, hL⟩
      refine ⟨L, ?_⟩
      rw [walk_stream]
      rw [hL, opt_keys]

theorem trie_leaf_keys_lt (root : Option KV)
    (hroot : ∀ x, root = some x → wf x) :
    ∀ x ∈ trie_leaf_keys root, x < 2 ^ 32 := by
  cases root with
  | none => simp [trie_leaf_keys]
  | some t => exact fun x hx => leaf_keys_lt t (hroot t rfl) x (by simpa [trie_leaf_keys] using hx)


theorem walk_stream_sorted (root : Option KV)
    (hroot : ∀ x, root = some x → wf x) (ctx : List Frame) (tn : Option KV)
    (hok : state_ok root ctx tn) :
    List.Pairwise (· < ·) (walk_stream root ctx tn) := by
  rcases state_ok_suffix root ctx tn hok with ⟨L, hL⟩
  have hsort := trie_leaf_keys_sorted root hroot
  rw [hL, List.pairwise_append] at hsort
  exact hsort.2.1

/-- One fuel unit per remaining leaf suffices: the dump loop emits exactly
the keys at or above the running key, in stream order. -/
theorem fib_table_dump_loop_spec (root : Option KV)
    (hroot : ∀ x, root = some x → wf x) :
    ∀ fuel ctx tn key, state_ok root ctx tn →
      (∀ q, tn = some q → ¬IS_LEAF q = true) →
      (∀ x ∈ ctx_keys_after ctx, key ≤ x) →
      (∀ x ∈ trie_leaf_keys root, key ≤ x → x ∈ walk_stream root ctx tn) →
      (geKeys key (trie_leaf_keys root)).length < fuel →
      fib_table_dump_loop root fuel ctx tn key = geKeys key (trie_leaf_keys root) := by
  intro fuel
  induction fuel with
  | zero =>
      intro ctx tn key _ _ _ _ hlen
      omega
  | succ f ihf =>
      intro ctx tn key hok hlf hafter hinv hlen
      have hsort := trie_leaf_keys_sorted root hroot
      rcases state_ok_suffix root ctx tn hok with ⟨L, hL⟩
      have hGF : geKeys key (trie_leaf_keys root) =
          geKeys key (walk_stream root ctx tn) := by
        rw [hL, geKeys_append]
        rw [geKeys_eq_nil key L ?hLlt]
        · simp
        case hLlt =>
          intro x hx
          by_contra hxk
          push_neg at hxk
          have hmem : x ∈ trie_leaf_keys root := by
            rw [hL]
            exact List.mem_append_left _ hx
          have hxs := hinv x hmem hxk
          rw [hL, List.pairwise_append] at hsort
          exact absurd (hsort.2.2 x hx x hxs) (by omega)
      have hdspec := leaf_walk_down_spec root hroot ctx tn key hok hlf hafter
      cases hF : geKeys key (walk_stream root ctx tn) with
      | nil =>
          have hres := hdspec.1 hF
          rw [fib_table_dump_loop, leaf_walk_rcu, hres, hGF, hF]
      | cons k0 rest2 =>
          rcases hdspec.2 k0 rest2 hF with
            ⟨ctx2, tn2, l, hres, hll, hlk, hok2, hlf2, haf2, m, hm⟩
          have hk0g : k0 ∈ trie_leaf_keys root ∧ key ≤ k0 := by
            have : k0 ∈ geKeys key (trie_leaf_keys root) := by
              rw [hGF, hF]
              exact List.mem_cons_self _ _
            exact (mem_geKeys key k0 _).mp this
          have hk0lt : k0 < 2 ^ 32 := trie_leaf_keys_lt root hroot k0 hk0g.1
          have hFsort : List.Pairwise (· < ·) (k0 :: rest2) := by
            rw [← hF]
            exact geKeys_sorted key _ (walk_stream_sorted root hroot ctx tn hok)
          rw [List.pairwise_cons] at hFsort
          rcases Nat.lt_or_ge (k0 + 1) (2 ^ 32) with hnw | hw
          · have hkey2 : (l.key + 1) % 2 ^ 32 = k0 + 1 := by
              rw [hlk]
              exact Nat.mod_eq_of_lt hnw
            have hnwrap : ¬(l.key + 1) % 2 ^ 32 < l.key := by
              rw [hkey2, hlk]
              omega
            have hrest_eq : geKeys (k0 + 1) (trie_leaf_keys root) = rest2 := by
              rw [← geKeys_absorb key (k0 + 1) (by omega) (trie_leaf_keys root)]
              rw [hGF, hF, geKeys_cons, if_neg (by omega)]
              exact geKeys_eq_self _ _ (fun x hx => by
                have := hFsort.1 x hx
                omega)
            have hinv2 : ∀ x ∈ trie_leaf_keys root, k0 + 1 ≤ x →
                x ∈ walk_stream root ctx2 tn2 := by
              intro x hxg hxk
              have hxF : x ∈ geKeys key (trie_leaf_keys root) :=
                (mem_geKeys key x _).mpr ⟨hxg, by omega⟩
              rw [hGF, hF] at hxF
              rcases List.mem_cons.mp hxF with hx0 | hxr
              · omega
              · rw [hm]
                exact List.mem_append_right _ (List.mem_cons_of_mem _ hxr)
            have hlen2 : (geKeys (k0 + 1) (trie_leaf_keys root)).length < f := by
              rw [hrest_eq]
              rw [hGF, hF] at hlen
              simpa using Nat.lt_of_succ_lt_succ hlen
            have hafter2 : ∀ x ∈ ctx_keys_after ctx2, k0 + 1 ≤ x :=
              fun x hx => haf2 x hx
            have hrec := ihf ctx2 tn2 (k0 + 1) hok2 hlf2 hafter2 hinv2 hlen2
            rw [fib_table_dump_loop, leaf_walk_rcu, hres]
            simp only [if_neg hnwrap]
            rw [hkey2, hrec, hrest_eq, hGF, hF, hlk]
          · have hk0top : k0 = 2 ^ 32 - 1 := by omega
            have hkey2 : (l.key + 1) % 2 ^ 32 = 0 := by
              rw [hlk, hk0top, show 2 ^ 32 - 1 + 1 = 2 ^ 32 by omega]
              exact Nat.mod_self _
            have hwrap : (l.key + 1) % 2 ^ 32 < l.key := by
              rw [hkey2, hlk]
              omega
            have hrest_nil : rest2 = [] := by
              rcases rest2 with _ | ⟨x, xs⟩
              · rfl
              · exfalso
                have hx2 := hFsort.1 x (List.mem_cons_self _ _)
                have hxg : x ∈ trie_leaf_keys root := by
                  have : x ∈ geKeys key (trie_leaf_keys root) := by
                    rw [hGF, hF]
                    exact List.mem_cons_of_mem _ (List.mem_cons_self _ _)
                  exact ((mem_geKeys key x _).mp this).1
                have := trie_leaf_keys_lt root hroot x hxg
                omega
            rw [fib_table_dump_loop, leaf_walk_rcu, hres]
            simp only [if_pos hwrap]
            rw [hGF, hF, hrest_nil, hlk]

/-- leaf_walk_rcu started at the trie root kv returns the leaf with the
smallest key at or above the given key — NULL exactly when no stored key is
that large — and consequently the fib_table_dump iteration, restarting each
step at the previous leaf's key plus one, visits every stored leaf exactly
once, in strictly increasing key order. -/
theorem leaf_walk_dump_correct (root : Option KV)
    (hroot : ∀ x, root = some x → wf x) :
    (∀ key,
      ((leaf_walk_rcu root [] none key).2.2 = none ↔
        ∀ x ∈ trie_leaf_keys root, x < key) ∧
      (∀ l, (leaf_walk_rcu root [] none key).2.2 = some l →
        IS_LEAF l = true ∧ l.key ∈ trie_leaf_keys root ∧ key ≤ l.key ∧
        ∀ x ∈ trie_leaf_keys root, key ≤ x → l.key ≤ x)) ∧
    fib_table_dump_keys root = trie_leaf_keys root ∧
    List.Pairwise (· < ·) (trie_leaf_keys root) := by
  have hok : state_ok root ([] : List Frame) none := by rw [state_ok]
  have hlf : ∀ q, (none : Option KV) = some q → ¬IS_LEAF q = true := by
    intro q hq
    simp at hq
  have hafter : ∀ x ∈ ctx_keys_after [], (0 : Nat) ≤ x := by
    intro x hx
    simp [ctx_keys_after] at hx
  refine ⟨?_, ?_, trie_leaf_keys_sorted root hroot⟩
  · intro key
    have hafterk : ∀ x ∈ ctx_keys_after [], key ≤ x := by
      intro x hx
      simp [ctx_keys_after] at hx
    have hdspec := leaf_walk_down_spec root hroot [] none key hok hlf hafterk
    have hws : walk_stream root [] none = trie_leaf_keys root := by
      rw [walk_stream]
    constructor
    · constructor
      · intro hnone
        cases hF : geKeys key (walk_stream root [] none) with
        | nil =>
            intro x hx
            by_contra hxk
            push_neg at hxk
            have : x ∈ geKeys key (walk_stream root [] none) := by
              rw [hws]
              exact (mem_geKeys key x _).mpr ⟨hx, hxk⟩
            rw [hF] at this
            simp at this
        | cons k0 rest2 =>
            rcases hdspec.2 k0 rest2 hF with
              ⟨ctx2, tn2, l, hres, _, _, _, _, _, _, _⟩
            rw [leaf_walk_rcu, hres] at hnone
            simp at hnone
      · intro hall
        have hF : geKeys key (walk_stream root [] none) = [] := by
          rw [hws]
          exact geKeys_eq_nil key _ hall
        rw [leaf_walk_rcu, hdspec.1 hF]
    · intro l hl
      cases hF : geKeys key (walk_stream root [] none) with
      | nil =>
          rw [leaf_walk_rcu, hdspec.1 hF] at hl
          simp at hl
      | cons k0 rest2 =>
          rcases hdspec.2 k0 rest2 hF with
            ⟨ctx2, tn2, l2, hres, hll, hlk, _, _, _, _, _⟩
          rw [leaf_walk_rcu, hres] at hl
          obtain rfl : l2 = l := Option.some.inj hl
          have hFsort : List.Pairwise (· < ·) (k0 :: rest2) := by
            rw [← hF]
            exact geKeys_sorted key _ (walk_stream_sorted root hroot [] none hok)
          rw [List.pairwise_cons] at hFsort
          have hk0m : k0 ∈ trie_leaf_keys root ∧ key ≤ k0 := by
            have : k0 ∈ geKeys key (walk_stream root [] none) := by
              rw [hF]
              exact List.mem_cons_self _ _
            rw [hws] at this
            exact (mem_geKeys key k0 _).mp this
          refine ⟨hll, by rw [hlk]; exact hk0m.1, by rw [hlk]; exact hk0m.2, ?_⟩
          intro x hx hxk
          have : x ∈ geKeys key (walk_stream root [] none) := by
            rw [hws]
            exact (mem_geKeys key x _).mpr ⟨hx, hxk⟩
          rw [hF] at this
          rw [hlk]
          rcases List.mem_cons.mp this with h1 | h2
          · omega
          · have := hFsort.1 x h2
            omega
  · rw [fib_table_dump_keys]
    have hspec := fib_table_dump_loop_spec root hroot
      ((trie_leaf_keys root).length + 1) [] none 0 hok hlf hafter
      (fun x hx _ => by rw [walk_stream]; exact hx)
      (by rw [geKeys_eq_self 0 _ (fun x _ => Nat.zero_le x)]; omega)
    rw [hspec, geKeys_eq_self 0 _ (fun x _ => Nat.zero_le x)]

theorem leaf_walk_dump_correct_witness :
    fib_table_dump_keys (some tW) = trie_leaf_keys (some tW) ∧
    trie_leaf_keys (some tW) = [0x0a000000, 0x0a010000] := by
  have h := leaf_walk_dump_correct (some tW) (fun x hx => by
    rw [← Option.some.inj hx]
    exact wf_tW)
  refine ⟨h.2.1, ?_⟩
  rw [trie_leaf_keys, tW]
  rw [leaf_keys]
  rw [leaf_keys_list, leaf_keys, leaf_keys_list, leaf_keys_list, leaf_keys,
    leaf_keys_list, leaf_keys_list]
  rfl

theorem fib_insert_empty_eval (cfg1 : FibConfig) (tb_id : Nat) (ta1 : Bool)
    (hv : fib_valid_key_len cfg1.fc_dst cfg1.fc_dst_len = true)
    (hcre1 : cfg1.nlm_f_create = true) :
    fib_table_insert true ta1 tb_id cfg1 none =
      (0, some (KV.leaf cfg1.fc_dst (KEYLENGTH - cfg1.fc_dst_len)
        [{ fa_info := cfg1.fc_fi, fa_tos := cfg1.fc_tos, fa_type := cfg1.fc_type,
           fa_state := 0, fa_slen := KEYLENGTH - cfg1.fc_dst_len,
           tb_id := tb_id }])) := by
  simp [fib_table_insert, fib_find_yesde, fib_insert_alias, fib_insert_yesde,
    fib_insert_finish, yesde_push_suffix, leaf_new, hv, hcre1]

theorem fib_insert_replace_eval (cfg1 cfg2 : FibConfig) (tb_id : Nat)
    (la2 ta2 : Bool)
    (hd : cfg2.fc_dst = cfg1.fc_dst)
    (hl : cfg2.fc_dst_len = cfg1.fc_dst_len)
    (ht : cfg2.fc_tos = cfg1.fc_tos)
    (hp : cfg2.fc_fi.fib_priority = cfg1.fc_fi.fib_priority)
    (hrepl : cfg2.nlm_f_replace = true)
    (hexcl : cfg2.nlm_f_excl = false)
    (hv2 : fib_valid_key_len cfg2.fc_dst cfg2.fc_dst_len = true) :
    fib_table_insert la2 ta2 tb_id cfg2
      (some (KV.leaf cfg1.fc_dst (KEYLENGTH - cfg1.fc_dst_len)
        [{ fa_info := cfg1.fc_fi, fa_tos := cfg1.fc_tos, fa_type := cfg1.fc_type,
           fa_state := 0, fa_slen := KEYLENGTH - cfg1.fc_dst_len,
           tb_id := tb_id }])) =
      (0, some (KV.leaf cfg1.fc_dst (KEYLENGTH - cfg1.fc_dst_len)
        [if cfg1.fc_type = cfg2.fc_type ∧ cfg1.fc_fi = cfg2.fc_fi then
          { fa_info := cfg1.fc_fi, fa_tos := cfg1.fc_tos, fa_type := cfg1.fc_type,
            fa_state := 0, fa_slen := KEYLENGTH - cfg1.fc_dst_len, tb_id := tb_id }
         else
          { fa_info := cfg2.fc_fi, fa_tos := cfg1.fc_tos, fa_type := cfg2.fc_type,
            fa_state := 0, fa_slen := KEYLENGTH - cfg1.fc_dst_len,
            tb_id := tb_id }])) := by
  have hv1 : fib_valid_key_len cfg1.fc_dst cfg1.fc_dst_len = true := by
    rw [← hd, ← hl]
    exact hv2
  by_cases hmatch : cfg1.fc_type = cfg2.fc_type ∧ cfg1.fc_fi = cfg2.fc_fi
  · rw [if_pos hmatch]
    simp [fib_table_insert, fib_find_yesde, fib_find_alias, fib_find_alias_from,
      fib_insert_run_scan, get_cindex, KV.pos, KV.bits, KV.fas, KV.key, KV.slen,
      hv2, hv1, hd, hl, ht, hp, hrepl, hexcl, hmatch.1, hmatch.2, fa_zero]
  · rw [if_neg hmatch]
    simp only [not_and_or] at hmatch
    simp [fib_table_insert, fib_find_yesde, fib_find_alias, fib_find_alias_from,
      fib_insert_run_scan, get_cindex, KV.pos, KV.bits, KV.fas, KV.key, KV.slen,
      hv2, hv1, hd, hl, ht, hp, hrepl, hexcl, fa_zero, reconstruct]
    rcases hmatch with hm | hm
    · simp [show ¬(cfg1.fc_type = cfg2.fc_type ∧ cfg1.fc_fi = cfg2.fc_fi) from
        fun hc => hm hc.1]
    · simp [show ¬(cfg1.fc_type = cfg2.fc_type ∧ cfg1.fc_fi = cfg2.fc_fi) from
        fun hc => hm hc.2]

/-- Inserting the identical route tuple (prefix, plen, tos, priority,
table) twice under NLM_F_REPLACE leaves exactly one alias for that key in
the leaf's list: for an exact duplicate the second insert is a successful
yes-op, otherwise it overwrites the first alias in place — it never adds a
second entry. -/
theorem fib_replace_idempotent (cfg1 cfg2 : FibConfig) (tb_id : Nat)
    (ta1 la2 ta2 : Bool)
    (hv : fib_valid_key_len cfg1.fc_dst cfg1.fc_dst_len = true)
    (hcre1 : cfg1.nlm_f_create = true)
    (hd : cfg2.fc_dst = cfg1.fc_dst) (hl : cfg2.fc_dst_len = cfg1.fc_dst_len)
    (ht : cfg2.fc_tos = cfg1.fc_tos)
    (hp : cfg2.fc_fi.fib_priority = cfg1.fc_fi.fib_priority)
    (hrepl : cfg2.nlm_f_replace = true) (hexcl : cfg2.nlm_f_excl = false) :
    ∃ fa : FibAlias,
      fib_table_insert la2 ta2 tb_id cfg2
          (fib_table_insert true ta1 tb_id cfg1 none).2 =
        (0, some (KV.leaf cfg1.fc_dst (KEYLENGTH - cfg1.fc_dst_len) [fa])) ∧
      fa.fa_slen = KEYLENGTH - cfg1.fc_dst_len ∧ fa.tb_id = tb_id ∧
      fa.fa_tos = cfg1.fc_tos ∧
      fa.fa_info.fib_priority = cfg1.fc_fi.fib_priority := by
  have hv2 : fib_valid_key_len cfg2.fc_dst cfg2.fc_dst_len = true := by
    rw [hd, hl]
    exact hv
  rw [fib_insert_empty_eval cfg1 tb_id ta1 hv hcre1]
  rw [fib_insert_replace_eval cfg1 cfg2 tb_id la2 ta2 hd hl ht hp hrepl hexcl hv2]
  refine ⟨_, rfl, ?_, ?_, ?_, ?_⟩ <;>
    by_cases hmatch : cfg1.fc_type = cfg2.fc_type ∧ cfg1.fc_fi = cfg2.fc_fi <;>
    simp [hmatch, hp]

theorem fib_replace_idempotent_witness :
    ∃ fa : FibAlias,
      fib_table_insert false false 254 cfgW2
          (fib_table_insert true true 254 cfgW none).2 =
        (0, some (KV.leaf cfgW.fc_dst (KEYLENGTH - cfgW.fc_dst_len) [fa])) ∧
      fa.fa_slen = KEYLENGTH - cfgW.fc_dst_len ∧ fa.tb_id = 254 ∧
      fa.fa_tos = cfgW.fc_tos ∧
      fa.fa_info.fib_priority = cfgW.fc_fi.fib_priority :=
  fib_replace_idempotent cfgW cfgW2 254 true false false (by decide) (by decide)
    (by decide) (by decide) (by decide) (by decide) (by decide) (by decide)

theorem mem_leaf_yesdes_list (l : KV) :
    ∀ (ch : List (Option KV)),
      l ∈ leaf_yesdes_list ch ↔ ∃ cv, (some cv) ∈ ch ∧ l ∈ leaf_yesdes cv := by
  intro ch
  induction ch with
  | nil => simp [leaf_yesdes_list]
  | cons hd rest ih =>
      cases hd with
      | none =>
          rw [leaf_yesdes_list, ih]
          constructor
          · rintro ⟨cv, h1, h2⟩
            exact ⟨cv, List.mem_cons_of_mem _ h1, h2⟩
          · rintro ⟨cv, h1, h2⟩
            rcases List.mem_cons.mp h1 with h1 | h1
            · simp at h1
            · exact ⟨cv, h1, h2⟩
      | some cv0 =>
          rw [leaf_yesdes_list]
          simp only [List.mem_append, ih]
          constructor
          · rintro (h | ⟨cv, h1, h2⟩)
            · exact ⟨cv0, List.mem_cons_self _ _, h⟩
            · exact ⟨cv, List.mem_cons_of_mem _ h1, h2⟩
          · rintro ⟨cv, h1, h2⟩
            rcases List.mem_cons.mp h1 with h1 | h1
            · rw [Option.some.inj h1] at h2
              exact Or.inl h2
            · exact Or.inr ⟨cv, h1, h2⟩

theorem leaf_keys_eq_map :
    ∀ (n : Nat) (t : KV), sizeOf t ≤ n →
      leaf_keys t = (leaf_yesdes t).map KV.key := by
  intro n
  induction n with
  | zero =>
      intro t ht
      cases t <;> simp at ht
  | succ m ih =>
      intro t ht
      cases t with
      | leaf k s fas => rw [leaf_keys, leaf_yesdes]; rfl
      | tyesde k p b s ch =>
          rw [leaf_keys, leaf_yesdes]
          have hbound : ∀ cv, (some cv) ∈ ch → sizeOf cv ≤ m := by
            intro cv hmem
            rcases (mem_iff_getD ch cv).mp hmem with ⟨j, hj, hval⟩
            have h1 := sizeOf_getD_opt ch j
            rw [hval] at h1
            simp at h1 ht
            omega
          clear ht
          induction ch with
          | nil => rw [leaf_keys_list, leaf_yesdes_list]; rfl
          | cons hd rest ihc =>
              cases hd with
              | none =>
                  rw [leaf_keys_list, leaf_yesdes_list]
                  exact ihc (fun cv h => hbound cv (List.mem_cons_of_mem _ h))
              | some cv =>
                  rw [leaf_keys_list, leaf_yesdes_list, List.map_append]
                  congr 1
                  · exact ih cv (hbound cv (List.mem_cons_self _ _))
                  · exact ihc (fun cv2 h => hbound cv2 (List.mem_cons_of_mem _ h))

theorem leaf_yesdes_shape :
    ∀ (n : Nat) (t : KV), sizeOf t ≤ n → ∀ l ∈ leaf_yesdes t,
      ∃ k s fas, l = KV.leaf k s fas := by
  intro n
  induction n with
  | zero =>
      intro t ht
      cases t <;> simp at ht
  | succ m ih =>
      intro t ht l hl
      cases t with
      | leaf k s fas =>
          rw [leaf_yesdes] at hl
          simp at hl
          exact ⟨k, s, fas, hl⟩
      | tyesde k p b s ch =>
          rw [leaf_yesdes] at hl
          rcases (mem_leaf_yesdes_list l ch).mp hl with ⟨cv, hmem, hlcv⟩
          have hsz : sizeOf cv < sizeOf ch := by
            rcases (mem_iff_getD ch cv).mp hmem with ⟨j, hj, hval⟩
            have := sizeOf_getD_opt ch j
            rw [hval] at this
            simp at this
            omega
          have : sizeOf ch < sizeOf (KV.tyesde k p b s ch) := by simp
          exact ih cv (by omega) l hlcv

/-- The leaf yesdes beneath a child slot are leaf yesdes of the parent. -/
theorem leaf_yesdes_child (k p b s : Nat) (ch : List (Option KV)) (j : Nat)
    (cv : KV) (hcv : ch.getD j none = some cv) (l : KV)
    (hl : l ∈ leaf_yesdes cv) : l ∈ leaf_yesdes (KV.tyesde k p b s ch) := by
  rw [leaf_yesdes, mem_leaf_yesdes_list]
  exact ⟨cv, getD_mem_of_some ch j cv hcv, hl⟩

theorem aligned_child (k p b s : Nat) (ch : List (Option KV)) (j : Nat)
    (cv : KV) (hcv : ch.getD j none = some cv)
    (h : aligned (KV.tyesde k p b s ch)) : aligned cv := by
  intro l hl fa hfa
  exact h l (leaf_yesdes_child k p b s ch j cv hcv l hl) fa hfa

theorem fas_sorted_child (k p b s : Nat) (ch : List (Option KV)) (j : Nat)
    (cv : KV) (hcv : ch.getD j none = some cv)
    (h : fas_sorted (KV.tyesde k p b s ch)) : fas_sorted cv := by
  intro l hl
  exact h l (leaf_yesdes_child k p b s ch j cv hcv l hl)

theorem slen_ge_child (k p b s : Nat) (ch : List (Option KV)) (j : Nat)
    (cv : KV) (hcv : ch.getD j none = some cv)
    (h : slen_ge (KV.tyesde k p b s ch)) : slen_ge cv := by
  rw [slen_ge] at h
  exact (h j (getD_some_lt_length ch j cv hcv) cv hcv).2

/-- Every alias beneath a yesde has suffix length at most the yesde's slen. -/
theorem slen_ge_bound :
    ∀ (n : Nat) (t : KV), sizeOf t ≤ n → slen_ge t →
      ∀ l ∈ leaf_yesdes t, ∀ fa ∈ KV.fas l, fa.fa_slen ≤ KV.slen t := by
  intro n
  induction n with
  | zero =>
      intro t ht
      cases t <;> simp at ht
  | succ m ih =>
      intro t ht hsg l hl fa hfa
      cases t with
      | leaf k s fas =>
          rw [leaf_yesdes] at hl
          simp at hl
          subst hl
          rw [slen_ge] at hsg
          exact hsg fa hfa
      | tyesde k p b s ch =>
          rw [leaf_yesdes] at hl
          rcases (mem_leaf_yesdes_list l ch).mp hl with ⟨cv, hmem, hlcv⟩
          rcases (mem_iff_getD ch cv).mp hmem with ⟨j, hj, hval⟩
          have hsz : sizeOf cv < sizeOf ch := by
            have := sizeOf_getD_opt ch j
            rw [hval] at this
            simp at this
            omega
          have hsz2 : sizeOf ch < sizeOf (KV.tyesde k p b s ch) := by simp
          rw [slen_ge] at hsg
          have h2 := hsg j hj cv hval
          have := ih cv (by omega) h2.2 l hlcv fa hfa
          calc fa.fa_slen ≤ KV.slen cv := this
          _ ≤ s := h2.1

theorem kclear_eq_sub (x w : Nat) : kclear x w = x - x % 2 ^ w := by
  rw [kclear, Nat.shiftRight_eq_div_pow, Nat.shiftLeft_eq]
  have := Nat.div_add_mod x (2 ^ w)
  have hm := Nat.mod_lt x (y := 2 ^ w) (Nat.pos_pow_of_pos w (by omega))
  rw [Nat.mul_comm] at this
  omega

theorem kclear_zero (x : Nat) : kclear x 0 = x := by
  simp [kclear]

theorem kclear_le (x w : Nat) : kclear x w ≤ x := by
  rw [kclear_eq_sub]
  omega

theorem kclear_anti (x : Nat) {w w2 : Nat} (h : w ≤ w2) :
    kclear x w2 ≤ kclear x w := by
  rw [kclear_eq_sub, kclear_eq_sub]
  have h1 : x % 2 ^ w ≤ x % 2 ^ w2 := by
    conv_lhs => rw [← Nat.mod_mod_of_dvd x (Nat.pow_dvd_pow 2 h)]
    exact Nat.mod_le _ _
  have h2 : x % 2 ^ w ≤ x := Nat.mod_le _ _
  have h3 : x % 2 ^ w2 ≤ x := Nat.mod_le _ _
  omega

theorem kclear_mod (x w : Nat) : kclear x w % 2 ^ w = 0 := by
  rw [kclear, Nat.shiftLeft_eq]
  simp [Nat.mul_mod_left]

theorem kclear_of_aligned {x w : Nat} (h : x % 2 ^ w = 0) : kclear x w = x := by
  rw [kclear_eq_sub, h]
  omega

theorem kclear_testBit (x w i : Nat) :
    (kclear x w).testBit i = (decide (w ≤ i) && x.testBit i) := by
  rw [kclear]
  rcases Nat.lt_or_ge i w with h | h
  · simp [Nat.testBit_shiftLeft, show ¬w ≤ i by omega]
  · simp [Nat.testBit_shiftLeft, Nat.testBit_shiftRight, h,
      show w + (i - w) = i by omega]

theorem kclear_xor_aligned {tk s : Nat} (h : tk % 2 ^ s = 0) (x : Nat) :
    kclear x s ^^^ tk = kclear (x ^^^ tk) s := by
  apply Nat.eq_of_testBit_eq
  intro i
  have htk : tk.testBit i = false ∨ s ≤ i := by
    rcases Nat.lt_or_ge i s with hi | hi
    · left
      have := Nat.testBit_mod_two_pow tk s i
      rw [h] at this
      simp [hi] at this
      simp [this]
    · right; exact hi
  rcases htk with htk | htk
  · simp [Nat.testBit_xor, kclear_testBit, htk]
  · simp [Nat.testBit_xor, kclear_testBit, htk]

theorem kclear_shiftRight (x s p : Nat) (h : p ≤ s) :
    kclear x s >>> p = kclear (x >>> p) (s - p) := by
  apply Nat.eq_of_testBit_eq
  intro i
  simp only [Nat.testBit_shiftRight, kclear_testBit]
  have : s ≤ p + i ↔ s - p ≤ i := by omega
  simp [this]

theorem kclear_idem (x : Nat) {w w2 : Nat} (h : w ≤ w2) :
    kclear (kclear x w) w2 = kclear x w2 := by
  apply Nat.eq_of_testBit_eq
  intro i
  simp only [kclear_testBit]
  by_cases h2 : w2 ≤ i <;> simp [h2]
  intro
  omega

/-- A stored aligned alias whose prefix covers the key lives at the leaf
keyed by the key with the suffix cleared. -/
theorem cand_leaf_key {key lk s : Nat} (halign : lk % 2 ^ s = 0)
    (hmatch : key ^^^ lk < 2 ^ s) : lk = kclear key s := by
  have h1 : key >>> s = lk >>> s := by
    have h0 : (key ^^^ lk) >>> s = 0 := (shiftRight_eq_zero_iff_lt _ _).mpr hmatch
    rw [shiftRight_xor_distrib] at h0
    exact Nat.xor_eq_zero.mp h0
  rw [kclear, h1, ← kclear]
  exact (kclear_of_aligned halign).symm

theorem kclear_shiftRight_of_le (x s p : Nat) (h : s ≤ p) :
    kclear x s >>> p = x >>> p := by
  apply Nat.eq_of_testBit_eq
  intro i
  simp only [Nat.testBit_shiftRight, kclear_testBit]
  simp [show s ≤ p + i by omega]

theorem xor_triangle (a b c : Nat) : a ^^^ c = (a ^^^ b) ^^^ (b ^^^ c) := by
  rw [Nat.xor_assoc, xor_cancel_left]

theorem or_aligned {a b m : Nat} (ha : a % 2 ^ m = 0) (hb : b % 2 ^ m = 0) :
    (a ||| b) % 2 ^ m = 0 := by
  apply Nat.eq_of_testBit_eq
  intro i
  rw [Nat.testBit_mod_two_pow, Nat.testBit_or]
  rcases Nat.lt_or_ge i m with hi | hi
  · have h1 := Nat.testBit_mod_two_pow a m i
    have h2 := Nat.testBit_mod_two_pow b m i
    rw [ha] at h1
    rw [hb] at h2
    simp [hi] at h1 h2
    simp [hi, h1, h2]
  · simp [show ¬i < m by omega]

theorem and_eq_zero_of_lt_aligned {x mask m : Nat} (hx : x < 2 ^ m)
    (hm : mask % 2 ^ m = 0) : x &&& mask = 0 := by
  apply Nat.eq_of_testBit_eq
  intro i
  rw [Nat.testBit_and]
  rcases Nat.lt_or_ge i m with hi | hi
  · have h2 := Nat.testBit_mod_two_pow mask m i
    rw [hm] at h2
    simp [hi] at h2
    simp [h2]
  · have h1 : x.testBit i = false :=
      Nat.testBit_lt_two_pow (lt_of_lt_of_le hx (Nat.pow_le_pow_right (by omega) hi))
    simp [h1]

/-- The slot a leaf occupies beneath a well-formed internal yesde is its
key's child index. -/
theorem mem_slot (k p b s : Nat) (ch : List (Option KV))
    (hwf : wf (KV.tyesde k p b s ch)) (l : KV)
    (hl : l ∈ leaf_yesdes (KV.tyesde k p b s ch)) :
    ∃ cv, ch.getD ((KV.key l ^^^ k) >>> p) none = some cv ∧ l ∈ leaf_yesdes cv := by
  rw [leaf_yesdes] at hl
  rcases (mem_leaf_yesdes_list l ch).mp hl with ⟨cv, hmem, hlcv⟩
  rcases (mem_iff_getD ch cv).mp hmem with ⟨j, hj, hval⟩
  have hwf2 := hwf
  rw [wf] at hwf2
  obtain ⟨hb, hpb, hlen, hklt, halign, hch⟩ := hwf2
  have hj2 : j < 2 ^ b := by omega
  obtain ⟨hwfcv, hcvpos, hidx⟩ := hch j hj2 cv hval
  have hlkey : KV.key l ∈ leaf_keys cv := by
    rw [leaf_keys_eq_map (sizeOf cv) cv (le_refl _)]
    exact List.mem_map_of_mem _ hlcv
  have hclose := leaf_keys_close cv hwfcv (KV.key l) hlkey
  have hclose2 : KV.key l ^^^ KV.key cv < 2 ^ p :=
    lt_of_lt_of_le hclose (Nat.pow_le_pow_right (by omega) hcvpos)
  have heq : (KV.key l ^^^ k) >>> p = (KV.key cv ^^^ k) >>> p :=
    shiftRight_congr_of_xor_lt p hclose2 k
  rw [heq, hidx]
  exact ⟨cv, hval, hlcv⟩

theorem wf_align (t : KV) (hwf : wf t) :
    KV.key t % 2 ^ (KV.pos t + KV.bits t) = 0 := by
  cases t with
  | leaf k s fas => simp [KV.pos, KV.bits, Nat.mod_one]
  | tyesde k p b s ch =>
      rw [wf] at hwf
      exact hwf.2.2.2.2.1

/-- A usable candidate beyond a yesde's index range lies at the yesde's own
key, with a suffix reaching above the yesde's bit range. -/
theorem cand_out (props_err : Nat → Int) (flp : Flowi4) (il : Bool) (key : Nat)
    (t l : KV) (fa : FibAlias) (hwf : wf t) (hal : aligned t)
    (hc : candIn props_err flp il key t l fa)
    (hfar : 2 ^ (KV.pos t + KV.bits t) ≤ key ^^^ KV.key t) :
    KV.key l = KV.key t ∧ KV.pos t + KV.bits t < fa.fa_slen := by
  obtain ⟨hmem, hleaf, hfa, hmatch, hsem⟩ := hc
  have hlkey : KV.key l ∈ leaf_keys t := by
    rw [leaf_keys_eq_map (sizeOf t) t (le_refl _)]
    exact List.mem_map_of_mem _ hmem
  have hclose := leaf_keys_close t hwf (KV.key l) hlkey
  have hali := hal l hmem fa hfa
  by_cases hs : fa.fa_slen ≤ KV.pos t + KV.bits t
  · exfalso
    have h1 : key ^^^ KV.key l < 2 ^ (KV.pos t + KV.bits t) :=
      lt_of_lt_of_le hmatch (Nat.pow_le_pow_right (by omega) hs)
    have h2 : key ^^^ KV.key t < 2 ^ (KV.pos t + KV.bits t) := by
      rw [xor_triangle key (KV.key l) (KV.key t)]
      exact Nat.xor_lt_two_pow h1 hclose
    omega
  · push_neg at hs
    refine ⟨?_, hs⟩
    have hm32 : KV.key t % 2 ^ (KV.pos t + KV.bits t) = 0 := wf_align t hwf
    have halm : KV.key l % 2 ^ (KV.pos t + KV.bits t) = 0 := by
      have h2 : (2 : Nat) ^ (KV.pos t + KV.bits t) ∣ 2 ^ fa.fa_slen :=
        Nat.pow_dvd_pow 2 (by omega)
      have h3 : (2 : Nat) ^ fa.fa_slen ∣ KV.key l := Nat.dvd_of_mod_eq_zero hali.1
      exact (Nat.mod_eq_zero_of_dvd (dvd_trans h2 h3))
    have hsh : KV.key l >>> (KV.pos t + KV.bits t) =
        KV.key t >>> (KV.pos t + KV.bits t) := by
      have h0 : (KV.key l ^^^ KV.key t) >>> (KV.pos t + KV.bits t) = 0 :=
        (shiftRight_eq_zero_iff_lt _ _).mpr hclose
      rw [shiftRight_xor_distrib] at h0
      exact Nat.xor_eq_zero.mp h0
    calc KV.key l = kclear (KV.key l) (KV.pos t + KV.bits t) :=
          (kclear_of_aligned halm).symm
    _ = kclear (KV.key t) (KV.pos t + KV.bits t) := by rw [kclear, hsh, ← kclear]
    _ = KV.key t := kclear_of_aligned hm32


/-- prefix_mismatch soundness: a yesde whose prefix region differs from the
key holds yes usable candidate. -/
theorem cand_mismatch (props_err : Nat → Int) (flp : Flowi4) (il : Bool)
    (key : Nat) (t l : KV) (fa : FibAlias) (hwf : wf t) (hal : aligned t)
    (hc : candIn props_err flp il key t l fa) :
    prefix_mismatch key t = 0 := by
  rw [prefix_mismatch]
  by_cases hz : KV.key t = 0
  · simp [hz]
  · have hk32 := (wf_key_lt t hwf).1
    have hm32 := (wf_key_lt t hwf).2
    have hsub : (2 ^ 32 - KV.key t) % 2 ^ 32 = 2 ^ 32 - KV.key t :=
      Nat.mod_eq_of_lt (by omega)
    rw [hsub]
    obtain ⟨hmem, hleaf, hfa, hmatch, hsem⟩ := hc
    have hali := hal l hmem fa hfa
    rcases Nat.lt_or_ge (key ^^^ KV.key t) (2 ^ (KV.pos t + KV.bits t)) with hcl | hfar
    · have hta := wf_align t hwf
      have hsa : (2 ^ 32 - KV.key t) % 2 ^ (KV.pos t + KV.bits t) = 0 := by
        apply Nat.mod_eq_zero_of_dvd
        apply Nat.dvd_sub'
        · exact Nat.pow_dvd_pow 2 hm32
        · exact Nat.dvd_of_mod_eq_zero hta
      exact and_eq_zero_of_lt_aligned hcl (or_aligned hta hsa)
    · have hout := cand_out props_err flp il key t l fa hwf hal
        ⟨hmem, hleaf, hfa, hmatch, hsem⟩ hfar
      have hta : KV.key t % 2 ^ fa.fa_slen = 0 := by
        rw [← hout.1]
        exact hali.1
      have hsa : (2 ^ 32 - KV.key t) % 2 ^ fa.fa_slen = 0 := by
        apply Nat.mod_eq_zero_of_dvd
        apply Nat.dvd_sub'
        · exact Nat.pow_dvd_pow 2 hali.2
        · exact Nat.dvd_of_mod_eq_zero hta
      have hcl : key ^^^ KV.key t < 2 ^ fa.fa_slen := by
        rw [← hout.1]
        exact hmatch
      exact and_eq_zero_of_lt_aligned hcl (or_aligned hta hsa)

/-- slen = pos soundness: once the key has left the yesde's range, a yesde
whose suffixes stop at its own pos holds yes usable candidate. -/
theorem cand_slen_prune (props_err : Nat → Int) (flp : Flowi4) (il : Bool)
    (key : Nat) (t l : KV) (fa : FibAlias) (hwf : wf t) (hal : aligned t)
    (hsg : slen_ge t) (hfar : 2 ^ (KV.pos t + KV.bits t) ≤ key ^^^ KV.key t)
    (hsp : KV.slen t = KV.pos t) :
    ¬candIn props_err flp il key t l fa := by
  intro hc
  have hout := cand_out props_err flp il key t l fa hwf hal hc hfar
  have hb := slen_ge_bound (sizeOf t) t (le_refl _) hsg l hc.1 fa hc.2.2.1
  omega

/-- Child-zero completeness: once the key has left a yesde's range, every
usable candidate beneath it lies under child slot 0. -/
theorem cand_child0 (props_err : Nat → Int) (flp : Flowi4) (il : Bool)
    (key : Nat) (k p b s : Nat) (ch : List (Option KV))
    (hwf : wf (KV.tyesde k p b s ch)) (hal : aligned (KV.tyesde k p b s ch))
    (l : KV) (fa : FibAlias)
    (hc : candIn props_err flp il key (KV.tyesde k p b s ch) l fa)
    (hfar : 2 ^ (p + b) ≤ key ^^^ k) :
    ∃ c0, ch.getD 0 none = some c0 ∧ candIn props_err flp il key c0 l fa := by
  have hout := cand_out props_err flp il key _ l fa hwf hal hc
    (by simpa [KV.pos, KV.bits, KV.key] using hfar)
  rcases mem_slot k p b s ch hwf l hc.1 with ⟨cv, hval, hmem⟩
  rw [show KV.key (KV.tyesde k p b s ch) = k from rfl] at hout
  rw [hout.1] at hval
  simp only [Nat.xor_self, Nat.zero_shiftRight] at hval
  exact ⟨cv, hval, hmem, hc.2⟩

theorem kclear_eq_zero_of_lt {x w : Nat} (h : x < 2 ^ w) : kclear x w = 0 := by
  rw [kclear, (shiftRight_eq_zero_iff_lt x w).mpr h, Nat.zero_shiftLeft]

/-- The slot a usable candidate occupies beneath an on-range yesde: the
key's child index with the bits below the candidate's suffix cleared. -/
theorem cand_slot (props_err : Nat → Int) (flp : Flowi4) (il : Bool)
    (key : Nat) (k p b s : Nat) (ch : List (Option KV))
    (hwf : wf (KV.tyesde k p b s ch)) (hal : aligned (KV.tyesde k p b s ch))
    (l : KV) (fa : FibAlias)
    (hc : candIn props_err flp il key (KV.tyesde k p b s ch) l fa)
    (hgc : (key ^^^ k) >>> p < 2 ^ b) :
    KV.key l = kclear key fa.fa_slen ∧
    (KV.key l ^^^ k) >>> p = kclear ((key ^^^ k) >>> p) (fa.fa_slen - p) := by
  obtain ⟨hmem, hleaf, hfa, hmatch, hsem⟩ := hc
  have hali := hal l hmem fa hfa
  have hlk : KV.key l = kclear key fa.fa_slen := cand_leaf_key hali.1 hmatch
  refine ⟨hlk, ?_⟩
  have hwf2 := hwf
  rw [wf] at hwf2
  obtain ⟨hb, hpb, hlen, hklt, halign, hch⟩ := hwf2
  rcases Nat.lt_or_ge p fa.fa_slen with hsp | hsp
  · -- p < slen: k is aligned to min(slen, p+b); two subcases
    rcases le_or_lt fa.fa_slen (p + b) with hsb | hsb
    · have hka : k % 2 ^ fa.fa_slen = 0 := by
        apply Nat.mod_eq_zero_of_dvd
        exact dvd_trans (Nat.pow_dvd_pow 2 hsb) (Nat.dvd_of_mod_eq_zero halign)
      rw [hlk, kclear_xor_aligned hka key, kclear_shiftRight _ _ _ (by omega)]
    · -- slen beyond the yesde's range: leaf must sit on the yesde's own key
      have hmem2 : l ∈ leaf_yesdes (KV.tyesde k p b s ch) := hmem
      rcases mem_slot k p b s ch hwf l hmem2 with ⟨cv, hval, hmemcv⟩
      have hjb := getD_some_lt_length ch _ cv hval
      rw [hlen] at hjb
      have hrange : KV.key l ^^^ k < 2 ^ (p + b) := by
        rw [Nat.shiftRight_eq_div_pow] at hjb
        have h2 := (Nat.div_lt_iff_lt_mul
          (Nat.pos_pow_of_pos p (by omega))).mp hjb
        rw [Nat.pow_add, Nat.mul_comm]
        exact h2
      have hla : KV.key l % 2 ^ (p + b) = 0 := by
        apply Nat.mod_eq_zero_of_dvd
        exact dvd_trans (Nat.pow_dvd_pow 2 (by omega))
          (Nat.dvd_of_mod_eq_zero hali.1)
      have hz : KV.key l ^^^ k = 0 := by
        have h1 : KV.key l ^^^ k = kclear (KV.key l ^^^ k) (p + b) := by
          rw [← kclear_xor_aligned halign (KV.key l), kclear_of_aligned hla]
        rw [h1]
        exact kclear_eq_zero_of_lt hrange
      rw [hz, Nat.zero_shiftRight]
      symm
      apply kclear_eq_zero_of_lt
      calc (key ^^^ k) >>> p < 2 ^ b := hgc
        _ ≤ 2 ^ (fa.fa_slen - p) := Nat.pow_le_pow_right (by omega) (by omega)
  · rw [show fa.fa_slen - p = 0 by omega, kclear_zero, hlk]
    have hka : k % 2 ^ fa.fa_slen = 0 := by
      apply Nat.mod_eq_zero_of_dvd
      exact dvd_trans (Nat.pow_dvd_pow 2 (by omega))
        (Nat.dvd_of_mod_eq_zero halign)
    rw [kclear_xor_aligned hka key, kclear_shiftRight_of_le _ _ _ (by omega)]

theorem two_pow_le_of_testBit {x t : Nat} (h : x.testBit t = true) : 2 ^ t ≤ x := by
  by_contra hc
  push_neg at hc
  rw [Nat.testBit_lt_two_pow hc] at h
  simp at h

theorem le_shiftRight_iff {x p b : Nat} :
    2 ^ b ≤ x >>> p ↔ 2 ^ (p + b) ≤ x := by
  rw [Nat.shiftRight_eq_div_pow, Nat.le_div_iff_mul_le (Nat.pos_pow_of_pos p (by omega)),
    Nat.pow_add, Nat.mul_comm]

theorem xor_ge_of_ge_lt {a b m : Nat} (ha : 2 ^ m ≤ a) (hb : b < 2 ^ m) :
    2 ^ m ≤ a ^^^ b := by
  by_contra hc
  push_neg at hc
  have h3 : (a ^^^ b) >>> m = 0 := (shiftRight_eq_zero_iff_lt _ _).mpr hc
  rw [shiftRight_xor_distrib, (shiftRight_eq_zero_iff_lt b m).mpr hb, Nat.xor_zero] at h3
  rw [shiftRight_eq_zero_iff_lt] at h3
  omega

/-- Every leaf yesde beneath a well-formed yesde has its key inside the
yesde's covered range. -/
theorem key_under (t : KV) (hwf : wf t) (l : KV) (hl : l ∈ leaf_yesdes t) :
    KV.key l ^^^ KV.key t < 2 ^ (KV.pos t + KV.bits t) := by
  apply leaf_keys_close_aux (sizeOf t) t (le_refl _) hwf
  rw [leaf_keys_eq_map (sizeOf t) t (le_refl _)]
  exact List.mem_map_of_mem _ hl

/-- A leaf beneath a given child slot of a well-formed tyesde indexes back to
that slot. -/
theorem slot_of_under (k p b s : Nat) (ch : List (Option KV))
    (hwf : wf (KV.tyesde k p b s ch)) (j : Nat) (cv : KV)
    (hj : j < 2 ^ b) (hcv : ch.getD j none = some cv) (l : KV)
    (hl : l ∈ leaf_yesdes cv) : (KV.key l ^^^ k) >>> p = j := by
  have hwf2 := hwf
  rw [wf] at hwf2
  obtain ⟨hb, hpb, hlen, hklt, hal, hch⟩ := hwf2
  obtain ⟨hwfcv, hcvpb, hslot⟩ := hch j hj cv hcv
  have hu := key_under cv hwfcv l hl
  have h1 : KV.key l ^^^ KV.key cv < 2 ^ p :=
    lt_of_lt_of_le hu (Nat.pow_le_pow_right (by omega) hcvpb)
  have h0 : (KV.key l ^^^ KV.key cv) >>> p = 0 := (shiftRight_eq_zero_iff_lt _ _).mpr h1
  rw [xor_triangle (KV.key l) (KV.key cv) k, shiftRight_xor_distrib, h0, Nat.zero_xor,
    hslot]

/-- The structural invariants descend to every occupied child slot. -/
theorem inv_child (k p b s : Nat) (ch : List (Option KV)) (j : Nat) (cv : KV)
    (hcv : ch.getD j none = some cv) (h : trie_inv (KV.tyesde k p b s ch)) : trie_inv cv := by
  obtain ⟨hwf, hal, hfs, hsg⟩ := h
  have hj := getD_some_lt_length ch j cv hcv
  have hwf2 := hwf
  rw [wf] at hwf2
  obtain ⟨hb, hpb, hlen, hklt, hka, hch⟩ := hwf2
  refine ⟨(hch j (by omega) cv hcv).1, aligned_child k p b s ch j cv hcv hal,
    fas_sorted_child k p b s ch j cv hcv hfs, slen_ge_child k p b s ch j cv hcv hsg⟩

/-- The structural invariants hold at every position a walker context
describes. -/
theorem inv_of_ctx_ok : ∀ (ctx : List Frame) (p : KV) (root : Option KV),
    ctx_ok ctx (some p) root → trie_inv_opt root → trie_inv p := by
  intro ctx
  induction ctx with
  | nil =>
      intro p root h hr
      rw [ctx_ok] at h
      rw [← h] at hr
      exact hr
  | cons f rest ih =>
      intro p root h hr
      rw [ctx_ok] at h
      obtain ⟨hidx, h2⟩ := h
      have hup := ih (Frame.fill f (some p)) root h2 hr
      exact inv_child f.key f.pos f.bits f.slen (f.children.set f.idx (some p)) f.idx p
        (getD_set_self f.children f.idx (some p) hidx) hup

/-- Stripping the lowest set bit: n &&& (n - 1) removes exactly the lowest
power of two from a yesnzero n. -/
theorem and_pred_eq : ∀ n : Nat, n ≠ 0 →
    ∃ t, n.testBit t = true ∧ n % 2 ^ t = 0 ∧ n &&& (n - 1) = n - 2 ^ t := by
  intro n
  induction n using Nat.strong_induction_on with
  | _ n ih =>
    intro hn
    rcases Nat.even_or_odd n with he | ho
    · obtain ⟨m, hm⟩ := he
      have hm2 : n = 2 * m := by omega
      have hmne : m ≠ 0 := by omega
      obtain ⟨t, ht1, ht2, ht3⟩ := ih m (by omega) hmne
      have h2t : 2 ^ t ≤ m := two_pow_le_of_testBit ht1
      refine ⟨t + 1, ?_, ?_, ?_⟩
      · rw [hm2, Nat.testBit_succ]
        have hd : 2 * m / 2 = m := by omega
        rw [hd]
        exact ht1
      · rw [hm2, Nat.pow_succ, Nat.mul_comm (2 ^ t) 2, Nat.mul_mod_mul_left]
        rw [ht2]
      · have hand : 2 * m &&& (2 * m - 1) = 2 * (m &&& (m - 1)) := by
          apply Nat.eq_of_testBit_eq
          intro i
          cases i with
          | zero =>
              rw [Nat.testBit_and]
              simp [Nat.testBit_zero, Nat.mul_mod_right, Nat.mul_mod_left]
          | succ j =>
              have e1 : 2 * m / 2 = m := by omega
              have e2 : (2 * m - 1) / 2 = m - 1 := by omega
              have e3 : 2 * (m &&& (m - 1)) / 2 = m &&& (m - 1) := by omega
              rw [Nat.testBit_and, Nat.testBit_succ, Nat.testBit_succ,
                Nat.testBit_succ, e1, e2, e3, Nat.testBit_and]
        rw [hm2, hand, ht3, Nat.pow_succ]
        omega
    · obtain ⟨k, hk⟩ := ho
      refine ⟨0, ?_, by omega, ?_⟩
      · rw [Nat.testBit_zero]
        have hm2 : n % 2 = 1 := by omega
        simp [hm2]
      · apply Nat.eq_of_testBit_eq
        intro i
        cases i with
        | zero =>
            rw [Nat.testBit_and]
            simp [Nat.testBit_zero]
            omega
        | succ j =>
            rw [Nat.testBit_and, Nat.testBit_succ, Nat.testBit_succ, Nat.testBit_succ]
            have e1 : n / 2 = k := by omega
            have e2 : (n - 1) / 2 = k := by omega
            have e3 : (n - 2 ^ 0) / 2 = k := by simp; omega
            rw [e1, e2, e3]
            simp

/-- Any cleared form of n strictly below n survives stripping n's lowest set
bit. -/
theorem strip_le_of_kclear_lt {n w : Nat} (h : kclear n w < n) :
    kclear n w ≤ n &&& (n - 1) := by
  have hne : n ≠ 0 := by
    intro h0
    rw [h0] at h
    simp [kclear] at h
  obtain ⟨t, ht1, ht2, ht3⟩ := and_pred_eq n hne
  have hml := Nat.mod_le n (2 ^ w)
  rw [kclear_eq_sub] at h ⊢
  have hmw : 0 < n % 2 ^ w := by omega
  have htw : t < w := by
    by_contra hc
    push_neg at hc
    have : n % 2 ^ w = 0 :=
      Nat.mod_eq_zero_of_dvd (dvd_trans (Nat.pow_dvd_pow 2 hc) (Nat.dvd_of_mod_eq_zero ht2))
    omega
  have hbit : (n % 2 ^ w).testBit t = true := by
    rw [Nat.testBit_mod_two_pow]
    simp [htw, ht1]
  have h2t := two_pow_le_of_testBit hbit
  rw [ht3]
  omega

/-- Stripping the lowest set bit of a cleared index yields ayesther cleared
form of the same index, with more bits cleared. -/
theorem strip_kclear_form (x w0 : Nat) (h : kclear x w0 ≠ 0) :
    ∃ w1, w0 < w1 ∧ kclear x w0 &&& (kclear x w0 - 1) = kclear x w1 := by
  obtain ⟨t, ht1, ht2, ht3⟩ := and_pred_eq (kclear x w0) h
  have htw : w0 ≤ t := by
    by_contra hc
    push_neg at hc
    rw [kclear_testBit] at ht1
    simp [show ¬ w0 ≤ t by omega] at ht1
  refine ⟨t + 1, by omega, ?_⟩
  have hidem : kclear x (t + 1) = kclear (kclear x w0) (t + 1) :=
    (kclear_idem x (by omega)).symm
  have hd : kclear x w0 % 2 ^ (t + 1) % 2 ^ t = 0 := by
    rw [Nat.mod_mod_of_dvd _ (Nat.pow_dvd_pow 2 (by omega))]
    exact ht2
  have hlt : kclear x w0 % 2 ^ (t + 1) < 2 ^ (t + 1) :=
    Nat.mod_lt _ (Nat.pos_pow_of_pos _ (by omega))
  have hbit : (kclear x w0 % 2 ^ (t + 1)).testBit t = true := by
    rw [Nat.testBit_mod_two_pow]
    simp [Nat.lt_succ_self, ht1]
  have hge := two_pow_le_of_testBit hbit
  have hm : kclear x w0 % 2 ^ (t + 1) = 2 ^ t := by
    obtain ⟨q, hq⟩ := Nat.dvd_of_mod_eq_zero hd
    have hpos : 0 < 2 ^ t := Nat.pos_pow_of_pos _ (by omega)
    have hps : (2 : Nat) ^ (t + 1) = 2 ^ t * 2 := by rw [Nat.pow_succ]
    have hlt2 : 2 ^ t * q < 2 ^ t * 2 := by
      rw [← hq, ← hps]
      exact hlt
    have hq2 : q < 2 := Nat.lt_of_mul_lt_mul_left hlt2
    have hq1 : q ≠ 0 := by
      intro h0
      rw [h0, Nat.mul_zero] at hq
      omega
    have hq3 : q = 1 := by omega
    rw [hq, hq3, Nat.mul_one]
  rw [ht3, hidem, kclear_eq_sub (kclear x w0) (t + 1), hm]

theorem bt_cand_none (pe : Nat → Int) (flp : Flowi4) (il : Bool) (key : Nat)
    (bctx : List Frame) (bci : Nat) (l : KV) (fa : FibAlias) :
    ¬ bt_cand pe flp il key bctx none bci l fa := by
  rw [bt_cand.eq_def]
  by_cases h : bci = 0 <;> simp [h] <;> cases bctx <;> simp

theorem bt_cand_zero_nil (pe : Nat → Int) (flp : Flowi4) (il : Bool) (key : Nat)
    (p : KV) (l : KV) (fa : FibAlias) :
    ¬ bt_cand pe flp il key [] (some p) 0 l fa := by
  rw [bt_cand.eq_def]
  simp

theorem bt_cand_zero_cons (pe : Nat → Int) (flp : Flowi4) (il : Bool) (key : Nat)
    (f : Frame) (rest : List Frame) (p : KV) (l : KV) (fa : FibAlias) :
    bt_cand pe flp il key (f :: rest) (some p) 0 l fa ↔
      bt_cand pe flp il key rest (some (Frame.fill f (some p))) f.idx l fa := by
  conv_lhs => rw [bt_cand.eq_def]
  simp

theorem bt_cand_pos (pe : Nat → Int) (flp : Flowi4) (il : Bool) (key : Nat)
    (bctx : List Frame) (p : KV) (bci : Nat) (l : KV) (fa : FibAlias)
    (h : bci ≠ 0) :
    bt_cand pe flp il key bctx (some p) bci l fa ↔
      ((∃ cv, get_child p (bci &&& (bci - 1)) = some cv ∧
          candIn pe flp il key cv l fa) ∨
        bt_cand pe flp il key bctx (some p) (bci &&& (bci - 1)) l fa) := by
  conv_lhs => rw [bt_cand.eq_def]
  simp [h]

theorem strip_lt {bci : Nat} (h : bci ≠ 0) : bci &&& (bci - 1) < bci := by
  have h1 : bci &&& (bci - 1) ≤ bci - 1 := Nat.and_le_right
  omega

theorem bt_cand_zero_le (pe : Nat → Int) (flp : Flowi4) (il : Bool) (key : Nat) :
    ∀ (bci : Nat) (bctx : List Frame) (p : KV) (l : KV) (fa : FibAlias),
      bt_cand pe flp il key bctx (some p) 0 l fa →
      bt_cand pe flp il key bctx (some p) bci l fa := by
  intro bci
  induction bci using Nat.strong_induction_on with
  | _ bci ih =>
    intro bctx p l fa h
    by_cases h0 : bci = 0
    · rwa [h0]
    · rw [bt_cand_pos pe flp il key bctx p bci l fa h0]
      exact Or.inr (ih (bci &&& (bci - 1)) (strip_lt h0) bctx p l fa h)

/-- Iterated lowest-bit stripping from a cleared index visits every strictly
smaller cleared form of the same index. -/
theorem bt_cand_of_strip (pe : Nat → Int) (flp : Flowi4) (il : Bool) (key : Nat) :
    ∀ (bci x w0 : Nat), bci = kclear x w0 →
      ∀ (w : Nat) (bctx : List Frame) (p : KV) (l : KV) (fa : FibAlias) (jc : Nat)
        (cv : KV), jc = kclear x w → jc < bci → get_child p jc = some cv →
        candIn pe flp il key cv l fa →
        bt_cand pe flp il key bctx (some p) bci l fa := by
  intro bci
  induction bci using Nat.strong_induction_on with
  | _ bci ih =>
    intro x w0 hform w bctx p l fa jc cv hjc hlt hg hc
    have h0 : bci ≠ 0 := by omega
    have hw0w : w0 < w := by
      by_contra hcw
      push_neg at hcw
      have := kclear_anti x hcw
      omega
    have hjc2 : jc = kclear bci w := by
      rw [hform, kclear_idem x (le_of_lt hw0w), ← hjc]
    obtain ⟨w1, hw1, heq⟩ := strip_kclear_form x w0 (by rw [← hform]; exact h0)
    rw [← hform] at heq
    have hle : jc ≤ bci &&& (bci - 1) := by
      rw [hjc2]
      exact strip_le_of_kclear_lt (by rw [← hjc2]; exact hlt)
    rw [bt_cand_pos pe flp il key bctx p bci l fa h0]
    rcases Nat.lt_or_ge jc (bci &&& (bci - 1)) with hcase | hcase
    · exact Or.inr (ih (bci &&& (bci - 1)) (strip_lt h0) x w1 heq w bctx p l fa jc cv
        hjc hcase hg hc)
    · have hje : jc = bci &&& (bci - 1) := by omega
      rw [← hje]
      exact Or.inl ⟨cv, hg, hc⟩

/-- Without climbing, everything a strip chain reaches lies beneath the
anchor yesde. -/
theorem bt_cand_sub (pe : Nat → Int) (flp : Flowi4) (il : Bool) (key : Nat) :
    ∀ (bci : Nat) (n : KV) (l : KV) (fa : FibAlias),
      bt_cand pe flp il key [] (some n) bci l fa →
      candIn pe flp il key n l fa := by
  intro bci
  induction bci using Nat.strong_induction_on with
  | _ bci ih =>
    intro n l fa h
    by_cases h0 : bci = 0
    · rw [h0] at h
      exact absurd h (bt_cand_zero_nil pe flp il key n l fa)
    · rw [bt_cand_pos pe flp il key [] n bci l fa h0] at h
      rcases h with ⟨cv, hg, hc⟩ | h
      · cases n with
        | leaf k s fas => simp [get_child, KV.children, List.getD] at hg
        | tyesde k p b s ch =>
            refine ⟨leaf_yesdes_child k p b s ch (bci &&& (bci - 1)) cv hg l hc.1, hc.2⟩
      · exact ih (bci &&& (bci - 1)) (strip_lt h0) n l fa h

/-- A strip chain over a yesde with yes usable off-path candidates reduces to
its climb. -/
theorem bt_cand_of_no_strips (pe : Nat → Int) (flp : Flowi4) (il : Bool) (key : Nat)
    (b0 : Nat) :
    ∀ (bci : Nat) (bctx : List Frame) (n : KV) (l : KV) (fa : FibAlias),
      bci ≤ b0 →
      (∀ j cv, j < b0 → get_child n j = some cv → ¬candIn pe flp il key cv l fa) →
      bt_cand pe flp il key bctx (some n) bci l fa →
      bt_cand pe flp il key bctx (some n) 0 l fa := by
  intro bci
  induction bci using Nat.strong_induction_on with
  | _ bci ih =>
    intro bctx n l fa hb hno h
    by_cases h0 : bci = 0
    · rwa [h0] at h
    · rw [bt_cand_pos pe flp il key bctx n bci l fa h0] at h
      rcases h with ⟨cv, hg, hc⟩ | h
      · exact absurd hc (hno _ cv (by have := strip_lt h0; omega) hg)
      · exact ih (bci &&& (bci - 1)) (strip_lt h0) bctx n l fa
          (by have := strip_lt h0; omega) hno h

/-- A bookmark's reachable candidates split into its own strip chain and the
chain of the levels above. -/
theorem bt_cand_split (pe : Nat → Int) (flp : Flowi4) (il : Bool) (key : Nat) :
    ∀ (bci : Nat) (bctx : List Frame) (n : KV) (l : KV) (fa : FibAlias),
      bt_cand pe flp il key bctx (some n) bci l fa ↔
        (bt_cand pe flp il key [] (some n) bci l fa ∨
          bt_cand pe flp il key bctx (some n) 0 l fa) := by
  intro bci
  induction bci using Nat.strong_induction_on with
  | _ bci ih =>
    intro bctx n l fa
    by_cases h0 : bci = 0
    · rw [h0]
      constructor
      · exact Or.inr
      · rintro (h | h)
        · exact absurd h (bt_cand_zero_nil pe flp il key n l fa)
        · exact h
    · rw [bt_cand_pos pe flp il key bctx n bci l fa h0,
        bt_cand_pos pe flp il key [] n bci l fa h0,
        ih (bci &&& (bci - 1)) (strip_lt h0) bctx n l fa,
        ih (bci &&& (bci - 1)) (strip_lt h0) [] n l fa]
      have hnil := bt_cand_zero_nil pe flp il key n l fa
      constructor
      · rintro (⟨cv, hg, hc⟩ | ((h | h) | h))
        · exact Or.inl (Or.inl ⟨cv, hg, hc⟩)
        · exact Or.inl (Or.inr (Or.inl h))
        · exact absurd h hnil
        · exact Or.inr h
      · rintro ((⟨cv, hg, hc⟩ | (h | h)) | h)
        · exact Or.inl ⟨cv, hg, hc⟩
        · exact Or.inr (Or.inl (Or.inl h))
        · exact absurd h hnil
        · exact Or.inr (Or.inr h)

theorem candIn_leaf (pe : Nat → Int) (flp : Flowi4) (il : Bool) (key : Nat)
    (k s : Nat) (fas : List FibAlias) (l : KV) (fa : FibAlias) :
    candIn pe flp il key (KV.leaf k s fas) l fa ↔
      (l = KV.leaf k s fas ∧ cand pe flp il key l fa) := by
  rw [candIn, leaf_yesdes]
  simp

/-- The step-1 descent decomposition: the usable routes beneath an in-range
yesde are those beneath the key's own child plus those the strip chain over
the yesde reaches. -/
theorem cand_decomp (pe : Nat → Int) (flp : Flowi4) (il : Bool) (key : Nat)
    (k p b s : Nat) (ch : List (Option KV))
    (hinv : trie_inv (KV.tyesde k p b s ch))
    (hgc : (key ^^^ k) >>> p < 2 ^ b) (l : KV) (fa : FibAlias) :
    candIn pe flp il key (KV.tyesde k p b s ch) l fa ↔
      ((∃ c, ch.getD ((key ^^^ k) >>> p) none = some c ∧
          candIn pe flp il key c l fa) ∨
        bt_cand pe flp il key [] (some (KV.tyesde k p b s ch))
          ((key ^^^ k) >>> p) l fa) := by
  obtain ⟨hwf, hal, hfs, hsg⟩ := hinv
  constructor
  · intro hc
    have hslot := cand_slot pe flp il key k p b s ch hwf hal l fa hc hgc
    rcases mem_slot k p b s ch hwf l hc.1 with ⟨cv, hval, hmem⟩
    by_cases hje : (KV.key l ^^^ k) >>> p = (key ^^^ k) >>> p
    · rw [hje] at hval
      exact Or.inl ⟨cv, hval, hmem, hc.2⟩
    · right
      have hlt : (KV.key l ^^^ k) >>> p < (key ^^^ k) >>> p := by
        have := kclear_le ((key ^^^ k) >>> p) (fa.fa_slen - p)
        omega
      apply bt_cand_of_strip pe flp il key ((key ^^^ k) >>> p) ((key ^^^ k) >>> p) 0
        (kclear_zero _).symm (fa.fa_slen - p) [] _ l fa ((KV.key l ^^^ k) >>> p) cv
        hslot.2 hlt ?_ ⟨hmem, hc.2⟩
      show (KV.children (KV.tyesde k p b s ch)).getD ((KV.key l ^^^ k) >>> p) none = some cv
      rw [KV.children]
      exact hval
  · rintro (⟨c, hval, hc⟩ | hbt)
    · exact ⟨leaf_yesdes_child k p b s ch _ c hval l hc.1, hc.2⟩
    · exact bt_cand_sub pe flp il key _ _ l fa hbt

/-- Beneath a yesde whose suffixes do yest reach below its pos, every usable
route lies under the key's own child slot. -/
theorem cand_low_slot (pe : Nat → Int) (flp : Flowi4) (il : Bool) (key : Nat)
    (k p b s : Nat) (ch : List (Option KV))
    (hinv : trie_inv (KV.tyesde k p b s ch))
    (hgc : (key ^^^ k) >>> p < 2 ^ b) (hslow : s ≤ p) (l : KV) (fa : FibAlias)
    (hc : candIn pe flp il key (KV.tyesde k p b s ch) l fa) :
    ∃ c, ch.getD ((key ^^^ k) >>> p) none = some c ∧
      candIn pe flp il key c l fa ∧ (KV.key l ^^^ k) >>> p = (key ^^^ k) >>> p := by
  obtain ⟨hwf, hal, hfs, hsg⟩ := hinv
  have hsb := slen_ge_bound (sizeOf (KV.tyesde k p b s ch)) _ (le_refl _) hsg l hc.1
    fa hc.2.2.1
  rw [show KV.slen (KV.tyesde k p b s ch) = s from rfl] at hsb
  have hslot := cand_slot pe flp il key k p b s ch hwf hal l fa hc hgc
  have hzero : fa.fa_slen - p = 0 := by omega
  rw [hzero, kclear_zero] at hslot
  rcases mem_slot k p b s ch hwf l hc.1 with ⟨cv, hval, hmem⟩
  rw [hslot.2] at hval
  exact ⟨cv, hval, ⟨hmem, hc.2⟩, hslot.2⟩

theorem res_spec_congr {pe : Nat → Int} {flp : Flowi4} {il : Bool} {key : Nat}
    {r : Int × Option FibResult} {C C2 : KV → FibAlias → Prop}
    (h : res_spec pe flp il key r C) (hiff : ∀ l fa, C l fa ↔ C2 l fa) :
    res_spec pe flp il key r C2 := by
  rcases h with ⟨hr, hn⟩ | ⟨l, fa, hc, hv, hmin, htie⟩
  · exact Or.inl ⟨hr, fun l fa hc2 => hn l fa ((hiff l fa).mpr hc2)⟩
  · exact Or.inr ⟨l, fa, (hiff l fa).mp hc, hv,
      fun l2 fa2 hc2 => hmin l2 fa2 ((hiff l2 fa2).mpr hc2), htie⟩

/-- The alias scan of fib_table_lookup: on a sorted alias list it returns the
semantic result of the first covering, accepted alias — which therefore has
minimal suffix length among all covering accepted aliases and precedes every
other one in fib_insert_alias order — and returns yesne when yes alias is
both covering and accepted. -/
theorem leaf_scan_spec (pe : Nat → Int) (flp : Flowi4) (il : Bool)
    (lkey index : Nat) :
    ∀ fas : List FibAlias, List.Pairwise fa_ord fas →
      (leaf_scan pe flp il lkey index fas = none →
        ∀ fa ∈ fas, ¬(index < 2 ^ fa.fa_slen ∧
          fib_alias_sem pe flp il lkey fa ≠ none)) ∧
      (∀ r, leaf_scan pe flp il lkey index fas = some r →
        ∃ fa, fa ∈ fas ∧ index < 2 ^ fa.fa_slen ∧
          fib_alias_sem pe flp il lkey fa = some r ∧
          ∀ fa2 ∈ fas, index < 2 ^ fa2.fa_slen →
            fib_alias_sem pe flp il lkey fa2 ≠ none →
            fa.fa_slen ≤ fa2.fa_slen ∧ (fa2 = fa ∨ fa_ord fa fa2)) := by
  intro fas
  induction fas with
  | nil =>
      intro _
      constructor
      · intro _ fa hfa
        simp at hfa
      · intro r hr
        rw [leaf_scan] at hr
        simp at hr
  | cons fa0 rest ih =>
      intro hp
      rw [List.pairwise_cons] at hp
      obtain ⟨hord, hp2⟩ := hp
      have ihr := ih hp2
      constructor
      · intro hnone fa hfa
        rw [leaf_scan] at hnone
        by_cases hskip : index ≥ 2 ^ fa0.fa_slen
        · rw [if_pos hskip] at hnone
          rcases List.mem_cons.mp hfa with rfl | hfa2
          · rintro ⟨hidx, _⟩
            omega
          · exact ihr.1 hnone fa hfa2
        · rw [if_neg hskip] at hnone
          cases hsem : fib_alias_sem pe flp il lkey fa0 with
          | some r0 =>
              rw [hsem] at hnone
              simp at hnone
          | none =>
              rw [hsem] at hnone
              simp at hnone
              rcases List.mem_cons.mp hfa with rfl | hfa2
              · rintro ⟨hidx, hs⟩
                exact hs hsem
              · exact ihr.1 hnone fa hfa2
      · intro r hr
        rw [leaf_scan] at hr
        by_cases hskip : index ≥ 2 ^ fa0.fa_slen
        · rw [if_pos hskip] at hr
          obtain ⟨fa, hfa, hidx, hsem, hmin⟩ := ihr.2 r hr
          refine ⟨fa, List.mem_cons_of_mem _ hfa, hidx, hsem, ?_⟩
          intro fa2 hfa2 hidx2 hs2
          rcases List.mem_cons.mp hfa2 with rfl | hfa2r
          · omega
          · exact hmin fa2 hfa2r hidx2 hs2
        · rw [if_neg hskip] at hr
          cases hsem0 : fib_alias_sem pe flp il lkey fa0 with
          | some r0 =>
              rw [hsem0] at hr
              simp at hr
              refine ⟨fa0, List.mem_cons_self _ _, by omega, by rw [hsem0, hr], ?_⟩
              intro fa2 hfa2 hidx2 hs2
              rcases List.mem_cons.mp hfa2 with rfl | hfa2r
              · exact ⟨le_refl _, Or.inl rfl⟩
              · refine ⟨?_, Or.inr (hord fa2 hfa2r)⟩
                have ho := hord fa2 hfa2r
                rw [fa_ord] at ho
                rcases ho with h | h
                · omega
                · omega
          | none =>
              rw [hsem0] at hr
              simp at hr
              obtain ⟨fa, hfa, hidx, hsem, hmin⟩ := ihr.2 r hr
              refine ⟨fa, List.mem_cons_of_mem _ hfa, hidx, hsem, ?_⟩
              intro fa2 hfa2 hidx2 hs2
              rcases List.mem_cons.mp hfa2 with rfl | hfa2r
              · exact absurd hsem0 hs2
              · exact hmin fa2 hfa2r hidx2 hs2

/-- Separation: every route a valid bookmark can still reach is strictly less
specific than any usable route beneath the position the bookmark describes. -/
theorem bt_sep (pe : Nat → Int) (flp : Flowi4) (il : Bool) (key : Nat)
    (root : Option KV) (hroot : trie_inv_opt root) (l : KV) (fa : FibAlias)
    (hcand : cand pe flp il key l fa) :
    ∀ (bctx : List Frame) (bn : Option KV) (bci : Nat) (l2 : KV) (fa2 : FibAlias),
      ∀ p, bn = some p →
        ctx_ok bctx (some p) root → key_frames key bctx →
        get_cindex key p < 2 ^ KV.bits p →
        (∃ w, bci = kclear (get_cindex key p) w) →
        l ∈ leaf_yesdes p →
        bci ≤ (KV.key l ^^^ KV.key p) >>> KV.pos p →
        bt_cand pe flp il key bctx bn bci l2 fa2 →
        fa.fa_slen < fa2.fa_slen := by
  intro bctx bn bci l2 fa2
  induction bctx, bn, bci, l2, fa2 using bt_cand.induct pe flp il key with
  | case1 bctx l2 fa2 =>
      intro p hp
      exact absurd hp (by simp)
  | case2 l2 fa2 val =>
      intro p hp _ _ _ _ _ _ hbt
      exact absurd hbt (bt_cand_zero_nil pe flp il key val l2 fa2)
  | case3 l2 fa2 q f rest ih =>
      intro p hp hctx hkf hci hform hl hslot hbt
      have hq : q = p := by injection hp
      subst hq
      rw [ctx_ok] at hctx
      obtain ⟨hidx, hctx2⟩ := hctx
      rw [key_frames] at hkf
      obtain ⟨hkidx, hkrange, hkf2⟩ := hkf
      have hfill : Frame.fill f (some q) =
          KV.tyesde f.key f.pos f.bits f.slen (f.children.set f.idx (some q)) := rfl
      have hcia : get_cindex key (Frame.fill f (some q)) < 2 ^ KV.bits (Frame.fill f (some q)) := by
        rw [hfill]
        show (key ^^^ f.key) >>> f.pos < 2 ^ f.bits
        exact hkrange
      have hforma : ∃ w, f.idx = kclear (get_cindex key (Frame.fill f (some q))) w := by
        refine ⟨0, ?_⟩
        rw [kclear_zero, hfill]
        exact hkidx
      have hla : l ∈ leaf_yesdes (Frame.fill f (some q)) := by
        rw [hfill]
        exact leaf_yesdes_child f.key f.pos f.bits f.slen _ f.idx q
          (getD_set_self f.children f.idx (some q) hidx) l hl
      have hwfa : wf (Frame.fill f (some q)) :=
        (inv_of_ctx_ok rest (Frame.fill f (some q)) root hctx2 hroot).1
      have hslota : f.idx ≤ (KV.key l ^^^ KV.key (Frame.fill f (some q))) >>>
          KV.pos (Frame.fill f (some q)) := by
        rw [hfill]
        show f.idx ≤ (KV.key l ^^^ f.key) >>> f.pos
        have := slot_of_under f.key f.pos f.bits f.slen (f.children.set f.idx (some q))
          (by rw [← hfill]; exact hwfa) f.idx q (by rw [← hkidx] at hkrange; exact hkrange)
          (getD_set_self f.children f.idx (some q) hidx) l hl
        omega
      exact ih (Frame.fill f (some q)) rfl hctx2 hkf2 hcia hforma hla hslota
        ((bt_cand_zero_cons pe flp il key f rest q l2 fa2).mp hbt)
  | case4 bctx bci l2 fa2 h0 =>
      intro p hp
      exact absurd hp (by simp)
  | case5 bctx bci l2 fa2 h0 n ih =>
      intro p hp hctx hkf hci hform hl hslot hbt
      have hn : n = p := by injection hp
      subst hn
      rw [bt_cand_pos pe flp il key bctx n bci l2 fa2 h0] at hbt
      obtain ⟨w, hw⟩ := hform
      have hble : bci ≤ get_cindex key n := by
        rw [hw]
        exact kclear_le _ _
      rcases hbt with ⟨cv, hg, hcIn⟩ | hbt
      · cases n with
        | leaf k s fas => simp [get_child, KV.children, List.getD] at hg
        | tyesde k pp bb ss ch =>
            have hinv := inv_of_ctx_ok bctx _ root hctx hroot
            have hcig : (key ^^^ k) >>> pp < 2 ^ bb := hci
            have hg2 : ch.getD (bci &&& (bci - 1)) none = some cv := hg
            have hb2 : bci &&& (bci - 1) < 2 ^ bb := by
              have h1 := strip_lt h0
              have h2 : get_cindex key (KV.tyesde k pp bb ss ch) =
                (key ^^^ k) >>> pp := rfl
              rw [h2] at hble
              omega
            have hcl : candIn pe flp il key (KV.tyesde k pp bb ss ch) l fa := ⟨hl, hcand⟩
            have hcl2 : candIn pe flp il key (KV.tyesde k pp bb ss ch) l2 fa2 :=
              ⟨leaf_yesdes_child k pp bb ss ch _ cv hg2 l2 hcIn.1, hcIn.2⟩
            have hs1 := cand_slot pe flp il key k pp bb ss ch hinv.1 hinv.2.1 l fa hcl hcig
            have hs2 := cand_slot pe flp il key k pp bb ss ch hinv.1 hinv.2.1 l2 fa2 hcl2 hcig
            have hsl2 : (KV.key l2 ^^^ k) >>> pp = bci &&& (bci - 1) :=
              slot_of_under k pp bb ss ch hinv.1 _ cv hb2 hg2 l2 hcIn.1
            have hlt : kclear ((key ^^^ k) >>> pp) (fa2.fa_slen - pp) <
                kclear ((key ^^^ k) >>> pp) (fa.fa_slen - pp) := by
              rw [← hs1.2, ← hs2.2, hsl2]
              have h1 := strip_lt h0
              have h2 : bci ≤ (KV.key l ^^^ k) >>> pp := hslot
              omega
            have hcmp : ¬ (fa2.fa_slen - pp ≤ fa.fa_slen - pp) := by
              intro hc
              have := kclear_anti ((key ^^^ k) >>> pp) hc
              omega
            omega
      · obtain ⟨w1, hw1, heq⟩ := strip_kclear_form (get_cindex key n) w
          (by rw [← hw]; omega)
        rw [← hw] at heq
        have h1 := strip_lt h0
        exact ih n rfl hctx hkf hci ⟨w1, heq⟩ hl (by omega) hbt

/-- A failed backtrace means the bookmark had yes usable routes left. -/
theorem backtrace_none_cand (pe : Nat → Int) (flp : Flowi4) (il : Bool) (key : Nat) :
    ∀ (bctx : List Frame) (bn : Option KV) (bci : Nat),
      backtrace bctx bn bci = none →
      ∀ l fa, ¬ bt_cand pe flp il key bctx bn bci l fa := by
  intro bctx bn bci
  induction bctx, bn, bci using backtrace.induct with
  | case1 bctx =>
      intro _ l fa
      exact bt_cand_none pe flp il key bctx 0 l fa
  | case2 val =>
      intro _ l fa
      exact bt_cand_zero_nil pe flp il key val l fa
  | case3 p f rest ih =>
      intro hb l fa hbt
      rw [backtrace.eq_def] at hb
      simp only [if_pos rfl] at hb
      rw [bt_cand_zero_cons pe flp il key f rest p l fa] at hbt
      exact ih hb l fa hbt
  | case4 bctx bci h =>
      intro _ l fa
      exact bt_cand_none pe flp il key bctx bci l fa
  | case5 bctx bci h bci2x n hg ih =>
      intro hb l fa hbt
      rw [backtrace.eq_def] at hb
      simp only [if_neg h] at hb
      rw [hg] at hb
      rw [bt_cand_pos pe flp il key bctx n bci l fa h] at hbt
      rcases hbt with ⟨cv, hgc, _⟩ | hbt
      · rw [hg] at hgc
        simp at hgc
      · exact ih hb l fa hbt
  | case6 bctx bci h bci2x n n1 hg =>
      intro hb
      rw [backtrace.eq_def] at hb
      simp only [if_neg h] at hb
      rw [hg] at hb
      simp at hb

/-- A successful backtrace splits the bookmark's remaining routes into those
beneath the yesde it returns and those of the updated bookmark. -/
theorem backtrace_some_cand (pe : Nat → Int) (flp : Flowi4) (il : Bool) (key : Nat) :
    ∀ (bctx : List Frame) (bn : Option KV) (bci : Nat) (c : KV)
      (bctx2 : List Frame) (bn2 : Option KV) (bci2 : Nat),
      backtrace bctx bn bci = some (c, bctx2, bn2, bci2) →
      ∀ l fa, bt_cand pe flp il key bctx bn bci l fa ↔
        (candIn pe flp il key c l fa ∨ bt_cand pe flp il key bctx2 bn2 bci2 l fa) := by
  intro bctx bn bci
  induction bctx, bn, bci using backtrace.induct with
  | case1 bctx =>
      intro c bctx2 bn2 bci2 hb
      rw [backtrace.eq_def] at hb
      simp at hb
  | case2 val =>
      intro c bctx2 bn2 bci2 hb
      rw [backtrace.eq_def] at hb
      simp at hb
  | case3 p f rest ih =>
      intro c bctx2 bn2 bci2 hb l fa
      rw [backtrace.eq_def] at hb
      simp only [if_pos rfl] at hb
      rw [bt_cand_zero_cons pe flp il key f rest p l fa]
      exact ih c bctx2 bn2 bci2 hb l fa
  | case4 bctx bci h =>
      intro c bctx2 bn2 bci2 hb
      rw [backtrace.eq_def] at hb
      simp [h] at hb
  | case5 bctx bci h bci2x n hg ih =>
      intro c bctx2 bn2 bci2 hb l fa
      rw [backtrace.eq_def] at hb
      simp only [if_neg h] at hb
      rw [hg] at hb
      rw [bt_cand_pos pe flp il key bctx n bci l fa h]
      rw [← ih c bctx2 bn2 bci2 hb l fa]
      constructor
      · rintro (⟨cv, hgc, _⟩ | hbt)
        · rw [hg] at hgc
          simp at hgc
        · exact hbt
      · exact Or.inr
  | case6 bctx bci h bci2x n n1 hg =>
      intro c bctx2 bn2 bci2 hb l fa
      rw [backtrace.eq_def] at hb
      simp only [if_neg h] at hb
      rw [hg] at hb
      simp at hb
      obtain ⟨rfl, rfl, rfl, rfl⟩ := hb
      rw [bt_cand_pos pe flp il key bctx n bci l fa h]
      constructor
      · rintro (⟨cv, hgc, hc⟩ | hbt)
        · obtain rfl : n1 = cv := Option.some.inj (hg.symm.trans hgc)
          exact Or.inl hc
        · exact Or.inr hbt
      · rintro (hc | hbt)
        · exact Or.inl ⟨n1, hg, hc⟩
        · exact Or.inr hbt

/-- A successful backtrace from a valid bookmark yields a valid bookmark, and
returns an off-path child of the yesde the new bookmark points at. -/
theorem backtrace_bm (key : Nat) (root : Option KV) :
    ∀ (bctx : List Frame) (bn : Option KV) (bci : Nat),
      bm_ok key root bctx bn bci → trie_inv_opt root →
      ∀ c bctx2 bn2 bci2, backtrace bctx bn bci = some (c, bctx2, bn2, bci2) →
        ∃ p2, bn2 = some p2 ∧ bm_ok key root bctx2 bn2 bci2 ∧
          get_child p2 bci2 = some c ∧ bci2 < get_cindex key p2 := by
  intro bctx bn bci
  induction bctx, bn, bci using backtrace.induct with
  | case1 bctx =>
      intro _ _ c bctx2 bn2 bci2 hb
      rw [backtrace.eq_def] at hb
      simp at hb
  | case2 val =>
      intro _ _ c bctx2 bn2 bci2 hb
      rw [backtrace.eq_def] at hb
      simp at hb
  | case3 p f rest ih =>
      intro hbm hroot c bctx2 bn2 bci2 hb
      rw [backtrace.eq_def] at hb
      simp only [if_pos rfl] at hb
      rw [bm_ok] at hbm
      obtain ⟨hctx, hkf, hci, hform⟩ := hbm
      rw [ctx_ok] at hctx
      obtain ⟨hidx, hctx2⟩ := hctx
      rw [key_frames] at hkf
      obtain ⟨hkidx, hkrange, hkf2⟩ := hkf
      have hbm2 : bm_ok key root rest (some (Frame.fill f (some p))) f.idx := by
        rw [bm_ok]
        refine ⟨hctx2, hkf2, ?_, ⟨0, ?_⟩⟩
        · show (key ^^^ f.key) >>> f.pos < 2 ^ f.bits
          exact hkrange
        · show f.idx = kclear (get_cindex key (Frame.fill f (some p))) 0
          rw [kclear_zero]
          exact hkidx
      exact ih hbm2 hroot c bctx2 bn2 bci2 hb
  | case4 bctx bci h =>
      intro hbm _ c bctx2 bn2 bci2 hb
      rw [bm_ok] at hbm
      exact absurd hbm.2 h
  | case5 bctx bci h bci2x n hg ih =>
      intro hbm hroot c bctx2 bn2 bci2 hb
      rw [backtrace.eq_def] at hb
      simp only [if_neg h] at hb
      rw [hg] at hb
      rw [bm_ok] at hbm
      obtain ⟨hctx, hkf, hci, ⟨w, hw⟩⟩ := hbm
      have hwk : bci = kclear (get_cindex key n) w := hw
      obtain ⟨w1, hw1, heq⟩ := strip_kclear_form (get_cindex key n) w
        (by rw [← hwk]; omega)
      rw [← hwk] at heq
      have hbm2 : bm_ok key root bctx (some n) (bci &&& (bci - 1)) := by
        rw [bm_ok]
        exact ⟨hctx, hkf, hci, ⟨w1, heq⟩⟩
      exact ih hbm2 hroot c bctx2 bn2 bci2 hb
  | case6 bctx bci h bci2x n n1 hg =>
      intro hbm hroot c bctx2 bn2 bci2 hb
      rw [backtrace.eq_def] at hb
      simp only [if_neg h] at hb
      rw [hg] at hb
      simp at hb
      obtain ⟨rfl, rfl, rfl, rfl⟩ := hb
      rw [bm_ok] at hbm
      obtain ⟨hctx, hkf, hci, ⟨w, hw⟩⟩ := hbm
      have hwk : bci = kclear (get_cindex key n) w := hw
      obtain ⟨w1, hw1, heq⟩ := strip_kclear_form (get_cindex key n) w
        (by rw [← hwk]; omega)
      rw [← hwk] at heq
      refine ⟨n, rfl, ?_, hg, ?_⟩
      · rw [bm_ok]
        exact ⟨hctx, hkf, hci, ⟨w1, heq⟩⟩
      · have h1 := strip_lt h
        have h2 : bci ≤ get_cindex key n := by
          rw [hwk]
          exact kclear_le _ _
        omega

/-- After a successful backtrace the returned yesde satisfies the loop's
invariants: it is structurally sound, the key lies outside its range, the
bookmark stays valid, and its routes separate from the bookmark's. -/
theorem pop_state (pe : Nat → Int) (flp : Flowi4) (il : Bool) (key : Nat)
    (root : Option KV) (hroot : trie_inv_opt root)
    (bctx : List Frame) (bn : Option KV) (bci : Nat)
    (hbm : bm_ok key root bctx bn bci)
    (c : KV) (bctx2 : List Frame) (bn2 : Option KV) (bci2 : Nat)
    (hb : backtrace bctx bn bci = some (c, bctx2, bn2, bci2)) :
    trie_inv c ∧ 2 ^ (KV.pos c + KV.bits c) ≤ key ^^^ KV.key c ∧
    bm_ok key root bctx2 bn2 bci2 ∧
    (∀ l fa, candIn pe flp il key c l fa →
      ∀ l2 fa2, bt_cand pe flp il key bctx2 bn2 bci2 l2 fa2 →
        fa.fa_slen < fa2.fa_slen) := by
  obtain ⟨p2, hp2, hbm2, hgc, hlt⟩ :=
    backtrace_bm key root bctx bn bci hbm hroot c bctx2 bn2 bci2 hb
  subst hp2
  rw [bm_ok] at hbm2
  obtain ⟨hctx2, hkf2, hci2, ⟨w, hw⟩⟩ := hbm2
  have hwk : bci2 = kclear (get_cindex key p2) w := hw
  have hinvp := inv_of_ctx_ok bctx2 p2 root hctx2 hroot
  cases p2 with
  | leaf k s fas => simp [get_child, KV.children, List.getD] at hgc
  | tyesde k pp bb ss ch =>
      have hgc2 : ch.getD bci2 none = some c := hgc
      have hinvc : trie_inv c := inv_child k pp bb ss ch bci2 c hgc2 hinvp
      have hwfp := hinvp.1
      rw [wf] at hwfp
      obtain ⟨hb1, hpb, hlen, hklt, hka, hch⟩ := hwfp
      have hci2x : (key ^^^ k) >>> pp < 2 ^ bb := hci2
      have hltx : bci2 < (key ^^^ k) >>> pp := hlt
      have hb2 : bci2 < 2 ^ bb := by omega
      obtain ⟨hwfc, hcpb, hslot⟩ := hch bci2 hb2 c hgc2
      refine ⟨hinvc, ?_, ⟨hctx2, hkf2, hci2, ⟨w, hw⟩⟩, ?_⟩
      · have hxr : (key ^^^ KV.key c) >>> pp = ((key ^^^ k) >>> pp) ^^^ bci2 := by
          rw [xor_triangle key k (KV.key c), shiftRight_xor_distrib,
            Nat.xor_comm k (KV.key c), hslot]
        have hne : ((key ^^^ k) >>> pp) ^^^ bci2 ≠ 0 := by
          intro h0
          have := Nat.xor_eq_zero.mp h0
          omega
        have hge : 2 ^ pp ≤ key ^^^ KV.key c := by
          by_contra hcl
          push_neg at hcl
          have h0 : (key ^^^ KV.key c) >>> pp = 0 :=
            (shiftRight_eq_zero_iff_lt _ _).mpr hcl
          rw [hxr] at h0
          exact hne h0
        calc 2 ^ (KV.pos c + KV.bits c) ≤ 2 ^ pp :=
              Nat.pow_le_pow_right (by omega) hcpb
          _ ≤ key ^^^ KV.key c := hge
      · intro l fa hcIn l2 fa2 hbt
        apply bt_sep pe flp il key root hroot l fa hcIn.2 bctx2
          (some (KV.tyesde k pp bb ss ch)) bci2 l2 fa2 _ rfl hctx2 hkf2 hci2
          ⟨w, hwk⟩ ?_ ?_ hbt
        · exact leaf_yesdes_child k pp bb ss ch bci2 c hgc2 l hcIn.1
        · have := slot_of_under k pp bb ss ch hinvp.1 bci2 c hb2 hgc2 l hcIn.1
          show bci2 ≤ (KV.key l ^^^ k) >>> pp
          omega


/-- Resuming via a successful backtrace preserves the result contract when
the abandoned yesde held yes usable route. -/
theorem pop_transport (pe : Nat → Int) (flp : Flowi4) (il : Bool) (key : Nat)
    {bctx : List Frame} {bn : Option KV} {bci : Nat} {c : KV}
    {bctx2 : List Frame} {bn2 : Option KV} {bci2 : Nat} {n : KV}
    {r : Int × Option FibResult}
    (hb : backtrace bctx bn bci = some (c, bctx2, bn2, bci2))
    (hnc : ∀ l fa, ¬candIn pe flp il key n l fa)
    (hres : res_spec pe flp il key r
      (fun l fa => candIn pe flp il key c l fa ∨
        bt_cand pe flp il key bctx2 bn2 bci2 l fa)) :
    res_spec pe flp il key r
      (fun l fa => candIn pe flp il key n l fa ∨
        bt_cand pe flp il key bctx bn bci l fa) := by
  apply res_spec_congr hres
  intro l fa
  have hbc := backtrace_some_cand pe flp il key bctx bn bci c bctx2 bn2 bci2 hb l fa
  constructor
  · intro h
    exact Or.inr (hbc.mpr h)
  · rintro (h | h)
    · exact absurd h (hnc l fa)
    · exact hbc.mp h

/-- A failed backtrace from a yesde with yes usable route realises the
yes-route branch of the contract. -/
theorem none_transport (pe : Nat → Int) (flp : Flowi4) (il : Bool) (key : Nat)
    {bctx : List Frame} {bn : Option KV} {bci : Nat} {n : KV}
    (hb : backtrace bctx bn bci = none)
    (hnc : ∀ l fa, ¬candIn pe flp il key n l fa) :
    res_spec pe flp il key (-EAGAIN, none)
      (fun l fa => candIn pe flp il key n l fa ∨
        bt_cand pe flp il key bctx bn bci l fa) := by
  left
  refine ⟨rfl, ?_⟩
  rintro l fa (hc | hbt)
  · exact hnc l fa hc
  · exact backtrace_none_cand pe flp il key bctx bn bci hb l fa hbt

/-- A successful alias scan at a leaf realises the found branch of the
contract: the winning alias covers the key, has minimal suffix length among
all reachable routes and is first in fib_insert_alias order at its leaf. -/
theorem leaf_found_spec (pe : Nat → Int) (flp : Flowi4) (il : Bool) (key : Nat)
    (k s : Nat) (fas : List FibAlias)
    (hinv : trie_inv (KV.leaf k s fas))
    {bctx : List Frame} {bn : Option KV} {bci : Nat} (r : Int × Option FibResult)
    (hsc : leaf_scan pe flp il k (key ^^^ k) fas = some r)
    (hsep : ∀ l fa, candIn pe flp il key (KV.leaf k s fas) l fa →
      ∀ l2 fa2, bt_cand pe flp il key bctx bn bci l2 fa2 →
        fa.fa_slen < fa2.fa_slen) :
    res_spec pe flp il key r
      (fun l fa => candIn pe flp il key (KV.leaf k s fas) l fa ∨
        bt_cand pe flp il key bctx bn bci l fa) := by
  have hp : List.Pairwise fa_ord fas :=
    hinv.2.2.1 (KV.leaf k s fas) (by rw [leaf_yesdes]; simp)
  obtain ⟨fa, hfa, hidx, hsem, hmin⟩ :=
    (leaf_scan_spec pe flp il k (key ^^^ k) fas hp).2 r hsc
  have hcself : candIn pe flp il key (KV.leaf k s fas) (KV.leaf k s fas) fa := by
    refine ⟨by rw [leaf_yesdes]; simp, rfl, hfa, hidx, ?_⟩
    rw [show KV.key (KV.leaf k s fas) = k from rfl, hsem]
    simp
  right
  refine ⟨KV.leaf k s fas, fa, Or.inl hcself, hsem, ?_, ?_⟩
  · rintro l2 fa2 (hc2 | hbt2)
    · obtain ⟨hl2, hcand2⟩ := (candIn_leaf pe flp il key k s fas l2 fa2).mp hc2
      subst hl2
      exact (hmin fa2 hcand2.2.1 hcand2.2.2.1 hcand2.2.2.2).1
    · exact le_of_lt (hsep _ fa hcself l2 fa2 hbt2)
  · intro fa2 hfa2 hcand2
    exact (hmin fa2 hfa2 hcand2.2.2.1 hcand2.2.2.2).2

/-- Step 2 correctness: with valid invariants, the loop realises the
longest-prefix-match contract over the routes beneath the current yesde plus
those the bookmark can still reach. -/
theorem lookup_loop_spec (pe : Nat → Int) (flp : Flowi4) (il : Bool) (key : Nat)
    (root : Option KV) (hroot : trie_inv_opt root) :
    ∀ (n : KV) (bctx : List Frame) (bn : Option KV) (bci : Nat),
      trie_inv n →
      2 ^ (KV.pos n + KV.bits n) ≤ key ^^^ KV.key n →
      bm_ok key root bctx bn bci →
      (∀ l fa, candIn pe flp il key n l fa →
        ∀ l2 fa2, bt_cand pe flp il key bctx bn bci l2 fa2 →
          fa.fa_slen < fa2.fa_slen) →
      res_spec pe flp il key (lookup_loop pe flp il key n bctx bn bci)
        (fun l fa => candIn pe flp il key n l fa ∨
          bt_cand pe flp il key bctx bn bci l fa) := by
  intro n bctx bn bci
  induction n, bctx, bn, bci using lookup_loop.induct pe flp il key with
  | case1 n bctx bn bci hpr hb =>
      intro hinv hfar hbm hsep
      have hnc : ∀ l fa, ¬candIn pe flp il key n l fa := by
        intro l fa hc
        rcases hpr with hmis | hsp
        · exact hmis (cand_mismatch pe flp il key n l fa hinv.1 hinv.2.1 hc)
        · exact cand_slen_prune pe flp il key n l fa hinv.1 hinv.2.1 hinv.2.2.2
            hfar hsp hc
      rw [lookup_loop.eq_def]
      dsimp only
      rw [if_pos hpr]
      split
      · exact none_transport pe flp il key hb hnc
      · rename_i c2 bctx2 bn2 bci2 heq
        rw [hb] at heq
        simp at heq
  | case2 n bctx bn bci hpr c bctx2 bn2 bci2 hb ih =>
      intro hinv hfar hbm hsep
      have hnc : ∀ l fa, ¬candIn pe flp il key n l fa := by
        intro l fa hc
        rcases hpr with hmis | hsp
        · exact hmis (cand_mismatch pe flp il key n l fa hinv.1 hinv.2.1 hc)
        · exact cand_slen_prune pe flp il key n l fa hinv.1 hinv.2.1 hinv.2.2.2
            hfar hsp hc
      obtain ⟨hinvc, hfarc, hbm2, hsep2⟩ :=
        pop_state pe flp il key root hroot bctx bn bci hbm c bctx2 bn2 bci2 hb
      have hres := ih hinvc hfarc hbm2 hsep2
      rw [lookup_loop.eq_def]
      dsimp only
      rw [if_pos hpr]
      split
      · rename_i heq
        rw [hb] at heq
        simp at heq
      · rename_i c2 bctx2x bn2x bci2x heq
        rw [hb] at heq
        simp only [Option.some.injEq, Prod.mk.injEq] at heq
        obtain ⟨rfl, rfl, rfl, rfl⟩ := heq
        exact pop_transport pe flp il key hb hnc hres
  | case3 n bctx bn bci hpr hlf r hsc =>
      intro hinv hfar hbm hsep
      cases n with
      | tyesde k pp bb ss ch =>
          exfalso
          have hb1 : 1 ≤ bb := by
            have hw := hinv.1
            rw [wf] at hw
            exact hw.1
          simp [IS_LEAF, KV.bits] at hlf
          omega
      | leaf k s fas =>
          rw [lookup_loop.eq_def]
          dsimp only
          rw [if_neg hpr, if_pos hlf]
          split
          · rename_i r2 heq
            rw [hsc] at heq
            obtain rfl : r = r2 := Option.some.inj heq
            exact leaf_found_spec pe flp il key k s fas hinv r hsc hsep
          · rename_i heq
            rw [hsc] at heq
            simp at heq
  | case4 n bctx bn bci hpr hlf hsc hb =>
      intro hinv hfar hbm hsep
      cases n with
      | tyesde k pp bb ss ch =>
          exfalso
          have hb1 : 1 ≤ bb := by
            have hw := hinv.1
            rw [wf] at hw
            exact hw.1
          simp [IS_LEAF, KV.bits] at hlf
          omega
      | leaf k s fas =>
          have hp : List.Pairwise fa_ord fas :=
            hinv.2.2.1 (KV.leaf k s fas) (by rw [leaf_yesdes]; simp)
          have hnc : ∀ l fa, ¬candIn pe flp il key (KV.leaf k s fas) l fa := by
            intro l fa hc
            obtain ⟨hl, hcand⟩ := (candIn_leaf pe flp il key k s fas l fa).mp hc
            subst hl
            exact (leaf_scan_spec pe flp il k (key ^^^ k) fas hp).1 hsc fa
              hcand.2.1 ⟨hcand.2.2.1, hcand.2.2.2⟩
          rw [lookup_loop.eq_def]
          dsimp only
          rw [if_neg hpr, if_pos hlf]
          split
          · rename_i r2 heq
            rw [hsc] at heq
            simp at heq
          · split
            · exact none_transport pe flp il key hb hnc
            · rename_i c2 bctx2 bn2 bci2 heq
              rw [hb] at heq
              simp at heq
  | case5 n bctx bn bci hpr hlf hsc c bctx2 bn2 bci2 hb ih =>
      intro hinv hfar hbm hsep
      cases n with
      | tyesde k pp bb ss ch =>
          exfalso
          have hb1 : 1 ≤ bb := by
            have hw := hinv.1
            rw [wf] at hw
            exact hw.1
          simp [IS_LEAF, KV.bits] at hlf
          omega
      | leaf k s fas =>
          have hp : List.Pairwise fa_ord fas :=
            hinv.2.2.1 (KV.leaf k s fas) (by rw [leaf_yesdes]; simp)
          have hnc : ∀ l fa, ¬candIn pe flp il key (KV.leaf k s fas) l fa := by
            intro l fa hc
            obtain ⟨hl, hcand⟩ := (candIn_leaf pe flp il key k s fas l fa).mp hc
            subst hl
            exact (leaf_scan_spec pe flp il k (key ^^^ k) fas hp).1 hsc fa
              hcand.2.1 ⟨hcand.2.2.1, hcand.2.2.2⟩
          obtain ⟨hinvc, hfarc, hbm2, hsep2⟩ :=
            pop_state pe flp il key root hroot bctx bn bci hbm c bctx2 bn2 bci2 hb
          have hres := ih hinvc hfarc hbm2 hsep2
          rw [lookup_loop.eq_def]
          dsimp only
          rw [if_neg hpr, if_pos hlf]
          split
          · rename_i r2 heq
            rw [hsc] at heq
            simp at heq
          · split
            · rename_i heq
              rw [hb] at heq
              simp at heq
            · rename_i c2 bctx2x bn2x bci2x heq
              rw [hb] at heq
              simp only [Option.some.injEq, Prod.mk.injEq] at heq
              obtain ⟨rfl, rfl, rfl, rfl⟩ := heq
              exact pop_transport pe flp il key hb hnc hres
  | case6 n bctx bn bci hpr hlf hg hb =>
      intro hinv hfar hbm hsep
      have hnc : ∀ l fa, ¬candIn pe flp il key n l fa := by
        intro l fa hc
        cases n with
        | leaf k s fas => exact hlf rfl
        | tyesde k pp bb ss ch =>
            obtain ⟨c0, hc0, _⟩ :=
              cand_child0 pe flp il key k pp bb ss ch hinv.1 hinv.2.1 l fa hc hfar
            have hgx : ch.getD 0 none = none := hg
            rw [hgx] at hc0
            simp at hc0
      rw [lookup_loop.eq_def]
      dsimp only
      rw [if_neg hpr, if_neg hlf]
      split
      · split
        · exact none_transport pe flp il key hb hnc
        · rename_i c2 bctx2 bn2 bci2 heq
          rw [hb] at heq
          simp at heq
      · rename_i c2 heq
        rw [hg] at heq
        simp at heq
  | case7 n bctx bn bci hpr hlf hg c bctx2 bn2 bci2 hb ih =>
      intro hinv hfar hbm hsep
      have hnc : ∀ l fa, ¬candIn pe flp il key n l fa := by
        intro l fa hc
        cases n with
        | leaf k s fas => exact hlf rfl
        | tyesde k pp bb ss ch =>
            obtain ⟨c0, hc0, _⟩ :=
              cand_child0 pe flp il key k pp bb ss ch hinv.1 hinv.2.1 l fa hc hfar
            have hgx : ch.getD 0 none = none := hg
            rw [hgx] at hc0
            simp at hc0
      obtain ⟨hinvc, hfarc, hbm2, hsep2⟩ :=
        pop_state pe flp il key root hroot bctx bn bci hbm c bctx2 bn2 bci2 hb
      have hres := ih hinvc hfarc hbm2 hsep2
      rw [lookup_loop.eq_def]
      dsimp only
      rw [if_neg hpr, if_neg hlf]
      split
      · split
        · rename_i heq
          rw [hb] at heq
          simp at heq
        · rename_i c2 bctx2x bn2x bci2x heq
          rw [hb] at heq
          simp only [Option.some.injEq, Prod.mk.injEq] at heq
          obtain ⟨rfl, rfl, rfl, rfl⟩ := heq
          exact pop_transport pe flp il key hb hnc hres
      · rename_i c2 heq
        rw [hg] at heq
        simp at heq
  | case8 n bctx bn bci hpr hlf c hg ih =>
      intro hinv hfar hbm hsep
      cases n with
      | leaf k s fas => exact absurd rfl hlf
      | tyesde k pp bb ss ch =>
          have hgx : ch.getD 0 none = some c := hg
          have hinvc : trie_inv c := inv_child k pp bb ss ch 0 c hgx hinv
          have hwf := hinv.1
          rw [wf] at hwf
          obtain ⟨hb1, hpb, hlen, hklt, hka, hch⟩ := hwf
          obtain ⟨hwfc, hcpb, hslot0⟩ := hch 0 (Nat.pos_pow_of_pos bb (by omega)) c hgx
          have hckr : KV.key c ^^^ k < 2 ^ pp := by
            rw [← shiftRight_eq_zero_iff_lt]
            exact hslot0
          have hfarc : 2 ^ (KV.pos c + KV.bits c) ≤ key ^^^ KV.key c := by
            have h1 : key ^^^ KV.key c = (key ^^^ k) ^^^ (k ^^^ KV.key c) :=
              xor_triangle key k (KV.key c)
            have h2 : k ^^^ KV.key c < 2 ^ (pp + bb) := by
              rw [Nat.xor_comm]
              exact lt_of_lt_of_le hckr (Nat.pow_le_pow_right (by omega) (by omega))
            have h3 : 2 ^ (pp + bb) ≤ key ^^^ KV.key c := by
              rw [h1]
              exact xor_ge_of_ge_lt hfar h2
            calc 2 ^ (KV.pos c + KV.bits c) ≤ 2 ^ (pp + bb) :=
                  Nat.pow_le_pow_right (by omega) (by omega)
              _ ≤ key ^^^ KV.key c := h3
          have hsepc : ∀ l fa, candIn pe flp il key c l fa →
              ∀ l2 fa2, bt_cand pe flp il key bctx bn bci l2 fa2 →
                fa.fa_slen < fa2.fa_slen := by
            intro l fa hcl l2 fa2 hbt
            exact hsep l fa ⟨leaf_yesdes_child k pp bb ss ch 0 c hgx l hcl.1, hcl.2⟩
              l2 fa2 hbt
          have hres := ih hinvc hfarc hbm hsepc
          rw [lookup_loop.eq_def]
          dsimp only
          rw [if_neg hpr, if_neg hlf]
          split
          · rename_i heq
            have hgy : ch.getD 0 none = none := heq
            rw [hgx] at hgy
            simp at hgy
          · rename_i c2 heq
            have hgy : ch.getD 0 none = some c2 := heq
            rw [hgx] at hgy
            obtain rfl : c = c2 := Option.some.inj hgy
            apply res_spec_congr hres
            intro l fa
            constructor
            · rintro (h | h)
              · exact Or.inl ⟨leaf_yesdes_child k pp bb ss ch 0 c hgx l h.1, h.2⟩
              · exact Or.inr h
            · rintro (h | h)
              · obtain ⟨c0, hc0, hcIn⟩ :=
                  cand_child0 pe flp il key k pp bb ss ch hinv.1 hinv.2.1 l fa h hfar
                rw [hgx] at hc0
                obtain rfl : c = c0 := Option.some.inj hc0
                exact Or.inl hcIn
              · exact Or.inr h

/-- During step 1 the bookmark lies on the descent path above the current
yesde, so its reachable routes are strictly less specific than any usable
route beneath the current yesde. -/
theorem step1_sep (pe : Nat → Int) (flp : Flowi4) (il : Bool) (key : Nat)
    (root : Option KV) (hroot : trie_inv_opt root)
    {bctx : List Frame} {bn : Option KV} {bci : Nat} {n : KV}
    (hbm : bm_ok key root bctx bn bci)
    (hlink : ∀ p, bn = some p → bci = get_cindex key p ∧
      ∃ cv, get_child p bci = some cv ∧ ∀ x, x ∈ leaf_yesdes n → x ∈ leaf_yesdes cv) :
    ∀ l fa, candIn pe flp il key n l fa →
      ∀ l2 fa2, bt_cand pe flp il key bctx bn bci l2 fa2 →
        fa.fa_slen < fa2.fa_slen := by
  intro l fa hc l2 fa2 hbt
  cases bn with
  | none => exact absurd hbt (bt_cand_none pe flp il key bctx bci l2 fa2)
  | some p =>
      obtain ⟨hbeq, cv, hgcv, hsub⟩ := hlink p rfl
      rw [bm_ok] at hbm
      obtain ⟨hctx, hkf, hci, hform⟩ := hbm
      cases p with
      | leaf k s fas => simp [get_child, KV.children, List.getD] at hgcv
      | tyesde k pp bb ss ch =>
          have hgcv2 : ch.getD bci none = some cv := hgcv
          have hlp : l ∈ leaf_yesdes (KV.tyesde k pp bb ss ch) :=
            leaf_yesdes_child k pp bb ss ch bci cv hgcv2 l (hsub l hc.1)
          have hinvp := inv_of_ctx_ok bctx _ root hctx hroot
          have hcix : (key ^^^ k) >>> pp < 2 ^ bb := hci
          have hbci2 : bci < 2 ^ bb := by
            rw [hbeq]
            exact hcix
          have hslt := slot_of_under k pp bb ss ch hinvp.1 bci cv hbci2 hgcv2 l
            (hsub l hc.1)
          obtain ⟨w, hw⟩ := hform
          have hwk : bci = kclear (get_cindex key (KV.tyesde k pp bb ss ch)) w := hw
          apply bt_sep pe flp il key root hroot l fa hc.2 bctx
            (some (KV.tyesde k pp bb ss ch)) bci l2 fa2 _ rfl hctx hkf hci
            ⟨w, hwk⟩ hlp ?_ hbt
          show bci ≤ (KV.key l ^^^ k) >>> pp
          omega

theorem lookup_step1_eq_overflow (pe : Nat → Int) (flp : Flowi4) (il : Bool)
    (key : Nat) (path : List Frame) (n : KV) (bctx : List Frame) (bn : Option KV)
    (bci : Nat) (h : get_cindex key n ≥ 2 ^ KV.bits n) :
    lookup_step1 pe flp il key path n bctx bn bci =
      lookup_loop pe flp il key n bctx bn bci := by
  rw [lookup_step1.eq_def]
  dsimp only
  rw [if_pos h]

theorem lookup_step1_eq_found (pe : Nat → Int) (flp : Flowi4) (il : Bool)
    (key : Nat) (path : List Frame) (n : KV) (bctx : List Frame) (bn : Option KV)
    (bci : Nat) (h1 : ¬ get_cindex key n ≥ 2 ^ KV.bits n) (h2 : IS_LEAF n = true)
    (r : Int × Option FibResult)
    (h3 : leaf_scan pe flp il (KV.key n) (key ^^^ KV.key n) (KV.fas n) = some r) :
    lookup_step1 pe flp il key path n bctx bn bci = r := by
  rw [lookup_step1.eq_def]
  dsimp only
  rw [if_neg h1, if_pos h2]
  split
  · rename_i r2 heq
    rw [h3] at heq
    exact (Option.some.inj heq).symm
  · rename_i heq
    rw [h3] at heq
    simp at heq

theorem lookup_step1_eq_leaf_none (pe : Nat → Int) (flp : Flowi4) (il : Bool)
    (key : Nat) (path : List Frame) (n : KV) (bctx : List Frame) (bn : Option KV)
    (bci : Nat) (h1 : ¬ get_cindex key n ≥ 2 ^ KV.bits n) (h2 : IS_LEAF n = true)
    (h3 : leaf_scan pe flp il (KV.key n) (key ^^^ KV.key n) (KV.fas n) = none)
    (h4 : backtrace bctx bn bci = none) :
    lookup_step1 pe flp il key path n bctx bn bci = (-EAGAIN, none) := by
  rw [lookup_step1.eq_def]
  dsimp only
  rw [if_neg h1, if_pos h2]
  split
  · rename_i r2 heq
    rw [h3] at heq
    simp at heq
  · rw [h4]

theorem lookup_step1_eq_leaf_pop (pe : Nat → Int) (flp : Flowi4) (il : Bool)
    (key : Nat) (path : List Frame) (n : KV) (bctx : List Frame) (bn : Option KV)
    (bci : Nat) (h1 : ¬ get_cindex key n ≥ 2 ^ KV.bits n) (h2 : IS_LEAF n = true)
    (h3 : leaf_scan pe flp il (KV.key n) (key ^^^ KV.key n) (KV.fas n) = none)
    (c : KV) (bctx2 : List Frame) (bn2 : Option KV) (bci2 : Nat)
    (h4 : backtrace bctx bn bci = some (c, bctx2, bn2, bci2)) :
    lookup_step1 pe flp il key path n bctx bn bci =
      lookup_loop pe flp il key c bctx2 bn2 bci2 := by
  rw [lookup_step1.eq_def]
  dsimp only
  rw [if_neg h1, if_pos h2]
  split
  · rename_i r2 heq
    rw [h3] at heq
    simp at heq
  · rw [h4]

theorem lookup_step1_eq_null_none (pe : Nat → Int) (flp : Flowi4) (il : Bool)
    (key : Nat) (path : List Frame) (n : KV) (bctx : List Frame) (bn : Option KV)
    (bci : Nat) (h1 : ¬ get_cindex key n ≥ 2 ^ KV.bits n) (h2 : ¬ IS_LEAF n = true)
    (h3 : get_child n (get_cindex key n) = none)
    (stp : List Frame) (stn : Option KV) (sti : Nat)
    (hstv : (if KV.slen n > KV.pos n then (path, some n, get_cindex key n)
      else (bctx, bn, bci)) = (stp, stn, sti))
    (h4 : backtrace stp stn sti = none) :
    lookup_step1 pe flp il key path n bctx bn bci = (-EAGAIN, none) := by
  rw [lookup_step1.eq_def]
  dsimp only
  rw [if_neg h1, if_neg h2, hstv]
  dsimp only
  split
  · rw [h4]
  · rename_i c2 heq
    rw [h3] at heq
    simp at heq

theorem lookup_step1_eq_null_pop (pe : Nat → Int) (flp : Flowi4) (il : Bool)
    (key : Nat) (path : List Frame) (n : KV) (bctx : List Frame) (bn : Option KV)
    (bci : Nat) (h1 : ¬ get_cindex key n ≥ 2 ^ KV.bits n) (h2 : ¬ IS_LEAF n = true)
    (h3 : get_child n (get_cindex key n) = none)
    (stp : List Frame) (stn : Option KV) (sti : Nat)
    (hstv : (if KV.slen n > KV.pos n then (path, some n, get_cindex key n)
      else (bctx, bn, bci)) = (stp, stn, sti))
    (c : KV) (bctx2 : List Frame) (bn2 : Option KV) (bci2 : Nat)
    (h4 : backtrace stp stn sti = some (c, bctx2, bn2, bci2)) :
    lookup_step1 pe flp il key path n bctx bn bci =
      lookup_loop pe flp il key c bctx2 bn2 bci2 := by
  rw [lookup_step1.eq_def]
  dsimp only
  rw [if_neg h1, if_neg h2, hstv]
  dsimp only
  split
  · rw [h4]
  · rename_i c2 heq
    rw [h3] at heq
    simp at heq

theorem lookup_step1_eq_descend (pe : Nat → Int) (flp : Flowi4) (il : Bool)
    (key : Nat) (path : List Frame) (n : KV) (bctx : List Frame) (bn : Option KV)
    (bci : Nat) (h1 : ¬ get_cindex key n ≥ 2 ^ KV.bits n) (h2 : ¬ IS_LEAF n = true)
    (c : KV) (h3 : get_child n (get_cindex key n) = some c)
    (stp : List Frame) (stn : Option KV) (sti : Nat)
    (hstv : (if KV.slen n > KV.pos n then (path, some n, get_cindex key n)
      else (bctx, bn, bci)) = (stp, stn, sti)) :
    lookup_step1 pe flp il key path n bctx bn bci =
      lookup_step1 pe flp il key
        (⟨KV.key n, KV.pos n, KV.bits n, KV.slen n, KV.children n,
          get_cindex key n⟩ :: path) c stp stn sti := by
  rw [lookup_step1.eq_def]
  dsimp only
  rw [if_neg h1, if_neg h2, hstv]
  dsimp only
  split
  · rename_i heq
    rw [h3] at heq
    simp at heq
  · rename_i c2 heq
    rw [h3] at heq
    obtain rfl : c = c2 := Option.some.inj heq
    rfl

/-- Beneath a yesde whose suffixes stop at its pos, yes sibling slot below the
key's child index holds a usable route (the reason step 1 only bookmarks
yesdes with slen > pos). -/
theorem no_strip_cands (pe : Nat → Int) (flp : Flowi4) (il : Bool) (key : Nat)
    (k pp bb ss : Nat) (ch : List (Option KV))
    (hinv : trie_inv (KV.tyesde k pp bb ss ch))
    (hgc : (key ^^^ k) >>> pp < 2 ^ bb) (hslow : ss ≤ pp) :
    ∀ j cv, j < (key ^^^ k) >>> pp →
      get_child (KV.tyesde k pp bb ss ch) j = some cv →
      ∀ l fa, ¬candIn pe flp il key cv l fa := by
  intro j cv hj hgj l fa hcIn
  have hgj2 : ch.getD j none = some cv := hgj
  have hcn : candIn pe flp il key (KV.tyesde k pp bb ss ch) l fa :=
    ⟨leaf_yesdes_child k pp bb ss ch j cv hgj2 l hcIn.1, hcIn.2⟩
  obtain ⟨c2, hc2, hcIn2, hslot⟩ :=
    cand_low_slot pe flp il key k pp bb ss ch hinv hgc hslow l fa hcn
  have hju := slot_of_under k pp bb ss ch hinv.1 j cv (by omega) hgj2 l hcIn.1
  omega

/-- Step 1 correctness: descending along the key with the slen > pos
bookmark discipline realises the longest-prefix-match contract. -/
theorem lookup_step1_spec (pe : Nat → Int) (flp : Flowi4) (il : Bool)
    (key : Nat) (root : Option KV) (hroot : trie_inv_opt root) :
    ∀ (path : List Frame) (n : KV) (bctx : List Frame) (bn : Option KV) (bci : Nat),
      trie_inv n →
      ctx_ok path (some n) root →
      key_frames key path →
      bm_ok key root bctx bn bci →
      (∀ p, bn = some p → bci = get_cindex key p ∧
        ∃ cv, get_child p bci = some cv ∧
          ∀ x, x ∈ leaf_yesdes n → x ∈ leaf_yesdes cv) →
      (∀ l fa, bt_cand pe flp il key path (some n) 0 l fa ↔
        bt_cand pe flp il key bctx bn bci l fa) →
      res_spec pe flp il key (lookup_step1 pe flp il key path n bctx bn bci)
        (fun l fa => candIn pe flp il key n l fa ∨
          bt_cand pe flp il key bctx bn bci l fa) := by
  intro path n bctx bn bci
  induction path, n, bctx, bn, bci using lookup_step1.induct pe flp il key with
  | case1 path n bctx bn bci index hov =>
      intro hinv hctx hkf hbm hlink hrem
      have hovx : get_cindex key n ≥ 2 ^ KV.bits n := hov
      rw [lookup_step1_eq_overflow pe flp il key path n bctx bn bci hovx]
      apply lookup_loop_spec pe flp il key root hroot n bctx bn bci hinv ?_ hbm
        (step1_sep pe flp il key root hroot hbm hlink)
      rw [← le_shiftRight_iff]
      exact hovx
  | case2 path n bctx bn bci index hnov hlf r hsc =>
      intro hinv hctx hkf hbm hlink hrem
      have hnovx : ¬ get_cindex key n ≥ 2 ^ KV.bits n := hnov
      rw [lookup_step1_eq_found pe flp il key path n bctx bn bci hnovx hlf r hsc]
      cases n with
      | tyesde k pp bb ss ch =>
          exfalso
          have hb1 : 1 ≤ bb := by
            have hw := hinv.1
            rw [wf] at hw
            exact hw.1
          simp [IS_LEAF, KV.bits] at hlf
          omega
      | leaf k s fas =>
          exact leaf_found_spec pe flp il key k s fas hinv r hsc
            (step1_sep pe flp il key root hroot hbm hlink)
  | case3 path n bctx bn bci index hnov hlf hsc hb =>
      intro hinv hctx hkf hbm hlink hrem
      have hnovx : ¬ get_cindex key n ≥ 2 ^ KV.bits n := hnov
      rw [lookup_step1_eq_leaf_none pe flp il key path n bctx bn bci hnovx hlf hsc hb]
      cases n with
      | tyesde k pp bb ss ch =>
          exfalso
          have hb1 : 1 ≤ bb := by
            have hw := hinv.1
            rw [wf] at hw
            exact hw.1
          simp [IS_LEAF, KV.bits] at hlf
          omega
      | leaf k s fas =>
          have hp : List.Pairwise fa_ord fas :=
            hinv.2.2.1 (KV.leaf k s fas) (by rw [leaf_yesdes]; simp)
          have hnc : ∀ l fa, ¬candIn pe flp il key (KV.leaf k s fas) l fa := by
            intro l fa hc
            obtain ⟨hl, hcand⟩ := (candIn_leaf pe flp il key k s fas l fa).mp hc
            subst hl
            exact (leaf_scan_spec pe flp il k (key ^^^ k) fas hp).1 hsc fa
              hcand.2.1 ⟨hcand.2.2.1, hcand.2.2.2⟩
          exact none_transport pe flp il key hb hnc
  | case4 path n bctx bn bci index hnov hlf hsc c bctx2 bn2 bci2 hb =>
      intro hinv hctx hkf hbm hlink hrem
      have hnovx : ¬ get_cindex key n ≥ 2 ^ KV.bits n := hnov
      rw [lookup_step1_eq_leaf_pop pe flp il key path n bctx bn bci hnovx hlf hsc
        c bctx2 bn2 bci2 hb]
      cases n with
      | tyesde k pp bb ss ch =>
          exfalso
          have hb1 : 1 ≤ bb := by
            have hw := hinv.1
            rw [wf] at hw
            exact hw.1
          simp [IS_LEAF, KV.bits] at hlf
          omega
      | leaf k s fas =>
          have hp : List.Pairwise fa_ord fas :=
            hinv.2.2.1 (KV.leaf k s fas) (by rw [leaf_yesdes]; simp)
          have hnc : ∀ l fa, ¬candIn pe flp il key (KV.leaf k s fas) l fa := by
            intro l fa hc
            obtain ⟨hl, hcand⟩ := (candIn_leaf pe flp il key k s fas l fa).mp hc
            subst hl
            exact (leaf_scan_spec pe flp il k (key ^^^ k) fas hp).1 hsc fa
              hcand.2.1 ⟨hcand.2.2.1, hcand.2.2.2⟩
          obtain ⟨hinvc, hfarc, hbm2, hsep2⟩ :=
            pop_state pe flp il key root hroot bctx bn bci hbm c bctx2 bn2 bci2 hb
          exact pop_transport pe flp il key hb hnc
            (lookup_loop_spec pe flp il key root hroot c bctx2 bn2 bci2 hinvc
              hfarc hbm2 hsep2)
  | case5 path n bctx bn bci index hnov hlf st hg hb =>
      intro hinv hctx hkf hbm hlink hrem
      have hnovx : ¬ get_cindex key n ≥ 2 ^ KV.bits n := hnov
      have hgx : get_child n (get_cindex key n) = none := hg
      have hstd : st = if KV.slen n > KV.pos n then (path, some n, get_cindex key n)
          else (bctx, bn, bci) := rfl
      by_cases hsl : KV.slen n > KV.pos n
      · have hstv : (if KV.slen n > KV.pos n then (path, some n, get_cindex key n)
            else (bctx, bn, bci)) = (path, some n, get_cindex key n) := if_pos hsl
        have hb2 : backtrace path (some n) (get_cindex key n) = none := by
          rw [hstd, hstv] at hb
          exact hb
        rw [lookup_step1_eq_null_none pe flp il key path n bctx bn bci hnovx hlf hgx
          path (some n) (get_cindex key n) hstv hb2]
        left
        refine ⟨rfl, ?_⟩
        rintro l fa (hc | hbt)
        · cases n with
          | leaf k s fas =>
              exact hlf rfl
          | tyesde k pp bb ss ch =>
              have hcix : (key ^^^ k) >>> pp < 2 ^ bb := by
                push_neg at hnovx
                exact hnovx
              rcases (cand_decomp pe flp il key k pp bb ss ch hinv hcix l fa).mp hc with
                ⟨c0, hc0, _⟩ | hbtc
              · have hgy : ch.getD ((key ^^^ k) >>> pp) none = none := hgx
                rw [hgy] at hc0
                simp at hc0
              · exact backtrace_none_cand pe flp il key path
                  (some (KV.tyesde k pp bb ss ch)) ((key ^^^ k) >>> pp) hb2 l fa
                  ((bt_cand_split pe flp il key ((key ^^^ k) >>> pp) path
                    (KV.tyesde k pp bb ss ch) l fa).mpr (Or.inl hbtc))
        · exact backtrace_none_cand pe flp il key path (some n) (get_cindex key n)
            hb2 l fa (bt_cand_zero_le pe flp il key (get_cindex key n) path n l fa
              ((hrem l fa).mpr hbt))
      · have hstv : (if KV.slen n > KV.pos n then (path, some n, get_cindex key n)
            else (bctx, bn, bci)) = (bctx, bn, bci) := if_neg hsl
        have hb2 : backtrace bctx bn bci = none := by
          rw [hstd, hstv] at hb
          exact hb
        rw [lookup_step1_eq_null_none pe flp il key path n bctx bn bci hnovx hlf hgx
          bctx bn bci hstv hb2]
        apply none_transport pe flp il key hb2 ?_
        intro l fa hc
        cases n with
        | leaf k s fas => exact hlf rfl
        | tyesde k pp bb ss ch =>
            have hcix : (key ^^^ k) >>> pp < 2 ^ bb := by
              push_neg at hnovx
              exact hnovx
            have hslow : ss ≤ pp := by
              push_neg at hsl
              exact hsl
            obtain ⟨c2, hc2, _, _⟩ :=
              cand_low_slot pe flp il key k pp bb ss ch hinv hcix hslow l fa hc
            have hgy : ch.getD ((key ^^^ k) >>> pp) none = none := hgx
            rw [hgy] at hc2
            simp at hc2
  | case6 path n bctx bn bci index hnov hlf st hg c bctx2 bn2 bci2 hb =>
      intro hinv hctx hkf hbm hlink hrem
      have hnovx : ¬ get_cindex key n ≥ 2 ^ KV.bits n := hnov
      have hgx : get_child n (get_cindex key n) = none := hg
      have hstd : st = if KV.slen n > KV.pos n then (path, some n, get_cindex key n)
          else (bctx, bn, bci) := rfl
      by_cases hsl : KV.slen n > KV.pos n
      · have hstv : (if KV.slen n > KV.pos n then (path, some n, get_cindex key n)
            else (bctx, bn, bci)) = (path, some n, get_cindex key n) := if_pos hsl
        have hb2 : backtrace path (some n) (get_cindex key n) =
            some (c, bctx2, bn2, bci2) := by
          rw [hstd, hstv] at hb
          exact hb
        have hciv : get_cindex key n < 2 ^ KV.bits n := by
          push_neg at hnovx
          exact hnovx
        have hbmst : bm_ok key root path (some n) (get_cindex key n) := by
          rw [bm_ok]
          exact ⟨hctx, hkf, hciv, ⟨0, by simp⟩⟩
        obtain ⟨hinvc, hfarc, hbm2, hsep2⟩ :=
          pop_state pe flp il key root hroot path (some n) (get_cindex key n)
            hbmst c bctx2 bn2 bci2 hb2
        have hres := lookup_loop_spec pe flp il key root hroot c bctx2 bn2 bci2
          hinvc hfarc hbm2 hsep2
        rw [lookup_step1_eq_null_pop pe flp il key path n bctx bn bci hnovx hlf hgx
          path (some n) (get_cindex key n) hstv c bctx2 bn2 bci2 hb2]
        apply res_spec_congr hres
        intro l fa
        have hbc := backtrace_some_cand pe flp il key path (some n)
          (get_cindex key n) c bctx2 bn2 bci2 hb2 l fa
        have hsplit := bt_cand_split pe flp il key (get_cindex key n) path n l fa
        constructor
        · intro h
          have hpc : bt_cand pe flp il key path (some n) (get_cindex key n) l fa :=
            hbc.mpr h
          rcases hsplit.mp hpc with hin | h0
          · exact Or.inl (bt_cand_sub pe flp il key (get_cindex key n) n l fa hin)
          · exact Or.inr ((hrem l fa).mp h0)
        · rintro (hc | hbt)
          · apply hbc.mp
            apply hsplit.mpr
            left
            cases n with
            | leaf k s fas => exact absurd rfl hlf
            | tyesde k pp bb ss ch =>
                have hcix : (key ^^^ k) >>> pp < 2 ^ bb := hciv
                rcases (cand_decomp pe flp il key k pp bb ss ch hinv hcix l fa).mp hc
                  with ⟨c0, hc0, _⟩ | hbtc
                · have hgy : ch.getD ((key ^^^ k) >>> pp) none = none := hgx
                  rw [hgy] at hc0
                  simp at hc0
                · exact hbtc
          · exact hbc.mp (hsplit.mpr (Or.inr ((hrem l fa).mpr hbt)))
      · have hstv : (if KV.slen n > KV.pos n then (path, some n, get_cindex key n)
            else (bctx, bn, bci)) = (bctx, bn, bci) := if_neg hsl
        have hb2 : backtrace bctx bn bci = some (c, bctx2, bn2, bci2) := by
          rw [hstd, hstv] at hb
          exact hb
        have hnc : ∀ l fa, ¬candIn pe flp il key n l fa := by
          intro l fa hc
          cases n with
          | leaf k s fas => exact hlf rfl
          | tyesde k pp bb ss ch =>
              have hcix : (key ^^^ k) >>> pp < 2 ^ bb := by
                push_neg at hnovx
                exact hnovx
              have hslow : ss ≤ pp := by
                push_neg at hsl
                exact hsl
              obtain ⟨c2, hc2, _, _⟩ :=
                cand_low_slot pe flp il key k pp bb ss ch hinv hcix hslow l fa hc
              have hgy : ch.getD ((key ^^^ k) >>> pp) none = none := hgx
              rw [hgy] at hc2
              simp at hc2
        obtain ⟨hinvc, hfarc, hbm2, hsep2⟩ :=
          pop_state pe flp il key root hroot bctx bn bci hbm c bctx2 bn2 bci2 hb2
        rw [lookup_step1_eq_null_pop pe flp il key path n bctx bn bci hnovx hlf hgx
          bctx bn bci hstv c bctx2 bn2 bci2 hb2]
        exact pop_transport pe flp il key hb2 hnc
          (lookup_loop_spec pe flp il key root hroot c bctx2 bn2 bci2 hinvc
            hfarc hbm2 hsep2)
  | case7 path n bctx bn bci index hnov hlf st c hg ih =>
      intro hinv hctx hkf hbm hlink hrem
      have hnovx : ¬ get_cindex key n ≥ 2 ^ KV.bits n := hnov
      have hgx : get_child n (get_cindex key n) = some c := hg
      have hstd : st = if KV.slen n > KV.pos n then (path, some n, get_cindex key n)
          else (bctx, bn, bci) := rfl
      cases n with
      | leaf k s fas => exact absurd rfl hlf
      | tyesde k pp bb ss ch =>
          have hcix : (key ^^^ k) >>> pp < 2 ^ bb := by
            push_neg at hnovx
            exact hnovx
          have hgch : ch.getD ((key ^^^ k) >>> pp) none = some c := hgx
          have hinvc := inv_child k pp bb ss ch _ c hgch hinv
          have hlen2 : ch.length = 2 ^ bb := by
            have hw := hinv.1
            rw [wf] at hw
            exact hw.2.2.1
          have hidxlen : (key ^^^ k) >>> pp < ch.length := by
            rw [hlen2]
            exact hcix
          have hfill : Frame.fill
              ⟨KV.key (KV.tyesde k pp bb ss ch), KV.pos (KV.tyesde k pp bb ss ch),
                KV.bits (KV.tyesde k pp bb ss ch), KV.slen (KV.tyesde k pp bb ss ch),
                KV.children (KV.tyesde k pp bb ss ch),
                get_cindex key (KV.tyesde k pp bb ss ch)⟩ (some c) =
              KV.tyesde k pp bb ss ch := by
            show KV.tyesde k pp bb ss (ch.set ((key ^^^ k) >>> pp) (some c)) =
              KV.tyesde k pp bb ss ch
            rw [set_getD_self_eq ch _ (some c) hgch hidxlen]
          have hctx2 : ctx_ok
              (⟨KV.key (KV.tyesde k pp bb ss ch), KV.pos (KV.tyesde k pp bb ss ch),
                KV.bits (KV.tyesde k pp bb ss ch), KV.slen (KV.tyesde k pp bb ss ch),
                KV.children (KV.tyesde k pp bb ss ch),
                get_cindex key (KV.tyesde k pp bb ss ch)⟩ :: path) (some c) root := by
            rw [ctx_ok]
            refine ⟨?_, ?_⟩
            · exact hidxlen
            · rw [hfill]
              exact hctx
          have hkf2 : key_frames key
              (⟨KV.key (KV.tyesde k pp bb ss ch), KV.pos (KV.tyesde k pp bb ss ch),
                KV.bits (KV.tyesde k pp bb ss ch), KV.slen (KV.tyesde k pp bb ss ch),
                KV.children (KV.tyesde k pp bb ss ch),
                get_cindex key (KV.tyesde k pp bb ss ch)⟩ :: path) := by
            rw [key_frames]
            exact ⟨rfl, hcix, hkf⟩
          by_cases hsl : KV.slen (KV.tyesde k pp bb ss ch) > KV.pos (KV.tyesde k pp bb ss ch)
          · have hstv : (if KV.slen (KV.tyesde k pp bb ss ch) >
                KV.pos (KV.tyesde k pp bb ss ch) then
                (path, some (KV.tyesde k pp bb ss ch),
                  get_cindex key (KV.tyesde k pp bb ss ch))
              else (bctx, bn, bci)) =
                (path, some (KV.tyesde k pp bb ss ch),
                  get_cindex key (KV.tyesde k pp bb ss ch)) := if_pos hsl
            rw [hstd, hstv] at ih
            have hbmst : bm_ok key root path (some (KV.tyesde k pp bb ss ch))
                (get_cindex key (KV.tyesde k pp bb ss ch)) := by
              rw [bm_ok]
              refine ⟨hctx, hkf, ?_, ⟨0, by simp⟩⟩
              exact hcix
            have hlink2 : ∀ p, some (KV.tyesde k pp bb ss ch) = some p →
                get_cindex key (KV.tyesde k pp bb ss ch) = get_cindex key p ∧
                ∃ cv, get_child p (get_cindex key (KV.tyesde k pp bb ss ch)) = some cv ∧
                  ∀ x, x ∈ leaf_yesdes c → x ∈ leaf_yesdes cv := by
              intro p hp
              obtain rfl : KV.tyesde k pp bb ss ch = p := Option.some.inj hp
              exact ⟨rfl, c, hgx, fun x hx => hx⟩
            have hrem2 : ∀ l fa, bt_cand pe flp il key
                (⟨KV.key (KV.tyesde k pp bb ss ch), KV.pos (KV.tyesde k pp bb ss ch),
                  KV.bits (KV.tyesde k pp bb ss ch), KV.slen (KV.tyesde k pp bb ss ch),
                  KV.children (KV.tyesde k pp bb ss ch),
                  get_cindex key (KV.tyesde k pp bb ss ch)⟩ :: path) (some c) 0 l fa ↔
                bt_cand pe flp il key path (some (KV.tyesde k pp bb ss ch))
                  (get_cindex key (KV.tyesde k pp bb ss ch)) l fa := by
              intro l fa
              rw [bt_cand_zero_cons, hfill]
            have hres := ih hinvc hctx2 hkf2 hbmst hlink2 hrem2
            rw [lookup_step1_eq_descend pe flp il key path (KV.tyesde k pp bb ss ch)
              bctx bn bci hnovx hlf c hgx path (some (KV.tyesde k pp bb ss ch))
              (get_cindex key (KV.tyesde k pp bb ss ch)) hstv]
            apply res_spec_congr hres
            intro l fa
            have hsplit := bt_cand_split pe flp il key
              (get_cindex key (KV.tyesde k pp bb ss ch)) path
              (KV.tyesde k pp bb ss ch) l fa
            have hdec := cand_decomp pe flp il key k pp bb ss ch hinv hcix l fa
            constructor
            · rintro (hc | hbt)
              · exact Or.inl ⟨leaf_yesdes_child k pp bb ss ch _ c hgch l hc.1, hc.2⟩
              · rcases hsplit.mp hbt with hin | h0
                · exact Or.inl (bt_cand_sub pe flp il key _ _ l fa hin)
                · exact Or.inr ((hrem l fa).mp h0)
            · rintro (hc | hbt)
              · rcases hdec.mp hc with ⟨c0, hc0, hcIn0⟩ | hbtc
                · rw [hgch] at hc0
                  obtain rfl : c = c0 := Option.some.inj hc0
                  exact Or.inl hcIn0
                · exact Or.inr (hsplit.mpr (Or.inl hbtc))
              · exact Or.inr (hsplit.mpr (Or.inr ((hrem l fa).mpr hbt)))
          · have hstv : (if KV.slen (KV.tyesde k pp bb ss ch) >
                KV.pos (KV.tyesde k pp bb ss ch) then
                (path, some (KV.tyesde k pp bb ss ch),
                  get_cindex key (KV.tyesde k pp bb ss ch))
              else (bctx, bn, bci)) = (bctx, bn, bci) := if_neg hsl
            rw [hstd, hstv] at ih
            have hslow : ss ≤ pp := by
              push_neg at hsl
              exact hsl
            have hlink2 : ∀ p, bn = some p → bci = get_cindex key p ∧
                ∃ cv, get_child p bci = some cv ∧
                  ∀ x, x ∈ leaf_yesdes c → x ∈ leaf_yesdes cv := by
              intro p hp
              obtain ⟨hbeq, cv, hgcv, hsub⟩ := hlink p hp
              exact ⟨hbeq, cv, hgcv,
                fun x hx => hsub x (leaf_yesdes_child k pp bb ss ch _ c hgch x hx)⟩
            have hrem2 : ∀ l fa, bt_cand pe flp il key
                (⟨KV.key (KV.tyesde k pp bb ss ch), KV.pos (KV.tyesde k pp bb ss ch),
                  KV.bits (KV.tyesde k pp bb ss ch), KV.slen (KV.tyesde k pp bb ss ch),
                  KV.children (KV.tyesde k pp bb ss ch),
                  get_cindex key (KV.tyesde k pp bb ss ch)⟩ :: path) (some c) 0 l fa ↔
                bt_cand pe flp il key bctx bn bci l fa := by
              intro l fa
              rw [bt_cand_zero_cons, hfill]
              rw [← hrem l fa]
              constructor
              · intro h
                exact bt_cand_of_no_strips pe flp il key ((key ^^^ k) >>> pp)
                  (get_cindex key (KV.tyesde k pp bb ss ch)) path
                  (KV.tyesde k pp bb ss ch) l fa (le_refl _)
                  (fun j cv hj hgj =>
                    no_strip_cands pe flp il key k pp bb ss ch hinv hcix hslow
                      j cv hj hgj l fa) h
              · intro h
                exact bt_cand_zero_le pe flp il key _ path
                  (KV.tyesde k pp bb ss ch) l fa h
            have hres := ih hinvc hctx2 hkf2 hbm hlink2 hrem2
            rw [lookup_step1_eq_descend pe flp il key path (KV.tyesde k pp bb ss ch)
              bctx bn bci hnovx hlf c hgx bctx bn bci hstv]
            apply res_spec_congr hres
            intro l fa
            constructor
            · rintro (hc | hbt)
              · exact Or.inl ⟨leaf_yesdes_child k pp bb ss ch _ c hgch l hc.1, hc.2⟩
              · exact Or.inr hbt
            · rintro (hc | hbt)
              · obtain ⟨c2, hc2, hcIn2, _⟩ :=
                  cand_low_slot pe flp il key k pp bb ss ch hinv hcix hslow l fa hc
                rw [hgch] at hc2
                obtain rfl : c = c2 := Option.some.inj hc2
                exact Or.inl hcIn2
              · exact Or.inr hbt

/-- C1: fib_table_lookup(tb, flp, res, fib_flags) realises longest-prefix
match over any structurally sound trie: when yes stored alias both covers the
key and passes the tos/scope/dead/oif filters, it returns -EAGAIN with yes
result; otherwise its return value is the semantic outcome of an accepted
covering alias of minimal suffix length (maximal prefix length), and among
its leaf's covering accepted aliases the winner is the first in
fib_insert_alias order — ascending fa_slen with ties by descending table id —
yest the spec's lowest-priority-then-table-id order. -/
theorem fib_table_lookup_lpm (props_err : Nat → Int) (flp : Flowi4) (il : Bool)
    (root : Option KV) (hroot : trie_inv_opt root) :
    res_spec props_err flp il flp.daddr (fib_table_lookup props_err flp il root)
      (fun l fa => l ∈ trie_leaf_yesdes root ∧
        cand props_err flp il flp.daddr l fa) := by
  cases root with
  | none =>
      rw [fib_table_lookup]
      left
      refine ⟨rfl, ?_⟩
      rintro l fa ⟨hl, _⟩
      rw [trie_leaf_yesdes] at hl
      simp at hl
  | some n =>
      rw [fib_table_lookup]
      have hres := lookup_step1_spec props_err flp il flp.daddr (some n) hroot []
        n [] none 0 hroot rfl trivial ⟨rfl, rfl⟩ ?_ ?_
      · apply res_spec_congr hres
        intro l fa
        constructor
        · rintro (hc | hbt)
          · exact ⟨hc.1, hc.2⟩
          · exact absurd hbt (bt_cand_none props_err flp il flp.daddr [] 0 l fa)
        · rintro ⟨hl, hcand⟩
          exact Or.inl ⟨hl, hcand⟩
      · intro p hp
        cases hp
      · intro l fa
        constructor
        · intro h
          exact absurd h (bt_cand_zero_nil props_err flp il flp.daddr n l fa)
        · intro h
          exact absurd h (bt_cand_none props_err flp il flp.daddr [] 0 l fa)

/-- The fixture trie of one /24 leaf satisfies the structural invariants. -/
theorem cex_inv : trie_inv cexLeaf := by
  refine ⟨?_, ?_, ?_, ?_⟩
  · show wf (KV.leaf 0x0a010200 8 [faP5, faP1])
    rw [wf]
    norm_num
  · intro l hl fa hfa
    rw [show cexLeaf = KV.leaf 0x0a010200 8 [faP5, faP1] from rfl, leaf_yesdes] at hl
    simp at hl
    subst hl
    simp [KV.fas] at hfa
    rcases hfa with rfl | rfl
    · exact ⟨by decide, by decide⟩
    · exact ⟨by decide, by decide⟩
  · intro l hl
    rw [show cexLeaf = KV.leaf 0x0a010200 8 [faP5, faP1] from rfl, leaf_yesdes] at hl
    simp at hl
    subst hl
    show List.Pairwise fa_ord [faP5, faP1]
    decide
  · show slen_ge (KV.leaf 0x0a010200 8 [faP5, faP1])
    rw [slen_ge]
    intro fa hfa
    simp at hfa
    rcases hfa with rfl | rfl
    · decide
    · decide

/-- C1, counterexample to the claimed tie-break: a well-formed leaf holds two
covering /24 aliases of equal suffix length — table 254 priority 5 before
table 100 priority 1, the order fib_insert_alias maintains — and the lookup
returns the priority-5 route, yest the lowest-priority one the spec
promises. -/
theorem lookup_tiebreak_counterexample :
    trie_inv cexLeaf ∧
    cand peZ flpCex false flpCex.daddr cexLeaf faP1 ∧
    cand peZ flpCex false flpCex.daddr cexLeaf faP5 ∧
    faP1.fa_slen = faP5.fa_slen ∧
    faP1.fa_info.fib_priority < faP5.fa_info.fib_priority ∧
    fib_table_lookup peZ flpCex false (some cexLeaf) =
      (0, some { pfx := 0x0a010200, plen := 24, nh_sel := 0, rtype := 1,
                 rscope := 0, rfi := fiP5 }) := by
  refine ⟨cex_inv, ?_, ?_, by decide, by decide, ?_⟩
  · unfold cand
    exact ⟨by decide, by decide, by decide, by decide⟩
  · unfold cand
    exact ⟨by decide, by decide, by decide, by decide⟩
  calc fib_table_lookup peZ flpCex false (some cexLeaf)
      = lookup_loop peZ flpCex false flpCex.daddr cexLeaf [] none 0 :=
        lookup_step1_eq_overflow peZ flpCex false flpCex.daddr [] cexLeaf []
          none 0 (by decide)
    _ = (0, some { pfx := 0x0a010200, plen := 24, nh_sel := 0, rtype := 1,
                   rscope := 0, rfi := fiP5 }) := by
        rw [lookup_loop.eq_def]
        decide

/-- C1 witness: the contract of fib_table_lookup_lpm instantiated on the
concrete fixture trie. -/
theorem fib_table_lookup_lpm_witness :
    res_spec peZ flpCex false flpCex.daddr
      (fib_table_lookup peZ flpCex false (some cexLeaf))
      (fun l fa => l ∈ trie_leaf_yesdes (some cexLeaf) ∧
        cand peZ flpCex false flpCex.daddr l fa) :=
  fib_table_lookup_lpm peZ flpCex false (some cexLeaf) cex_inv
